import Mathlib

/-!
The bcrypt core (`Sources/CVaporBcrypt/bcrypt.c`): embedding and verified properties.

Conventions of the embedding.

* A byte (`u_int8_t`, `char`) is a `Nat` in `0..255`; a 32-bit word is a `Nat`.
* A pointer that walks through memory is the list of the bytes from the pointer
  onwards: `*p` is `p.getD 0 0`, `*(p + k)` is `p.getD k 0`, `p += k` is `p.drop k`.
  A C string is such a list, terminated by its first `0` byte or by the end of the
  list (an implicit NUL terminator follows every list).
* A buffer that a function fills from index 0 upwards is represented by the list of
  the bytes stored into it so far; bytes that were never stored are indeterminate
  and are not part of the list.
-/

namespace Bcrypt

/-! ## Constants -/

/-- Modelled from the spec: `bcrypt.h` is not among the sources. The version
character of the textual format (`$2a$`, `$2b$`), also hard-wired in the
`snprintf` format string of `vapor_bcrypt_hashpass`. -/
def BCRYPT_VERSION : Nat := 50

/-- Modelled from the spec: `bcrypt.h` is not among the sources. A salt is exactly
16 raw bytes. -/
def BCRYPT_MAXSALT : Nat := 16

/-- Modelled from the spec: `bcrypt.h` is not among the sources. The plaintext
constant is 24 bytes, seeded as six 32-bit words. -/
def BCRYPT_WORDS : Nat := 6

/-- Modelled from the spec: `bcrypt.h` is not among the sources. The cost lies in
`[4, 31]`. -/
def BCRYPT_MINLOGROUNDS : Nat := 4

/-- Modelled from the spec: `bcrypt.h` is not among the sources. The fixed-size
result is 60 characters and its NUL terminator. -/
def BCRYPT_HASHSPACE : Nat := 61

/-- The string `Base64Code` (bcrypt.c:164-165):
`./ABCDEFGHIJKLMNOPQRSTUVWXYZabcdefghijklmnopqrstuvwxyz0123456789`. -/
def Base64Code : List Nat :=
  [46, 47,
   65, 66, 67, 68, 69, 70, 71, 72, 73, 74, 75, 76, 77,
   78, 79, 80, 81, 82, 83, 84, 85, 86, 87, 88, 89, 90,
   97, 98, 99, 100, 101, 102, 103, 104, 105, 106, 107, 108, 109,
   110, 111, 112, 113, 114, 115, 116, 117, 118, 119, 120, 121, 122,
   48, 49, 50, 51, 52, 53, 54, 55, 56, 57]

/-- The table `index_64[128]` (bcrypt.c:167-181). -/
def index_64 : List Nat :=
  [255, 255, 255, 255, 255, 255, 255, 255, 255, 255,
   255, 255, 255, 255, 255, 255, 255, 255, 255, 255,
   255, 255, 255, 255, 255, 255, 255, 255, 255, 255,
   255, 255, 255, 255, 255, 255, 255, 255, 255, 255,
   255, 255, 255, 255, 255, 255, 0, 1, 54, 55,
   56, 57, 58, 59, 60, 61, 62, 63, 255, 255,
   255, 255, 255, 255, 255, 2, 3, 4, 5, 6,
   7, 8, 9, 10, 11, 12, 13, 14, 15, 16,
   17, 18, 19, 20, 21, 22, 23, 24, 25, 26, 27,
   255, 255, 255, 255, 255, 255, 28, 29, 30,
   31, 32, 33, 34, 35, 36, 37, 38, 39, 40,
   41, 42, 43, 44, 45, 46, 47, 48, 49, 50,
   51, 52, 53, 255, 255, 255, 255, 255]

/-- The lookup `CHAR64(c)` (bcrypt.c:182): `(c) > 127 ? 255 : index_64[(c)]`. -/
def CHAR64 (c : Nat) : Nat :=
  if c > 127 then 255 else index_64.getD c 255

/-- The character `Base64Code[i]`; index 64 of the C array is the NUL that ends
the string literal. -/
def Base64Char (i : Nat) : Nat := Base64Code.getD i 0

/-- The libc `strlen`: the number of bytes before the first NUL. -/
def strlen : List Nat → Nat
  | [] => 0
  | c :: cs => if c = 0 then 0 else strlen cs + 1

/-! ## Base64 codec -/

/-- The `while` loop of `decode_base64` (bcrypt.c:194-222). The first argument is
`buffer + len - bp`, the number of bytes still to produce; the second is `p`. The
result is the return value decided by the loop (`-1` on an invalid character,
otherwise `0` at loop exit) with the bytes stored through `bp`, in order. -/
def decode_base64_loop : Nat → List Nat → Int × List Nat
  | 0, _ => (0, [])
  | n + 1, p =>
    let c1 := CHAR64 (p.getD 0 0)
    if c1 = 255 then (-1, []) else
    let c2 := CHAR64 (p.getD 1 0)
    if c2 = 255 then (-1, []) else
    let b1 := ((c1 <<< 2) ||| ((c2 &&& 0x30) >>> 4)) % 256
    match n with
    | 0 => (0, [b1])
    | n + 1 =>
      let c3 := CHAR64 (p.getD 2 0)
      if c3 = 255 then (-1, [b1]) else
      let b2 := (((c2 &&& 0x0f) <<< 4) ||| ((c3 &&& 0x3c) >>> 2)) % 256
      match n with
      | 0 => (0, [b1, b2])
      | n + 1 =>
        let c4 := CHAR64 (p.getD 3 0)
        if c4 = 255 then (-1, [b1, b2]) else
        let b3 := (((c3 &&& 0x03) <<< 6) ||| c4) % 256
        let r := decode_base64_loop n (p.drop 4)
        (r.1, b1 :: b2 :: b3 :: r.2)

/-- The function `decode_base64(buffer, len, b64data)` (bcrypt.c:187-224): the
return value and the bytes stored into `buffer`, from index 0. -/
def decode_base64 (len : Nat) (b64data : List Nat) : Int × List Nat :=
  decode_base64_loop len b64data

/-- The `while` loop of `vapor_encode_base64` (bcrypt.c:237-257). The first
argument is `data + len - p`, the number of bytes still to read; the second is
`p`. The result is the characters stored through `bp`, in order. -/
def vapor_encode_base64_loop : Nat → List Nat → List Nat
  | 0, _ => []
  | n + 1, p =>
    let c1 := p.getD 0 0
    let o1 := Base64Char (c1 >>> 2)
    let c1 := ((c1 &&& 0x03) <<< 4) % 256
    match n with
    | 0 => [o1, Base64Char c1]
    | n + 1 =>
      let c2 := p.getD 1 0
      let c1 := c1 ||| ((c2 >>> 4) &&& 0x0f)
      let o2 := Base64Char c1
      let c1 := ((c2 &&& 0x0f) <<< 2) % 256
      match n with
      | 0 => [o1, o2, Base64Char c1]
      | n + 1 =>
        let c2 := p.getD 2 0
        let c1 := c1 ||| ((c2 >>> 6) &&& 0x03)
        o1 :: o2 :: Base64Char c1 :: Base64Char (c2 &&& 0x3f) ::
          vapor_encode_base64_loop n (p.drop 3)

/-- The function `vapor_encode_base64(b64buffer, data, len)` (bcrypt.c:230-260):
the return value (always 0) and the bytes stored into `b64buffer`, from index 0:
the characters of the loop and the final NUL. -/
def vapor_encode_base64 (data : List Nat) (len : Nat) : Int × List Nat :=
  (0, vapor_encode_base64_loop len data ++ [0])


/-! ## Blowfish engine interface -/

/-- The cipher context `blf_ctx` (blf.h:52-55): four S-boxes of 256 words and
`BLF_N + 2 = 18` subkeys. -/
structure blf_ctx where
  /-- The S-boxes `S[4][256]`. -/
  S : List (List Nat)
  /-- The subkeys `P[BLF_N + 2]`. -/
  P : List Nat
deriving DecidableEq, Repr

/-- The context after `explicit_bzero(&state, sizeof(state))`. -/
def blf_ctx.zero : blf_ctx :=
  { S := List.replicate 4 (List.replicate 256 0), P := List.replicate 18 0 }

/-- The Blowfish operations that `vapor_bcrypt_hashpass` calls. blf.h:63-77 declares
them and their bodies are not among the sources, so they are a parameter of the
embedding: any deterministic functions of the context and of the memory and
lengths they are handed. A pointer argument is the list of bytes from the
pointer onwards. -/
structure Blowfish where
  /-- `Viora_Blowfish_initstate(&state)`: the context it stores. -/
  Viora_Blowfish_initstate : blf_ctx
  /-- `Viora_Blowfish_expandstate(&state, data, databytes, key, keybytes)`. -/
  Viora_Blowfish_expandstate : blf_ctx → List Nat → Nat → List Nat → Nat → blf_ctx
  /-- `Viora_Blowfish_expand0state(&state, key, keybytes)`. -/
  Viora_Blowfish_expand0state : blf_ctx → List Nat → Nat → blf_ctx
  /-- `Viora_Blowfish_stream2word(data, databytes, &current)`: the word returned and
  the value left in `current`. -/
  Viora_Blowfish_stream2word : List Nat → Nat → Nat → Nat × Nat
  /-- `vapor_blf_enc(&state, data, blocks)`: the context and the words it leaves. -/
  vapor_blf_enc : blf_ctx → List Nat → Nat → blf_ctx × List Nat

/-- One call of a Blowfish operation made by `vapor_bcrypt_hashpass`, with the
lengths it was handed. The two call sites of `Viora_Blowfish_expand0state` are told
apart: on the password (`key`, `key_len`) and on the salt (`csalt`, `salt_len`). -/
inductive BlfCall where
  | initstate
  | expandstate (databytes keybytes : Nat)
  | expand0state_key (keybytes : Nat)
  | expand0state_salt (keybytes : Nat)
  | stream2word (databytes current : Nat)
  | blf_enc (blocks : Nat)
deriving DecidableEq, Repr

/-! ## The hash function -/

/-- The libc `isdigit` in the C locale. -/
def isdigit (c : Nat) : Bool := decide (48 ≤ c ∧ c ≤ 57)

/-- The initialiser of `ciphertext` (bcrypt.c:59): `"OrpheanBeholderScryDoubt"`. -/
def OrpheanBeholderScryDoubt : List Nat :=
  [79, 114, 112, 104, 101, 97, 110, 66, 101, 104, 111, 108,
   100, 101, 114, 83, 99, 114, 121, 68, 111, 117, 98, 116]

/-- What the `ParseInput` step leaves in the locals when it accepts. -/
structure Parsed where
  /-- The local `minor`. -/
  minor : Nat
  /-- The local `key_len`. -/
  key_len : Nat
  /-- The local `logr`. -/
  logr : Nat
  /-- The local `rounds`. -/
  rounds : Nat
  /-- The local `csalt`: the 16 decoded salt bytes. -/
  csalt : List Nat
  /-- The local `salt_len`. -/
  salt_len : Nat
deriving DecidableEq, Repr

/-- The `ParseInput` step of `vapor_bcrypt_hashpass` (bcrypt.c:66-116), from the
first check of `salt` to the assignment of `salt_len`. `Except.error` is a
`goto inval`, carrying the bytes stored into `csalt` before it (only a failing
`decode_base64` has stored any). `size_t` is 64 bits wide; the digit characters
have been checked when `logr` is computed, so the subtractions are exact, and the
sum is stored in a `u_int8_t`. -/
def hashpass_ParseInput (key salt : List Nat) : Except (List Nat) Parsed :=
  if salt.getD 0 0 ≠ 36 then .error [] else
  let salt := salt.drop 1
  if salt.getD 0 0 ≠ BCRYPT_VERSION then .error [] else
  let minor := salt.getD 1 0
  match (if minor = 97 then some ((strlen key + 1) % 256)
         else if minor = 98 then
           some ((if strlen key > 72 then 72 else strlen key) + 1)
         else none) with
  | none => .error []
  | some key_len =>
    if salt.getD 2 0 ≠ 36 then .error [] else
    let salt := salt.drop 3
    if !isdigit (salt.getD 0 0) || !isdigit (salt.getD 1 0) || salt.getD 2 0 ≠ 36 then
      .error [] else
    let logr := ((salt.getD 1 0 - 48) + ((salt.getD 0 0 - 48) * 10)) % 256
    if logr < BCRYPT_MINLOGROUNDS ∨ logr > 31 then .error [] else
    let rounds := (1 <<< logr) % 2 ^ 32
    let salt := salt.drop 3
    if (strlen salt * 3 % 2 ^ 64) / 4 < BCRYPT_MAXSALT then .error [] else
    let d := decode_base64 BCRYPT_MAXSALT salt
    if d.1 ≠ 0 then .error d.2 else
    .ok { minor := minor, key_len := key_len, logr := logr, rounds := rounds,
          csalt := d.2, salt_len := BCRYPT_MAXSALT }

/-- The `Schedule` step of `vapor_bcrypt_hashpass` (bcrypt.c:119-125): the context
it leaves in `state` and the Blowfish calls it made, in order. The lengths are
converted to the `u_int16_t` parameters of the operations. -/
def hashpass_Schedule (B : Blowfish) (csalt : List Nat) (salt_len : Nat)
    (key : List Nat) (key_len rounds : Nat) : blf_ctx × List BlfCall :=
  let state := B.Viora_Blowfish_initstate
  let state := B.Viora_Blowfish_expandstate state csalt (salt_len % 65536) key
    (key_len % 65536)
  Nat.iterate
    (fun sc =>
      let s1 := B.Viora_Blowfish_expand0state sc.1 key (key_len % 65536)
      let s2 := B.Viora_Blowfish_expand0state s1 csalt (salt_len % 65536)
      (s2, sc.2 ++ [BlfCall.expand0state_key (key_len % 65536),
                    BlfCall.expand0state_salt (salt_len % 65536)]))
    rounds
    (state, [BlfCall.initstate,
             BlfCall.expandstate (salt_len % 65536) (key_len % 65536)])

/-- What the `Encrypt` step leaves in the locals. -/
structure Encrypted where
  /-- The local `state`. -/
  state : blf_ctx
  /-- The local `cdata`. -/
  cdata : List Nat
  /-- The local `ciphertext`: 24 bytes. -/
  ciphertext : List Nat
  /-- The Blowfish calls made, in order. -/
  calls : List BlfCall

/-- The four assignments of one serialisation round (bcrypt.c:137-143) for the
word `w = cdata[i]`: the bytes `ciphertext[4 * i + 0 .. 4 * i + 3]` and the value
left in `cdata[i]`. -/
def hashpass_word_bytes (w : Nat) : List Nat × Nat :=
  let b3 := w &&& 0xff
  let w := w >>> 8
  let b2 := w &&& 0xff
  let w := w >>> 8
  let b1 := w &&& 0xff
  let w := w >>> 8
  let b0 := w &&& 0xff
  ([b0, b1, b2, b3], w)

/-- The `Encrypt` step of `vapor_bcrypt_hashpass` (bcrypt.c:128-144): six calls of
`stream2word` over the 24 bytes of `ciphertext` with the cursor `j` starting at 0,
64 calls of `vapor_blf_enc` on the six words (`BCRYPT_WORDS / 2` blocks), and the
big-endian serialisation of the six words into `ciphertext`. -/
def hashpass_Encrypt (B : Blowfish) (state : blf_ctx) (ciphertext : List Nat) :
    Encrypted :=
  let seed := Nat.iterate
    (fun (a : List Nat × Nat × List BlfCall) =>
      let r := B.Viora_Blowfish_stream2word ciphertext (4 * BCRYPT_WORDS) a.2.1
      (a.1 ++ [r.1 % 2 ^ 32], r.2 % 65536,
        a.2.2 ++ [BlfCall.stream2word (4 * BCRYPT_WORDS) a.2.1]))
    BCRYPT_WORDS ([], 0, [])
  let enc := Nat.iterate
    (fun (a : (blf_ctx × List Nat) × List BlfCall) =>
      (B.vapor_blf_enc a.1.1 a.1.2 (BCRYPT_WORDS / 2),
        a.2 ++ [BlfCall.blf_enc (BCRYPT_WORDS / 2)]))
    64 ((state, seed.1), seed.2.2)
  let words := (List.range BCRYPT_WORDS).map
    (fun i => hashpass_word_bytes (enc.1.2.getD i 0 % 2 ^ 32))
  { state := enc.1.1,
    cdata := words.map (fun r => r.2),
    ciphertext := (words.map (fun r => r.1)).flatten,
    calls := enc.2 }

/-- The conversion `%2.2u`: at least two decimal digits, zero padded. The argument
is a `u_int8_t`, so it has at most three digits. -/
def fmt_2_2u (n : Nat) : List Nat :=
  if n < 100 then [48 + n / 10, 48 + n % 10]
  else [48 + n / 100, 48 + n / 10 % 10, 48 + n % 10]

/-- The call `snprintf(encrypted, 8, "$2%c$%2.2u$", minor, logr)` (bcrypt.c:147): at
most 7 characters of the formatted text, and the NUL. -/
def hashpass_snprintf (minor logr : Nat) : List Nat :=
  (([36, 50, minor, 36] ++ fmt_2_2u logr ++ [36]).take 7) ++ [0]

/-- Storing `bytes` through the pointer `buf + off`. -/
def store_at (buf : List Nat) (off : Nat) (bytes : List Nat) : List Nat :=
  buf.take off ++ bytes ++ buf.drop (off + bytes.length)

/-- The `Format` step of `vapor_bcrypt_hashpass` (bcrypt.c:147-149): the bytes
stored into `encrypted`, from index 0. -/
def hashpass_Format (minor logr : Nat) (csalt ciphertext : List Nat) : List Nat :=
  let encrypted := hashpass_snprintf minor logr
  let encrypted := store_at encrypted 7 (vapor_encode_base64 csalt BCRYPT_MAXSALT).2
  store_at encrypted (7 + 22)
    (vapor_encode_base64 ciphertext (4 * BCRYPT_WORDS - 1)).2

/-- What a call of `vapor_bcrypt_hashpass` leaves behind: the return value, the
bytes stored into the caller's buffer `encrypted`, the locals at the `return`
(`state` is `none` while nothing has been stored into it; `csalt` and `cdata`
hold what has been stored into them), and the Blowfish calls made, in order. -/
structure Frame where
  /-- The return value: 0, or -1 with `errno = EINVAL`. -/
  ret : Int
  /-- The bytes stored into `encrypted`, from index 0. -/
  encrypted : List Nat
  /-- The local `state`. -/
  state : Option blf_ctx
  /-- The local `ciphertext`. -/
  ciphertext : List Nat
  /-- The local `csalt`. -/
  csalt : List Nat
  /-- The local `cdata`. -/
  cdata : List Nat
  /-- The Blowfish calls made, in order. -/
  calls : List BlfCall

/-- The function `vapor_bcrypt_hashpass(key, salt, encrypted, encryptedlen)`
(bcrypt.c:50-159). -/
def vapor_bcrypt_hashpass (B : Blowfish) (key salt : List Nat) (encryptedlen : Nat) :
    Frame :=
  let ciphertext := OrpheanBeholderScryDoubt
  let inval (csalt : List Nat) : Frame :=
    { ret := -1, encrypted := [], state := none, ciphertext := ciphertext,
      csalt := csalt, cdata := [], calls := [] }
  if encryptedlen < BCRYPT_HASHSPACE then inval [] else
  match hashpass_ParseInput key salt with
  | .error csalt => inval csalt
  | .ok p =>
    let s := hashpass_Schedule B p.csalt p.salt_len key p.key_len p.rounds
    let e := hashpass_Encrypt B s.1 ciphertext
    { ret := 0,
      encrypted := hashpass_Format p.minor p.logr p.csalt e.ciphertext,
      state := some blf_ctx.zero,
      ciphertext := List.replicate (4 * BCRYPT_WORDS) 0,
      csalt := List.replicate BCRYPT_MAXSALT 0,
      cdata := List.replicate BCRYPT_WORDS 0,
      calls := s.2 ++ e.calls }

/-! ## The key stream of the engine, as specified -/

/-- Modelled from the spec: the body of `Viora_Blowfish_stream2word` is not among
the sources. It reads 4 bytes starting at the cursor, wrapping around the
buffer's length (the cursor is an index modulo the buffer length), packs them
big-endian, and returns the word with the advanced cursor. -/
def Viora_Blowfish_stream2word (data : List Nat) (databytes current : Nat) :
    Nat × Nat :=
  let b (k : Nat) : Nat := data.getD ((current + k) % databytes) 0
  ((b 0 <<< 24) ||| (b 1 <<< 16) ||| (b 2 <<< 8) ||| b 3, (current + 4) % databytes)

/-- Modelled from the spec: the bodies of `Viora_Blowfish_expandstate` and
`Viora_Blowfish_expand0state` are not among the sources. The 18 words that their
first stage XORs into the subkeys: four bytes at a time, cycling through the key
bytes, the cursor starting at 0. -/
def blf_key_words (key : List Nat) (keybytes : Nat) : List Nat :=
  (Nat.iterate
    (fun (a : List Nat × Nat) =>
      let r := Viora_Blowfish_stream2word key keybytes a.2
      (a.1 ++ [r.1], r.2))
    18 ([], 0)).1

/-- Modelled from the spec: the first stage of `expand_state` and `expand0state`,
which XORs each of the 18 subkeys with the next word of the key stream. -/
def blf_xor_key (c : blf_ctx) (key : List Nat) (keybytes : Nat) : blf_ctx :=
  { c with P := List.zipWith (fun p w => p ^^^ w) c.P (blf_key_words key keybytes) }

/-- Modelled from the spec: the engine whose `expand_state` and `expand0state` read
the key through the key stream only. What the spec leaves to the cipher tables,
which are not among the sources, is a parameter: the initial context `init`, the
second stage of `expand_state` (`rederive`, which re-derives the subkeys and
S-boxes by repeated encryption against the salt stream), the same stage with
the salt stream forced to zero (`rederive0`), and the block encryption `enc`. -/
def specBlowfish (init : blf_ctx) (rederive : blf_ctx → List Nat → Nat → blf_ctx)
    (rederive0 : blf_ctx → blf_ctx)
    (enc : blf_ctx → List Nat → Nat → blf_ctx × List Nat) : Blowfish :=
  { Viora_Blowfish_initstate := init,
    Viora_Blowfish_expandstate := fun c data databytes key keybytes =>
      rederive (blf_xor_key c key keybytes) data databytes,
    Viora_Blowfish_expand0state := fun c key keybytes =>
      rederive0 (blf_xor_key c key keybytes),
    Viora_Blowfish_stream2word := Viora_Blowfish_stream2word,
    vapor_blf_enc := enc }

/-- A small concrete engine on which the statements below are instantiated: the
key stream as specified, subkeys `1..18` and empty S-boxes as initial context, a
second stage that adds the first salt byte to every subkey, and a block
encryption that adds the first subkey to every word. -/
def sampleBlowfish : Blowfish :=
  specBlowfish { S := [], P := List.range' 1 18 }
    (fun c data _ => { c with P := c.P.map (fun p => (p + data.getD 0 0) % 2 ^ 32) })
    (fun c => { c with P := c.P.map (fun p => (p * 3 + 1) % 2 ^ 32) })
    (fun c d _ => (c, d.map (fun w => (w + c.P.getD 0 0) % 2 ^ 32)))

/-! ## Vocabulary of the statements -/

/-- The number of characters in the text of `n` bytes: `4 * (n / 3)` and 0, 2 or
3 more, that is `ceil (4 * n / 3)`. -/
def b64len (n : Nat) : Nat := (4 * n + 2) / 3

/-- The salt strings that the textual format admits: `$`, the version character
`2`, `a` or `b`, `$`, two decimal digits whose value lies in 4..31, `$`, and at
least 22 further characters of which the first 22 are in the alphabet. -/
def WellFormedSalt (salt : List Nat) : Prop :=
  salt.getD 0 0 = 36 ∧ salt.getD 1 0 = 50 ∧
  (salt.getD 2 0 = 97 ∨ salt.getD 2 0 = 98) ∧ salt.getD 3 0 = 36 ∧
  (48 ≤ salt.getD 4 0 ∧ salt.getD 4 0 ≤ 57) ∧ (48 ≤ salt.getD 5 0 ∧ salt.getD 5 0 ≤ 57) ∧
  (4 ≤ 10 * (salt.getD 4 0 - 48) + (salt.getD 5 0 - 48) ∧
    10 * (salt.getD 4 0 - 48) + (salt.getD 5 0 - 48) ≤ 31) ∧
  salt.getD 6 0 = 36 ∧ 22 ≤ strlen (salt.drop 7) ∧
  ∀ i < 22, salt.getD (7 + i) 0 ∈ Base64Code

instance (salt : List Nat) : Decidable (WellFormedSalt salt) := by
  unfold WellFormedSalt
  infer_instance

/-- The 24 ciphertext bytes that the `Schedule` and `Encrypt` steps leave for the
locals `p` of an accepted input. -/
def hashpass_ciphertext (B : Blowfish) (key : List Nat) (p : Parsed) : List Nat :=
  (hashpass_Encrypt B (hashpass_Schedule B p.csalt p.salt_len key p.key_len p.rounds).1
    OrpheanBeholderScryDoubt).ciphertext

/-- The salt string `$2a$04$......................` (cost 4, sixteen zero salt
bytes), on which the statements below are instantiated. -/
def sampleSaltA : List Nat := [36, 50, 97, 36, 48, 52, 36] ++ List.replicate 22 46

/-- The salt string `$2b$04$......................`. -/
def sampleSaltB : List Nat := [36, 50, 98, 36, 48, 52, 36] ++ List.replicate 22 46

/-- A password of 73 bytes `x`. -/
def sampleKey73 : List Nat := List.replicate 73 120

/-- A password of 500 bytes: 72 bytes `x`, then 428 bytes `y`. -/
def sampleKey500 : List Nat := List.replicate 72 120 ++ List.replicate 428 121

/-- Whether a call is a call of `Viora_Blowfish_expand0state`, on the password or on
the salt. -/
def BlfCall.isExpand0state : BlfCall → Bool
  | .expand0state_key _ => true
  | .expand0state_salt _ => true
  | _ => false

/-- The salt string `$2b$04$ABCD!.................`: well formed up to its 12th
character, which is not in the alphabet. -/
def sampleSaltBad : List Nat :=
  [36, 50, 98, 36, 48, 52, 36] ++ [65, 66, 67, 68, 33] ++ List.replicate 17 46

/-- The six words that six successive calls of `stream2word` over the 24 bytes `c`
return, the cursor starting at 0 and each call leaving its cursor to the next,
with the cursors handed to the calls. -/
def encrypt_seed_spec (B : Blowfish) (c : List Nat) : List Nat × List Nat :=
  let w0 := B.Viora_Blowfish_stream2word c 24 0
  let w1 := B.Viora_Blowfish_stream2word c 24 (w0.2 % 65536)
  let w2 := B.Viora_Blowfish_stream2word c 24 (w1.2 % 65536)
  let w3 := B.Viora_Blowfish_stream2word c 24 (w2.2 % 65536)
  let w4 := B.Viora_Blowfish_stream2word c 24 (w3.2 % 65536)
  let w5 := B.Viora_Blowfish_stream2word c 24 (w4.2 % 65536)
  ([w0.1 % 2 ^ 32, w1.1 % 2 ^ 32, w2.1 % 2 ^ 32, w3.1 % 2 ^ 32, w4.1 % 2 ^ 32,
     w5.1 % 2 ^ 32],
    [0, w0.2 % 65536, w1.2 % 65536, w2.2 % 65536, w3.2 % 65536, w4.2 % 65536])

/-- The `Encrypt` step as it is described: the six seed words, `vapor_blf_enc` on the
three blocks of the whole buffer 64 times in succession, and the byte `4 * i + k`
of the result equal to `(word_i >> 8 * (3 - k)) & 0xff`. -/
def encrypt_bytes_spec (B : Blowfish) (state : blf_ctx) (c : List Nat) : List Nat :=
  let words := (Nat.iterate (fun (a : blf_ctx × List Nat) => B.vapor_blf_enc a.1 a.2 3) 64
    (state, (encrypt_seed_spec B c).1)).2
  (List.range 24).map
    (fun n => ((words.getD (n / 4) 0 % 2 ^ 32) >>> (8 * (3 - n % 4))) &&& 0xff)

/-- The index into `index_64` that `CHAR64(c)` uses (bcrypt.c:182), if it uses one. -/
def CHAR64_index (c : Nat) : Option Nat :=
  if c > 127 then none else some c

/-- The `while` loop of `decode_base64` (bcrypt.c:194-222) with, beside what
`decode_base64_loop` gives, the offsets from `p` of the characters it reads, in
order. -/
def decode_base64_loop_traced : Nat → List Nat → (Int × List Nat) × List Nat
  | 0, _ => ((0, []), [])
  | n + 1, p =>
    let c1 := CHAR64 (p.getD 0 0)
    if c1 = 255 then ((-1, []), [0]) else
    let c2 := CHAR64 (p.getD 1 0)
    if c2 = 255 then ((-1, []), [0, 1]) else
    let b1 := ((c1 <<< 2) ||| ((c2 &&& 0x30) >>> 4)) % 256
    match n with
    | 0 => ((0, [b1]), [0, 1])
    | n + 1 =>
      let c3 := CHAR64 (p.getD 2 0)
      if c3 = 255 then ((-1, [b1]), [0, 1, 2]) else
      let b2 := (((c2 &&& 0x0f) <<< 4) ||| ((c3 &&& 0x3c) >>> 2)) % 256
      match n with
      | 0 => ((0, [b1, b2]), [0, 1, 2])
      | n + 1 =>
        let c4 := CHAR64 (p.getD 3 0)
        if c4 = 255 then ((-1, [b1, b2]), [0, 1, 2, 3]) else
        let b3 := (((c3 &&& 0x03) <<< 6) ||| c4) % 256
        let r := decode_base64_loop_traced n (p.drop 4)
        ((r.1.1, b1 :: b2 :: b3 :: r.1.2), [0, 1, 2, 3] ++ r.2.map (fun i => i + 4))

/-- The `while` loop of `vapor_encode_base64` (bcrypt.c:237-257): the indices into
`Base64Code` that it uses, in order. -/
def vapor_encode_base64_loop_indices : Nat → List Nat → List Nat
  | 0, _ => []
  | n + 1, p =>
    let c1 := p.getD 0 0
    let i1 := c1 >>> 2
    let c1 := ((c1 &&& 0x03) <<< 4) % 256
    match n with
    | 0 => [i1, c1]
    | n + 1 =>
      let c2 := p.getD 1 0
      let c1 := c1 ||| ((c2 >>> 4) &&& 0x0f)
      let i2 := c1
      let c1 := ((c2 &&& 0x0f) <<< 2) % 256
      match n with
      | 0 => [i1, i2, c1]
      | n + 1 =>
        let c2 := p.getD 2 0
        let c1 := c1 ||| ((c2 >>> 6) &&& 0x03)
        i1 :: i2 :: c1 :: (c2 &&& 0x3f) :: vapor_encode_base64_loop_indices n (p.drop 3)

/-- The `ParseInput` step of `vapor_bcrypt_hashpass` (bcrypt.c:66-116) with, beside
what `hashpass_ParseInput` gives, the indices of the characters of the salt
string that it reads, in order. The operands of `||` are evaluated left to right
until one is true; `strlen(salt)`, on the pointer advanced by 7, reads up to and
including the terminator. -/
def hashpass_ParseInput_traced (key salt : List Nat) :
    Except (List Nat) Parsed × List Nat :=
  if salt.getD 0 0 ≠ 36 then (.error [], [0]) else
  if salt.getD 1 0 ≠ BCRYPT_VERSION then (.error [], [0, 1]) else
  let minor := salt.getD 2 0
  match (if minor = 97 then some ((strlen key + 1) % 256)
         else if minor = 98 then
           some ((if strlen key > 72 then 72 else strlen key) + 1)
         else none) with
  | none => (.error [], [0, 1, 2])
  | some key_len =>
    if salt.getD 3 0 ≠ 36 then (.error [], [0, 1, 2, 3]) else
    if !isdigit (salt.getD 4 0) then (.error [], [0, 1, 2, 3, 4]) else
    if !isdigit (salt.getD 5 0) then (.error [], [0, 1, 2, 3, 4, 5]) else
    if salt.getD 6 0 ≠ 36 then (.error [], [0, 1, 2, 3, 4, 5, 6]) else
    let logr := ((salt.getD 5 0 - 48) + ((salt.getD 4 0 - 48) * 10)) % 256
    if logr < BCRYPT_MINLOGROUNDS ∨ logr > 31 then
      (.error [], [0, 1, 2, 3, 4, 5, 6, 5, 4]) else
    let rounds := (1 <<< logr) % 2 ^ 32
    let s := salt.drop 7
    let reads := [0, 1, 2, 3, 4, 5, 6, 5, 4] ++ List.range' 7 (strlen s + 1)
    if (strlen s * 3 % 2 ^ 64) / 4 < BCRYPT_MAXSALT then (.error [], reads) else
    let d := decode_base64_loop_traced BCRYPT_MAXSALT s
    let reads := reads ++ d.2.map (fun i => i + 7)
    if d.1.1 ≠ 0 then (.error d.1.2, reads) else
    (.ok { minor := minor, key_len := key_len, logr := logr, rounds := rounds,
           csalt := d.1.2, salt_len := BCRYPT_MAXSALT }, reads)

/-- The indices of the characters of the salt string that
`vapor_bcrypt_hashpass` reads, in order: none when the buffer is too small, else
those of the `ParseInput` step (the later steps do not look at the string). -/
def vapor_bcrypt_hashpass_reads (key salt : List Nat) (encryptedlen : Nat) : List Nat :=
  if encryptedlen < BCRYPT_HASHSPACE then [] else (hashpass_ParseInput_traced key salt).2

/-! ## Facts about the alphabet and the 6-bit slices -/

theorem CHAR64_Base64Char : ∀ v < 64, CHAR64 (Base64Char v) = v := by
  decide!

theorem Base64Char_mem : ∀ v < 64, Base64Char v ∈ Base64Code := by
  decide!

theorem Base64Code_ne_zero : ∀ c ∈ Base64Code, c ≠ 0 := by
  decide!

theorem slice_hi : ∀ a < 256,
    a >>> 2 < 64 ∧ a &&& 0x03 < 4 ∧ (((a >>> 2) <<< 2) ||| (a &&& 0x03)) % 256 = a := by
  decide!

theorem slice_mid : ∀ b < 256,
    (b >>> 4) &&& 0x0f < 16 ∧ b &&& 0x0f < 16 ∧
      ((((b >>> 4) &&& 0x0f) <<< 4) ||| (b &&& 0x0f)) % 256 = b := by
  decide!

theorem slice_lo : ∀ c < 256,
    (c >>> 6) &&& 0x03 < 4 ∧ c &&& 0x3f < 64 ∧
      ((((c >>> 6) &&& 0x03) <<< 6) ||| (c &&& 0x3f)) % 256 = c := by
  decide!

theorem join_2_4 : ∀ r < 4, ∀ q < 16,
    ((r <<< 4) % 256 ||| q) < 64 ∧ (((r <<< 4) % 256 ||| q) &&& 0x30) >>> 4 = r ∧
      ((r <<< 4) % 256 ||| q) &&& 0x0f = q := by
  decide!

theorem join_4_2 : ∀ q < 16, ∀ r < 4,
    ((q <<< 2) % 256 ||| r) < 64 ∧ (((q <<< 2) % 256 ||| r) &&& 0x3c) >>> 2 = q ∧
      ((q <<< 2) % 256 ||| r) &&& 0x03 = r := by
  decide!

/-- Decoding `n` bytes from the text that encoding `n` bytes produced, whatever
follows that text, succeeds and gives the bytes back. -/
theorem decode_encode_loop : ∀ (n : Nat) (data rest : List Nat),
    data.length = n → (∀ x ∈ data, x < 256) →
    decode_base64_loop n (vapor_encode_base64_loop n data ++ rest) = (0, data)
  | 0, data, rest, hlen, _ => by
    have : data = [] := List.length_eq_zero.mp hlen
    subst this
    simp [decode_base64_loop]
  | 1, [a], rest, _, hb => by
    have ha : a < 256 := hb a (by simp)
    obtain ⟨h1, h2, h3⟩ := slice_hi a ha
    obtain ⟨j1, j2, _⟩ := join_2_4 _ h2 0 (by decide)
    simp only [Nat.or_zero] at j1 j2
    simp only [decode_base64_loop, vapor_encode_base64_loop, List.cons_append,
      List.getD_cons_zero, List.getD_cons_succ, List.nil_append]
    rw [CHAR64_Base64Char _ h1, CHAR64_Base64Char _ j1, j2, h3,
      if_neg (by omega), if_neg (by omega)]
  | 2, [a, b], rest, _, hb => by
    have ha : a < 256 := hb a (by simp)
    have hb' : b < 256 := hb b (by simp)
    obtain ⟨h1, h2, h3⟩ := slice_hi a ha
    obtain ⟨m1, m2, m3⟩ := slice_mid b hb'
    obtain ⟨j1, j2, j3⟩ := join_2_4 _ h2 _ m1
    obtain ⟨k1, k2, _⟩ := join_4_2 _ m2 0 (by decide)
    simp only [Nat.or_zero] at k1 k2
    simp only [decode_base64_loop, vapor_encode_base64_loop, List.cons_append,
      List.getD_cons_zero, List.getD_cons_succ, List.nil_append]
    rw [CHAR64_Base64Char _ h1, CHAR64_Base64Char _ j1, CHAR64_Base64Char _ k1,
      j2, j3, k2, h3, m3, if_neg (by omega), if_neg (by omega), if_neg (by omega)]
  | n + 3, a :: b :: c :: t, rest, hlen, hb => by
    have ha : a < 256 := hb a (by simp)
    have hb' : b < 256 := hb b (by simp)
    have hc : c < 256 := hb c (by simp)
    obtain ⟨h1, h2, h3⟩ := slice_hi a ha
    obtain ⟨m1, m2, m3⟩ := slice_mid b hb'
    obtain ⟨l1, l2, l3⟩ := slice_lo c hc
    obtain ⟨j1, j2, j3⟩ := join_2_4 _ h2 _ m1
    obtain ⟨k1, k2, k3⟩ := join_4_2 _ m2 _ l1
    have ih := decode_encode_loop n t rest (by simpa using hlen)
      (fun x hx => hb x (by simp [hx]))
    simp only [decode_base64_loop, vapor_encode_base64_loop, List.cons_append,
      List.getD_cons_zero, List.getD_cons_succ, List.nil_append, List.drop_succ_cons,
      List.drop_zero]
    rw [CHAR64_Base64Char _ h1, CHAR64_Base64Char _ j1, CHAR64_Base64Char _ k1,
      CHAR64_Base64Char _ l2, j2, j3, k2, k3, h3, m3, l3, ih,
      if_neg (by omega), if_neg (by omega), if_neg (by omega), if_neg (by omega)]
  | 1, [], _, hlen, _ => by simp at hlen
  | 1, _ :: _ :: _, _, hlen, _ => by simp at hlen
  | 2, [], _, hlen, _ => by simp at hlen
  | 2, [_], _, hlen, _ => by simp at hlen
  | 2, _ :: _ :: _ :: _, _, hlen, _ => by simp at hlen
  | n + 3, [], _, hlen, _ => by simp at hlen
  | n + 3, [_], _, hlen, _ => by simp at hlen
  | n + 3, [_, _], _, hlen, _ => by simp at hlen

theorem b64len_add_three (n : Nat) : b64len (n + 3) = b64len n + 4 := by
  unfold b64len
  omega

theorem getD_drop_zero (p : List Nat) (k i : Nat) :
    (p.drop k).getD i 0 = p.getD (k + i) 0 := by
  simp [List.getD_eq_getElem?_getD, List.getElem?_drop]

/-- The loop of `decode_base64` for `n` bytes looks at the first `b64len n`
characters only. -/
theorem decode_base64_loop_congr : ∀ (n : Nat) (p q : List Nat),
    (∀ i < b64len n, p.getD i 0 = q.getD i 0) →
    decode_base64_loop n p = decode_base64_loop n q
  | 0, _, _, _ => by simp [decode_base64_loop]
  | 1, p, q, h => by
    have h0 := h 0 (by decide)
    have h1 := h 1 (by decide)
    simp only [decode_base64_loop, h0, h1]
  | 2, p, q, h => by
    have h0 := h 0 (by decide)
    have h1 := h 1 (by decide)
    have h2 := h 2 (by decide)
    simp only [decode_base64_loop, h0, h1, h2]
  | n + 3, p, q, h => by
    have h0 := h 0 (by rw [b64len_add_three]; omega)
    have h1 := h 1 (by rw [b64len_add_three]; omega)
    have h2 := h 2 (by rw [b64len_add_three]; omega)
    have h3 := h 3 (by rw [b64len_add_three]; omega)
    have ih := decode_base64_loop_congr n (p.drop 4) (q.drop 4) (fun i hi => by
      rw [getD_drop_zero, getD_drop_zero]
      exact h (4 + i) (by rw [b64len_add_three]; omega))
    simp only [decode_base64_loop, h0, h1, h2, h3, ih]

/-- The loop of `decode_base64` succeeds exactly when the first `b64len n`
characters are in the table. -/
theorem decode_base64_loop_ret : ∀ (n : Nat) (p : List Nat),
    (decode_base64_loop n p).1 = 0 ↔ ∀ i < b64len n, CHAR64 (p.getD i 0) ≠ 255
  | 0, _ => by simp [decode_base64_loop, b64len]
  | 1, p => by
    have e : b64len 1 = 2 := by decide
    simp only [decode_base64_loop, e]
    constructor
    · intro h i hi
      split_ifs at h with a b <;> simp at h
      interval_cases i <;> assumption
    · intro h
      rw [if_neg (h 0 (by omega)), if_neg (h 1 (by omega))]
  | 2, p => by
    have e : b64len 2 = 3 := by decide
    simp only [decode_base64_loop, e]
    constructor
    · intro h i hi
      split_ifs at h with a b c <;> simp at h
      interval_cases i <;> assumption
    · intro h
      rw [if_neg (h 0 (by omega)), if_neg (h 1 (by omega)), if_neg (h 2 (by omega))]
  | n + 3, p => by
    have ih := decode_base64_loop_ret n (p.drop 4)
    simp only [decode_base64_loop, b64len_add_three]
    constructor
    · intro h i hi
      split_ifs at h with a b c d <;> simp at h
      by_cases h4 : i < 4
      · interval_cases i <;> assumption
      · have := ih.mp h (i - 4) (by omega)
        rw [getD_drop_zero] at this
        rwa [show 4 + (i - 4) = i by omega] at this
    · intro h
      rw [if_neg (h 0 (by omega)), if_neg (h 1 (by omega)), if_neg (h 2 (by omega)),
        if_neg (h 3 (by omega))]
      refine ih.mpr (fun i hi => ?_)
      rw [getD_drop_zero]
      exact h (4 + i) (by omega)

/-- The loop of `decode_base64` returns 0 or -1. -/
theorem decode_base64_loop_ret_cases : ∀ (n : Nat) (p : List Nat),
    (decode_base64_loop n p).1 = 0 ∨ (decode_base64_loop n p).1 = -1
  | 0, _ => by simp [decode_base64_loop]
  | 1, p => by
    simp only [decode_base64_loop]
    split_ifs <;> simp
  | 2, p => by
    simp only [decode_base64_loop]
    split_ifs <;> simp
  | n + 3, p => by
    have ih := decode_base64_loop_ret_cases n (p.drop 4)
    simp only [decode_base64_loop]
    split_ifs <;> simp [ih]

/-- A successful `decode_base64` loop has stored exactly `n` bytes. -/
theorem decode_base64_loop_length : ∀ (n : Nat) (p : List Nat),
    (decode_base64_loop n p).1 = 0 → (decode_base64_loop n p).2.length = n
  | 0, _ => by simp [decode_base64_loop]
  | 1, p => by
    simp only [decode_base64_loop]
    split_ifs <;> simp
  | 2, p => by
    simp only [decode_base64_loop]
    split_ifs <;> simp
  | n + 3, p => by
    have ih := decode_base64_loop_length n (p.drop 4)
    simp only [decode_base64_loop]
    split_ifs <;> simp
    exact ih

/-- Every byte stored by the `decode_base64` loop is a byte. -/
theorem decode_base64_loop_lt : ∀ (n : Nat) (p : List Nat),
    ∀ x ∈ (decode_base64_loop n p).2, x < 256
  | 0, _ => by simp [decode_base64_loop]
  | 1, p => by
    simp only [decode_base64_loop]
    split_ifs <;> simp
    omega
  | 2, p => by
    simp only [decode_base64_loop]
    split_ifs <;> simp
    any_goals omega
  | n + 3, p => by
    have ih := decode_base64_loop_lt n (p.drop 4)
    simp only [decode_base64_loop]
    split_ifs <;> simp
    any_goals omega
    refine ⟨by omega, by omega, by omega, ih⟩

/-- The loop of `vapor_encode_base64` stores `b64len n` characters. -/
theorem vapor_encode_base64_loop_length : ∀ (n : Nat) (p : List Nat),
    (vapor_encode_base64_loop n p).length = b64len n
  | 0, _ => by simp [vapor_encode_base64_loop, b64len]
  | 1, _ => by simp [vapor_encode_base64_loop, b64len]
  | 2, _ => by simp [vapor_encode_base64_loop, b64len]
  | n + 3, p => by
    have ih := vapor_encode_base64_loop_length n (p.drop 3)
    simp only [vapor_encode_base64_loop, List.length_cons, ih, b64len_add_three]

theorem getD_lt_256 (p : List Nat) (hp : ∀ x ∈ p, x < 256) (i : Nat) :
    p.getD i 0 < 256 := by
  rw [List.getD_eq_getElem?_getD]
  cases h : p[i]? with
  | none => simp
  | some x => exact hp x (List.getElem?_mem h)

/-- Every character stored by the loop of `vapor_encode_base64` over bytes is in
the alphabet. -/
theorem vapor_encode_base64_loop_mem : ∀ (n : Nat) (p : List Nat),
    (∀ x ∈ p, x < 256) → ∀ c ∈ vapor_encode_base64_loop n p, c ∈ Base64Code
  | 0, _, _ => by simp [vapor_encode_base64_loop]
  | 1, p, hp => by
    obtain ⟨h1, h2, _⟩ := slice_hi _ (getD_lt_256 p hp 0)
    obtain ⟨j1, _, _⟩ := join_2_4 _ h2 0 (by decide)
    simp only [Nat.or_zero] at j1
    intro c hc
    simp only [vapor_encode_base64_loop, List.mem_cons, List.mem_singleton,
      List.not_mem_nil, or_false] at hc
    rcases hc with rfl | rfl
    · exact Base64Char_mem _ h1
    · exact Base64Char_mem _ j1
  | 2, p, hp => by
    obtain ⟨h1, h2, _⟩ := slice_hi _ (getD_lt_256 p hp 0)
    obtain ⟨m1, m2, _⟩ := slice_mid _ (getD_lt_256 p hp 1)
    obtain ⟨j1, _, _⟩ := join_2_4 _ h2 _ m1
    obtain ⟨k1, _, _⟩ := join_4_2 _ m2 0 (by decide)
    simp only [Nat.or_zero] at k1
    intro c hc
    simp only [vapor_encode_base64_loop, List.mem_cons, List.mem_singleton,
      List.not_mem_nil, or_false] at hc
    rcases hc with rfl | rfl | rfl
    · exact Base64Char_mem _ h1
    · exact Base64Char_mem _ j1
    · exact Base64Char_mem _ k1
  | n + 3, p, hp => by
    obtain ⟨h1, h2, _⟩ := slice_hi _ (getD_lt_256 p hp 0)
    obtain ⟨m1, m2, _⟩ := slice_mid _ (getD_lt_256 p hp 1)
    obtain ⟨l1, l2, _⟩ := slice_lo _ (getD_lt_256 p hp 2)
    obtain ⟨j1, _, _⟩ := join_2_4 _ h2 _ m1
    obtain ⟨k1, _, _⟩ := join_4_2 _ m2 _ l1
    have ih := vapor_encode_base64_loop_mem n (p.drop 3)
      (fun x hx => hp x (List.mem_of_mem_drop hx))
    intro c hc
    simp only [vapor_encode_base64_loop, List.mem_cons] at hc
    rcases hc with rfl | rfl | rfl | rfl | hc
    · exact Base64Char_mem _ h1
    · exact Base64Char_mem _ j1
    · exact Base64Char_mem _ k1
    · exact Base64Char_mem _ l2
    · exact ih c hc

/-- The loop of `vapor_encode_base64` for `n` bytes looks at the first `n` bytes
only. -/
theorem vapor_encode_base64_loop_congr : ∀ (n : Nat) (p q : List Nat),
    (∀ i < n, p.getD i 0 = q.getD i 0) →
    vapor_encode_base64_loop n p = vapor_encode_base64_loop n q
  | 0, _, _, _ => by simp [vapor_encode_base64_loop]
  | 1, p, q, h => by
    have h0 := h 0 (by omega)
    simp only [vapor_encode_base64_loop, h0]
  | 2, p, q, h => by
    have h0 := h 0 (by omega)
    have h1 := h 1 (by omega)
    simp only [vapor_encode_base64_loop, h0, h1]
  | n + 3, p, q, h => by
    have h0 := h 0 (by omega)
    have h1 := h 1 (by omega)
    have h2 := h 2 (by omega)
    have ih := vapor_encode_base64_loop_congr n (p.drop 3) (q.drop 3) (fun i hi => by
      rw [getD_drop_zero, getD_drop_zero]
      exact h (3 + i) (by omega))
    simp only [vapor_encode_base64_loop, h0, h1, h2, ih]

theorem shiftLeft_one_mod (l : Nat) (h : l ≤ 31) : (1 <<< l) % 2 ^ 32 = 2 ^ l := by
  rw [Nat.one_shiftLeft]
  exact Nat.mod_eq_of_lt (Nat.pow_lt_pow_right (by decide) (by omega))

theorem hashpass_ParseInput_shape (key salt : List Nat) (p : Parsed)
    (h : hashpass_ParseInput key salt = .ok p) :
    ∃ c0 c1 c2 c3 c4 c5 c6 s, salt = c0 :: c1 :: c2 :: c3 :: c4 :: c5 :: c6 :: s := by
  simp only [hashpass_ParseInput] at h
  split at h
  · cases h
  split at h
  · cases h
  split at h
  · cases h
  split at h
  · cases h
  split at h
  · cases h
  rename_i h0 h1 _ _ _ h3 h456
  clear h
  rcases salt with _ | ⟨c0, _ | ⟨c1, _ | ⟨c2, _ | ⟨c3, _ | ⟨c4, _ | ⟨c5, _ | ⟨c6, s⟩⟩⟩⟩⟩⟩⟩
  case cons.cons.cons.cons.cons.cons.cons => exact ⟨_, _, _, _, _, _, _, _, rfl⟩
  all_goals
    exfalso
    simp [BCRYPT_VERSION, isdigit] at h0 h1 h3 h456

/-- The `ParseInput` step accepts exactly the strings `$2` minor `$` d0 d1 `$` s with
minor `a` or `b`, two digits giving a cost in 4..31, and a text `s` that passes
the length check and decodes to 16 bytes; and what it then leaves in the locals. -/
theorem hashpass_ParseInput_ok_iff (key salt : List Nat) (p : Parsed) :
    hashpass_ParseInput key salt = .ok p ↔
      ∃ d0 d1 s, salt = 36 :: 50 :: p.minor :: 36 :: d0 :: d1 :: 36 :: s ∧
        ((p.minor = 97 ∧ p.key_len = (strlen key + 1) % 256) ∨
          (p.minor = 98 ∧ p.key_len = min (strlen key) 72 + 1)) ∧
        48 ≤ d0 ∧ d0 ≤ 57 ∧ 48 ≤ d1 ∧ d1 ≤ 57 ∧
        p.logr = (d0 - 48) * 10 + (d1 - 48) ∧ 4 ≤ p.logr ∧ p.logr ≤ 31 ∧
        p.rounds = 2 ^ p.logr ∧ 16 ≤ strlen s * 3 % 2 ^ 64 / 4 ∧
        (decode_base64 16 s).1 = 0 ∧ p.csalt = (decode_base64 16 s).2 ∧
        p.salt_len = 16 := by
  constructor
  · intro h
    obtain ⟨c0, c1, c2, c3, c4, c5, c6, s, rfl⟩ := hashpass_ParseInput_shape key salt p h
    simp only [hashpass_ParseInput, List.getD_cons_zero, List.getD_cons_succ,
      List.drop_succ_cons, List.drop_zero, BCRYPT_VERSION, BCRYPT_MINLOGROUNDS,
      BCRYPT_MAXSALT] at h
    split at h
    · cases h
    split at h
    · cases h
    split at h
    · cases h
    split at h
    · cases h
    split at h
    · cases h
    split at h
    · cases h
    split at h
    · cases h
    split at h
    · cases h
    rename_i h0 h1 _ kl hk h3 h456 hr hs hd
    have h0' : c0 = 36 := by omega
    have h1' : c1 = 50 := by omega
    have h3' : c3 = 36 := by omega
    have h4 : 48 ≤ c4 ∧ c4 ≤ 57 := by
      by_contra hh
      exact h456 (by simp [isdigit, hh])
    have h5 : 48 ≤ c5 ∧ c5 ≤ 57 := by
      by_contra hh
      exact h456 (by simp [isdigit, hh])
    have h6 : c6 = 36 := by
      by_contra hh
      exact h456 (by simp [hh])
    obtain ⟨h4a, h4b⟩ := h4
    obtain ⟨h5a, h5b⟩ := h5
    have hlog : (c5 - 48 + (c4 - 48) * 10) % 256 = (c4 - 48) * 10 + (c5 - 48) := by omega
    rw [hlog] at h hr
    have hle : (c4 - 48) * 10 + (c5 - 48) ≤ 31 := by omega
    rw [shiftLeft_one_mod _ hle] at h
    have hp := (Except.ok.inj h).symm
    subst hp
    subst h0' h1' h3' h6
    have hge : 4 ≤ (c4 - 48) * 10 + (c5 - 48) := by omega
    refine ⟨c4, c5, s, rfl, ?_, h4a, h4b, h5a, h5b, rfl, hge, hle, rfl, by omega,
      by omega, rfl, rfl⟩
    by_cases ha : c2 = 97
    · rw [if_pos ha] at hk
      exact Or.inl ⟨ha, (Option.some.inj hk).symm⟩
    · rw [if_neg ha] at hk
      by_cases hb : c2 = 98
      · rw [if_pos hb] at hk
        refine Or.inr ⟨hb, ?_⟩
        have := (Option.some.inj hk).symm
        simp only [this]
        split_ifs <;> omega
      · rw [if_neg hb] at hk
        cases hk
  · rintro ⟨d0, d1, s, rfl, hk, h4a, h4b, h5a, h5b, hl, hl4, hl31, hr, hs, hd, hc, hsl⟩
    obtain ⟨minor, key_len, logr, rounds, csalt, salt_len⟩ := p
    simp only at hk hl hl4 hl31 hr hc hsl
    have hlog : (d1 - 48 + (d0 - 48) * 10) % 256 = logr := by omega
    have hkl : (if minor = 97 then some ((strlen key + 1) % 256)
        else if minor = 98 then some ((if strlen key > 72 then 72 else strlen key) + 1)
        else none) = some key_len := by
      rcases hk with ⟨hm, hk⟩ | ⟨hm, hk⟩
      · rw [if_pos hm, hk]
      · rw [if_neg (by omega), if_pos hm, hk]
        congr 1
        split_ifs <;> omega
    have hdig : ¬ ((!isdigit d0 || !isdigit d1 || decide False) = true) := by
      simp [isdigit, h4a, h4b, h5a, h5b]
    simp only [hashpass_ParseInput, List.getD_cons_zero, List.getD_cons_succ,
      List.drop_succ_cons, List.drop_zero, BCRYPT_VERSION, BCRYPT_MINLOGROUNDS,
      BCRYPT_MAXSALT, hkl, hlog, hd, ne_eq, not_true_eq_false, if_false]
    have hr' : ¬ (logr < 4 ∨ logr > 31) := by omega
    have hs' : ¬ (strlen s * 3 % 2 ^ 64 / 4 < 16) := by omega
    rw [if_neg hr', if_neg hs', if_neg hdig, shiftLeft_one_mod _ hl31, hr, hc, hsl]

theorem strlen_le_length : ∀ s : List Nat, strlen s ≤ s.length
  | [] => by simp [strlen]
  | c :: cs => by
    have := strlen_le_length cs
    simp only [strlen, List.length_cons]
    split_ifs <;> omega

/-- The first `k` characters of a string of at least `k` characters are not NUL;
dropping them shortens the string by `k`. -/
theorem strlen_drop : ∀ (k : Nat) (s : List Nat), k ≤ strlen s →
    strlen (s.drop k) = strlen s - k ∧ ∀ i < k, s.getD i 0 ≠ 0
  | 0, s, _ => by simp
  | k + 1, [], h => by simp [strlen] at h
  | k + 1, c :: cs, h => by
    simp only [strlen] at h ⊢
    split_ifs at h ⊢ with hc
    · omega
    · have ih := strlen_drop k cs (by omega)
      refine ⟨by simp only [List.drop_succ_cons]; omega, fun i hi => ?_⟩
      cases i with
      | zero => simpa using hc
      | succ i => simpa using ih.2 i (by omega)

/-- A string whose first `k` characters are not NUL has at least `k` characters. -/
theorem le_strlen : ∀ (k : Nat) (s : List Nat), (∀ i < k, s.getD i 0 ≠ 0) → k ≤ strlen s
  | 0, _, _ => by omega
  | k + 1, [], h => by simpa using h 0 (by omega)
  | k + 1, c :: cs, h => by
    have hc : c ≠ 0 := by simpa using h 0 (by omega)
    have ih := le_strlen k cs (fun i hi => by simpa using h (i + 1) (by omega))
    simp only [strlen, if_neg hc]
    omega

theorem strlen_append (a b : List Nat) (ha : ∀ c ∈ a, c ≠ 0) :
    strlen (a ++ b) = a.length + strlen b := by
  induction a with
  | nil => simp
  | cons c cs ih =>
    have hc : c ≠ 0 := ha c (by simp)
    have ih' := ih (fun x hx => ha x (by simp [hx]))
    rw [List.cons_append]
    simp only [strlen, if_neg hc, List.length_cons]
    omega

theorem Base64Code_lt_128 : ∀ c ∈ Base64Code, c < 128 := by
  decide!

theorem CHAR64_ne_255_small : ∀ c < 128, (CHAR64 c ≠ 255 ↔ c ∈ Base64Code) := by
  decide!

/-- The lookup yields the sentinel exactly outside the alphabet. -/
theorem CHAR64_ne_255_iff (c : Nat) : CHAR64 c ≠ 255 ↔ c ∈ Base64Code := by
  by_cases h : c < 128
  · exact CHAR64_ne_255_small c h
  · constructor
    · intro hc
      exact absurd (by simp [CHAR64]; omega) hc
    · intro hc
      exact absurd (Base64Code_lt_128 c hc) h

/-- The bytes that the `Format` step stores. -/
theorem hashpass_Format_eq (minor logr : Nat) (csalt ciphertext : List Nat)
    (hl : logr < 100) :
    hashpass_Format minor logr csalt ciphertext =
      [36, 50, minor, 36, 48 + logr / 10, 48 + logr % 10, 36] ++
        (vapor_encode_base64_loop 16 csalt ++
          (vapor_encode_base64_loop 23 ciphertext ++ [0])) := by
  have l16 := vapor_encode_base64_loop_length 16 csalt
  have e16 : b64len 16 = 22 := by decide
  rw [e16] at l16
  simp only [hashpass_Format, hashpass_snprintf, fmt_2_2u, if_pos hl, store_at,
    vapor_encode_base64, BCRYPT_MAXSALT, BCRYPT_WORDS]
  simp [l16, List.take_append_of_le_length]
  omega


/-- What a call with a large enough buffer leaves behind when `ParseInput` accepts. -/
theorem hashpass_of_ok (B : Blowfish) (key salt : List Nat) (encryptedlen : Nat) (p : Parsed)
    (hlen : BCRYPT_HASHSPACE ≤ encryptedlen) (hp : hashpass_ParseInput key salt = .ok p) :
    vapor_bcrypt_hashpass B key salt encryptedlen =
      { ret := 0,
        encrypted := hashpass_Format p.minor p.logr p.csalt
          (hashpass_Encrypt B
            (hashpass_Schedule B p.csalt p.salt_len key p.key_len p.rounds).1
            OrpheanBeholderScryDoubt).ciphertext,
        state := some blf_ctx.zero,
        ciphertext := List.replicate (4 * BCRYPT_WORDS) 0,
        csalt := List.replicate BCRYPT_MAXSALT 0,
        cdata := List.replicate BCRYPT_WORDS 0,
        calls := (hashpass_Schedule B p.csalt p.salt_len key p.key_len p.rounds).2 ++
          (hashpass_Encrypt B
            (hashpass_Schedule B p.csalt p.salt_len key p.key_len p.rounds).1
            OrpheanBeholderScryDoubt).calls } := by
  simp only [vapor_bcrypt_hashpass, if_neg (not_lt.mpr hlen), hp]

/-- The call returns 0 exactly when the buffer is large enough and `ParseInput`
accepts; otherwise it returns -1. -/
theorem hashpass_ret (B : Blowfish) (key salt : List Nat) (encryptedlen : Nat) :
    ((vapor_bcrypt_hashpass B key salt encryptedlen).ret = 0 ↔
      BCRYPT_HASHSPACE ≤ encryptedlen ∧ ∃ p, hashpass_ParseInput key salt = .ok p) ∧
    ((vapor_bcrypt_hashpass B key salt encryptedlen).ret = 0 ∨
      (vapor_bcrypt_hashpass B key salt encryptedlen).ret = -1) := by
  by_cases hlen : encryptedlen < BCRYPT_HASHSPACE
  · simp [vapor_bcrypt_hashpass, hlen]
  · cases hp : hashpass_ParseInput key salt with
    | error e => simp [vapor_bcrypt_hashpass, hlen, hp]
    | ok p => simp [vapor_bcrypt_hashpass, hlen, hp]; omega


theorem b64len_16 : b64len 16 = 22 := by decide

theorem decode_base64_16_ret (s : List Nat) :
    (decode_base64 16 s).1 = 0 ↔ ∀ i < 22, s.getD i 0 ∈ Base64Code := by
  unfold decode_base64
  rw [decode_base64_loop_ret, b64len_16]
  exact forall_congr' (fun i => imp_congr_right (fun _ => CHAR64_ne_255_iff _))

/-- `ParseInput` accepts only well-formed salt strings. -/
theorem WellFormedSalt_of_ok (key salt : List Nat) (p : Parsed)
    (h : hashpass_ParseInput key salt = .ok p) : WellFormedSalt salt := by
  obtain ⟨d0, d1, s, rfl, hk, h4a, h4b, h5a, h5b, hl, hl4, hl31, _, _, hd, _, _⟩ :=
    (hashpass_ParseInput_ok_iff key salt p).mp h
  have hmem := (decode_base64_16_ret s).mp hd
  have hs : 22 ≤ strlen s :=
    le_strlen 22 s (fun i hi => Base64Code_ne_zero _ (hmem i hi))
  refine ⟨rfl, rfl, ?_, rfl, ⟨h4a, h4b⟩, ⟨h5a, h5b⟩, ?_, rfl, hs, fun i hi => ?_⟩
  · rcases hk with ⟨hm, _⟩ | ⟨hm, _⟩
    · exact Or.inl hm
    · exact Or.inr hm
  · simp only [List.getD_cons_zero, List.getD_cons_succ]
    omega
  · have := hmem i hi
    rw [show 7 + i = i + 7 by omega]
    simpa using this

/-- The local `key_len` that the `switch` on the minor version computes. -/
theorem exists_key_len (key : List Nat) (minor : Nat) (hm : minor = 97 ∨ minor = 98) :
    ∃ kl, (minor = 97 ∧ kl = (strlen key + 1) % 256) ∨
      (minor = 98 ∧ kl = min (strlen key) 72 + 1) := by
  rcases hm with hm | hm
  · exact ⟨_, Or.inl ⟨hm, rfl⟩⟩
  · exact ⟨_, Or.inr ⟨hm, rfl⟩⟩

/-- `ParseInput` accepts every well-formed salt string that fits in memory. -/
theorem ok_of_WellFormedSalt (key salt : List Nat) (hfit : strlen salt < 2 ^ 62)
    (h : WellFormedSalt salt) : ∃ p, hashpass_ParseInput key salt = .ok p := by
  obtain ⟨h0, h1, h2, h3, ⟨h4a, h4b⟩, ⟨h5a, h5b⟩, ⟨hl4, hl31⟩, h6, hs, hmem⟩ := h
  rcases salt with _ | ⟨c0, _ | ⟨c1, _ | ⟨c2, _ | ⟨c3, _ | ⟨c4, _ | ⟨c5, _ | ⟨c6, s⟩⟩⟩⟩⟩⟩⟩
  case cons.cons.cons.cons.cons.cons.cons =>
    simp only [List.getD_cons_zero, List.getD_cons_succ, List.drop_succ_cons,
      List.drop_zero] at h0 h1 h2 h3 h4a h4b h5a h5b hl4 hl31 h6 hs
    subst h0 h1 h3 h6
    have hmem' : ∀ i < 22, s.getD i 0 ∈ Base64Code := fun i hi => by
      have := hmem i hi
      rw [show 7 + i = i + 7 by omega] at this
      simpa using this
    have hc2 : c2 ≠ 0 := by omega
    have hc4 : c4 ≠ 0 := by omega
    have hc5 : c5 ≠ 0 := by omega
    have hlen : strlen (36 :: 50 :: c2 :: 36 :: c4 :: c5 :: 36 :: s) = strlen s + 7 := by
      simp [strlen, hc2, hc4, hc5]
    rw [hlen] at hfit
    obtain ⟨kl, hkl⟩ := exists_key_len key c2 h2
    refine ⟨{ minor := c2, key_len := kl, logr := (c4 - 48) * 10 + (c5 - 48),
              rounds := 2 ^ ((c4 - 48) * 10 + (c5 - 48)),
              csalt := (decode_base64 16 s).2, salt_len := 16 }, ?_⟩
    rw [hashpass_ParseInput_ok_iff]
    have hd := (decode_base64_16_ret s).mpr hmem'
    have e62 : (2 : Nat) ^ 62 = 4611686018427387904 := by norm_num
    have e64 : (2 : Nat) ^ 64 = 18446744073709551616 := by norm_num
    rw [e62] at hfit
    refine ⟨c4, c5, s, rfl, hkl, h4a, h4b, h5a, h5b, rfl, ?_, ?_, rfl, ?_, hd, rfl, rfl⟩
    · show 4 ≤ (c4 - 48) * 10 + (c5 - 48)
      omega
    · show (c4 - 48) * 10 + (c5 - 48) ≤ 31
      omega
    · rw [e64, Nat.mod_eq_of_lt (by omega)]
      omega
  all_goals
    exfalso
    simp at h6

theorem decode_base64_ok_bytes (s : List Nat) (h : (decode_base64 16 s).1 = 0) :
    (decode_base64 16 s).2.length = 16 ∧ ∀ x ∈ (decode_base64 16 s).2, x < 256 :=
  ⟨decode_base64_loop_length 16 s h, decode_base64_loop_lt 16 s⟩

/-- `ParseInput` accepts what `Format` builds from a minor version `a` or `b`, a cost
in 4..31 and 16 salt bytes, and recovers them. -/
theorem hashpass_ParseInput_Format (key : List Nat) (minor logr : Nat)
    (csalt ciphertext : List Nat) (hm : minor = 97 ∨ minor = 98)
    (hl4 : 4 ≤ logr) (hl31 : logr ≤ 31) (hs : csalt.length = 16)
    (hb : ∀ x ∈ csalt, x < 256) :
    ∃ kl, ((minor = 97 ∧ kl = (strlen key + 1) % 256) ∨
        (minor = 98 ∧ kl = min (strlen key) 72 + 1)) ∧
      hashpass_ParseInput key (hashpass_Format minor logr csalt ciphertext) =
        .ok { minor := minor, key_len := kl, logr := logr, rounds := 2 ^ logr,
              csalt := csalt, salt_len := 16 } := by
  obtain ⟨kl, hkl⟩ := exists_key_len key minor hm
  refine ⟨kl, hkl, ?_⟩
  rw [hashpass_Format_eq minor logr csalt ciphertext (by omega), hashpass_ParseInput_ok_iff]
  have hdec : decode_base64 16 (vapor_encode_base64_loop 16 csalt ++
      (vapor_encode_base64_loop 23 ciphertext ++ [0])) = (0, csalt) :=
    decode_encode_loop 16 csalt _ hs hb
  have hnz : ∀ c ∈ vapor_encode_base64_loop 16 csalt, c ≠ 0 := fun c hc =>
    Base64Code_ne_zero c (vapor_encode_base64_loop_mem 16 csalt hb c hc)
  have hlen := strlen_append (vapor_encode_base64_loop 16 csalt)
    (vapor_encode_base64_loop 23 ciphertext ++ [0]) hnz
  rw [vapor_encode_base64_loop_length, b64len_16] at hlen
  have hle := strlen_le_length (vapor_encode_base64_loop 23 ciphertext ++ [0])
  rw [List.length_append, vapor_encode_base64_loop_length] at hle
  have e23 : b64len 23 = 31 := by decide
  rw [e23, List.length_singleton] at hle
  have e64 : (2 : Nat) ^ 64 = 18446744073709551616 := by norm_num
  refine ⟨48 + logr / 10, 48 + logr % 10, vapor_encode_base64_loop 16 csalt ++
    (vapor_encode_base64_loop 23 ciphertext ++ [0]), rfl, hkl, by omega, by omega, by omega,
    by omega, ?_, hl4, hl31, rfl, ?_, ?_, ?_, rfl⟩
  · show logr = (48 + logr / 10 - 48) * 10 + (48 + logr % 10 - 48)
    omega
  · rw [hlen, e64, Nat.mod_eq_of_lt (by omega)]
    omega
  · rw [hdec]
  · rw [hdec]

theorem getD_take_zero (l : List Nat) (n i : Nat) (h : i < n) :
    (l.take n).getD i 0 = l.getD i 0 := by
  simp [List.getD_eq_getElem?_getD, List.getElem?_take_of_lt h]

/-- `ParseInput` looks at the first 7 characters, at the length of what follows
them, and, through `decode_base64`, at what follows them. -/
theorem hashpass_ParseInput_congr (key salt1 salt2 : List Nat)
    (hh : ∀ i < 7, salt1.getD i 0 = salt2.getD i 0)
    (hs1 : ¬ strlen (salt1.drop 7) * 3 % 2 ^ 64 / 4 < 16)
    (hs2 : ¬ strlen (salt2.drop 7) * 3 % 2 ^ 64 / 4 < 16)
    (hd : decode_base64 16 (salt1.drop 7) = decode_base64 16 (salt2.drop 7)) :
    hashpass_ParseInput key salt1 = hashpass_ParseInput key salt2 := by
  simp only [hashpass_ParseInput, getD_drop_zero, List.drop_drop, BCRYPT_MAXSALT,
    Nat.add_zero, Nat.reduceAdd, hh 0 (by omega), hh 1 (by omega), hh 2 (by omega),
    hh 3 (by omega), hh 4 (by omega), hh 5 (by omega), hh 6 (by omega), if_neg hs1,
    if_neg hs2, hd]

theorem hashpass_word_bytes_length (w : Nat) : (hashpass_word_bytes w).1.length = 4 := rfl

theorem hashpass_word_bytes_lt (w : Nat) : ∀ x ∈ (hashpass_word_bytes w).1, x < 256 := by
  intro x hx
  simp only [hashpass_word_bytes, List.mem_cons, List.mem_singleton, List.not_mem_nil,
    or_false] at hx
  have h255 : ∀ a : Nat, a &&& 0xff < 256 := fun a =>
    Nat.lt_of_le_of_lt Nat.and_le_right (by decide)
  rcases hx with rfl | rfl | rfl | rfl <;> exact h255 _

/-- The `Encrypt` step leaves 24 bytes in `ciphertext`. -/
theorem hashpass_Encrypt_ciphertext (B : Blowfish) (state : blf_ctx) (c : List Nat) :
    (hashpass_Encrypt B state c).ciphertext.length = 24 ∧
      ∀ x ∈ (hashpass_Encrypt B state c).ciphertext, x < 256 := by
  constructor
  · simp [hashpass_Encrypt, BCRYPT_WORDS, List.range_succ, hashpass_word_bytes_length]
  · intro x hx
    simp only [hashpass_Encrypt, List.mem_flatten, List.mem_map] at hx
    obtain ⟨l, ⟨r, ⟨i, _, rfl⟩, rfl⟩, hx⟩ := hx
    exact hashpass_word_bytes_lt _ x hx


/-- Two salt strings of at least 29 characters that fit in memory and agree on
their first 29 characters are parsed alike. -/
theorem hashpass_ParseInput_take (key salt1 salt2 : List Nat)
    (h1 : 29 ≤ strlen salt1) (h2 : 29 ≤ strlen salt2)
    (f1 : strlen salt1 < 2 ^ 62) (f2 : strlen salt2 < 2 ^ 62)
    (heq : salt1.take 29 = salt2.take 29) :
    hashpass_ParseInput key salt1 = hashpass_ParseInput key salt2 := by
  have hget : ∀ i < 29, salt1.getD i 0 = salt2.getD i 0 := fun i hi => by
    rw [← getD_take_zero salt1 29 i hi, ← getD_take_zero salt2 29 i hi, heq]
  have d1 := (strlen_drop 7 salt1 (by omega)).1
  have d2 := (strlen_drop 7 salt2 (by omega)).1
  have e62 : (2 : Nat) ^ 62 = 4611686018427387904 := by norm_num
  have e64 : (2 : Nat) ^ 64 = 18446744073709551616 := by norm_num
  rw [e62] at f1 f2
  refine hashpass_ParseInput_congr key salt1 salt2 (fun i hi => hget i (by omega)) ?_ ?_ ?_
  · rw [e64, Nat.mod_eq_of_lt (by omega)]
    omega
  · rw [e64, Nat.mod_eq_of_lt (by omega)]
    omega
  · refine decode_base64_loop_congr 16 _ _ (fun i hi => ?_)
    rw [b64len_16] at hi
    rw [getD_drop_zero, getD_drop_zero]
    exact hget (7 + i) (by omega)

/-- The Blowfish calls of the `Schedule` step: `initstate`, `expandstate`, and
`rounds` times `expand0state` on the password then on the salt. -/
theorem hashpass_Schedule_calls (B : Blowfish) (csalt : List Nat) (salt_len : Nat)
    (key : List Nat) (key_len rounds : Nat) :
    (hashpass_Schedule B csalt salt_len key key_len rounds).2 =
      [BlfCall.initstate, BlfCall.expandstate (salt_len % 65536) (key_len % 65536)] ++
        (List.replicate rounds [BlfCall.expand0state_key (key_len % 65536),
          BlfCall.expand0state_salt (salt_len % 65536)]).flatten := by
  unfold hashpass_Schedule
  induction rounds with
  | zero => simp
  | succ n ih =>
    rw [Function.iterate_succ_apply']
    simp only [ih, List.replicate_succ', List.flatten_append, List.flatten_cons,
      List.flatten_nil, List.append_nil, List.append_assoc]

/-- The context that the `Schedule` step leaves. -/
theorem hashpass_Schedule_state (B : Blowfish) (csalt : List Nat) (salt_len : Nat)
    (key : List Nat) (key_len rounds : Nat) :
    (hashpass_Schedule B csalt salt_len key key_len rounds).1 =
      Nat.iterate
        (fun s => B.Viora_Blowfish_expand0state
          (B.Viora_Blowfish_expand0state s key (key_len % 65536)) csalt (salt_len % 65536))
        rounds
        (B.Viora_Blowfish_expandstate B.Viora_Blowfish_initstate csalt (salt_len % 65536)
          key (key_len % 65536)) := by
  unfold hashpass_Schedule
  induction rounds with
  | zero => simp
  | succ n ih =>
    rw [Function.iterate_succ_apply', Function.iterate_succ_apply']
    simp only [ih]

/-- The Blowfish calls of the `Encrypt` step are calls of `stream2word` on 24 bytes
and of `vapor_blf_enc` on 3 blocks. -/
theorem hashpass_Encrypt_calls (B : Blowfish) (state : blf_ctx) (c : List Nat) :
    ∀ x ∈ (hashpass_Encrypt B state c).calls,
      (∃ j, x = BlfCall.stream2word 24 j) ∨ x = BlfCall.blf_enc 3 := by
  have seed : ∀ n : Nat, ∀ x ∈ (Nat.iterate
      (fun (a : List Nat × Nat × List BlfCall) =>
        let r := B.Viora_Blowfish_stream2word c (4 * BCRYPT_WORDS) a.2.1
        (a.1 ++ [r.1 % 2 ^ 32], r.2 % 65536,
          a.2.2 ++ [BlfCall.stream2word (4 * BCRYPT_WORDS) a.2.1]))
      n ([], 0, [])).2.2, ∃ j, x = BlfCall.stream2word 24 j := by
    intro n
    induction n with
    | zero => simp
    | succ n ih =>
      rw [Function.iterate_succ_apply']
      intro x hx
      simp only [List.mem_append, List.mem_singleton] at hx
      rcases hx with hx | hx
      · exact ih x hx
      · rw [hx]
        exact ⟨_, rfl⟩
  have enc : ∀ (n : Nat) (i : (blf_ctx × List Nat) × List BlfCall),
      (∀ x ∈ i.2, (∃ j, x = BlfCall.stream2word 24 j) ∨ x = BlfCall.blf_enc 3) →
      ∀ x ∈ (Nat.iterate
        (fun (a : (blf_ctx × List Nat) × List BlfCall) =>
          (B.vapor_blf_enc a.1.1 a.1.2 (BCRYPT_WORDS / 2),
            a.2 ++ [BlfCall.blf_enc (BCRYPT_WORDS / 2)]))
        n i).2, (∃ j, x = BlfCall.stream2word 24 j) ∨ x = BlfCall.blf_enc 3 := by
    intro n
    induction n with
    | zero => intro i hi; simpa using hi
    | succ n ih =>
      intro i hi
      rw [Function.iterate_succ_apply']
      intro x hx
      simp only [List.mem_append, List.mem_singleton] at hx
      rcases hx with hx | hx
      · exact ih i hi x hx
      · rw [hx]
        exact Or.inr rfl
  intro x hx
  simp only [hashpass_Encrypt] at hx
  exact enc 64 _ (fun y hy => Or.inl (seed BCRYPT_WORDS y hy)) x hx

/-- The key lengths in the Blowfish calls of an accepted input are the local
`key_len`. -/
theorem hashpass_key_calls (B : Blowfish) (key salt : List Nat) (encryptedlen : Nat)
    (h : (vapor_bcrypt_hashpass B key salt encryptedlen).ret = 0) :
    ∃ p, hashpass_ParseInput key salt = .ok p ∧
      BlfCall.expandstate 16 p.key_len ∈
        (vapor_bcrypt_hashpass B key salt encryptedlen).calls ∧
      BlfCall.expand0state_key p.key_len ∈
        (vapor_bcrypt_hashpass B key salt encryptedlen).calls ∧
      (∀ db kb, BlfCall.expandstate db kb ∈
        (vapor_bcrypt_hashpass B key salt encryptedlen).calls → kb = p.key_len) ∧
      (∀ kb, BlfCall.expand0state_key kb ∈
        (vapor_bcrypt_hashpass B key salt encryptedlen).calls → kb = p.key_len) := by
  obtain ⟨hlen, p, hp⟩ := (hashpass_ret B key salt encryptedlen).1.mp h
  obtain ⟨d0, d1, s, rfl, hk, _, _, _, _, _, hl4, hl31, hr, _, _, _, hsl⟩ :=
    (hashpass_ParseInput_ok_iff key _ p).mp hp
  have hkl : p.key_len % 65536 = p.key_len := by
    rcases hk with ⟨_, hk⟩ | ⟨_, hk⟩ <;> omega
  have hpos : 0 < p.rounds := by rw [hr]; exact Nat.two_pow_pos _
  obtain ⟨n, hn⟩ : ∃ n, p.rounds = n + 1 := ⟨p.rounds - 1, by omega⟩
  rw [hashpass_of_ok B key _ encryptedlen p hlen hp]
  simp only [hashpass_Schedule_calls, hkl, hsl, hn]
  have hE := hashpass_Encrypt_calls B
    (hashpass_Schedule B p.csalt 16 key p.key_len (n + 1)).1 OrpheanBeholderScryDoubt
  refine ⟨p, hp, by simp, by simp [List.replicate_succ], ?_, ?_⟩
  · intro db kb hmem
    simp only [List.mem_append, List.mem_cons, List.mem_flatten, List.mem_replicate,
      List.not_mem_nil, or_false] at hmem
    rcases hmem with ((hmem | hmem) | ⟨l, ⟨_, rfl⟩, hmem⟩) | hmem
    · cases hmem
    · injection hmem with _ hkb
    · simp at hmem
    · rcases hE _ hmem with ⟨j, hj⟩ | hj <;> cases hj
  · intro kb hmem
    simp only [List.mem_append, List.mem_cons, List.mem_flatten, List.mem_replicate,
      List.not_mem_nil, or_false] at hmem
    rcases hmem with ((hmem | hmem) | ⟨l, ⟨_, rfl⟩, hmem⟩) | hmem
    · cases hmem
    · cases hmem
    · simpa using hmem
    · rcases hE _ hmem with ⟨j, hj⟩ | hj <;> cases hj


/-- The minor version and the key length that `ParseInput` leaves. -/
theorem hashpass_ParseInput_key_len (key salt : List Nat) (p : Parsed)
    (h : hashpass_ParseInput key salt = .ok p) :
    p.minor = salt.getD 2 0 ∧
      ((p.minor = 97 ∧ p.key_len = (strlen key + 1) % 256) ∨
        (p.minor = 98 ∧ p.key_len = min (strlen key) 72 + 1)) := by
  obtain ⟨d0, d1, s, rfl, hk, _⟩ := (hashpass_ParseInput_ok_iff key salt p).mp h
  exact ⟨rfl, hk⟩

/-- A call on `sampleSaltA` or `sampleSaltB` with a buffer of 61 bytes returns 0. -/
theorem hashpass_sample_ret (B : Blowfish) (key : List Nat) :
    (vapor_bcrypt_hashpass B key sampleSaltA 61).ret = 0 ∧
      (vapor_bcrypt_hashpass B key sampleSaltB 61).ret = 0 :=
  ⟨(hashpass_ret B key sampleSaltA 61).1.mpr
      ⟨by decide, ok_of_WellFormedSalt key sampleSaltA (by decide) (by decide)⟩,
    (hashpass_ret B key sampleSaltB 61).1.mpr
      ⟨by decide, ok_of_WellFormedSalt key sampleSaltB (by decide) (by decide)⟩⟩

/-- With a key length of at least 72, the 18 words of the key stream are read from
the key bytes 0..71 without wrapping, so two keys that agree on these bytes
give the same words. -/
theorem blf_key_words_congr (k1 k2 : List Nat) (kb1 kb2 : Nat)
    (h72 : ∀ j < 72, k1.getD j 0 = k2.getD j 0) (hb1 : 72 ≤ kb1) (hb2 : 72 ≤ kb2) :
    blf_key_words k1 kb1 = blf_key_words k2 kb2 := by
  have step : ∀ n ≤ 18, ∃ ws,
      Nat.iterate (fun (a : List Nat × Nat) =>
          let r := Viora_Blowfish_stream2word k1 kb1 a.2
          (a.1 ++ [r.1], r.2)) n ([], 0) = (ws, (4 * n) % kb1) ∧
      Nat.iterate (fun (a : List Nat × Nat) =>
          let r := Viora_Blowfish_stream2word k2 kb2 a.2
          (a.1 ++ [r.1], r.2)) n ([], 0) = (ws, (4 * n) % kb2) := by
    intro n
    induction n with
    | zero => intro _; exact ⟨[], by simp, by simp⟩
    | succ n ih =>
      intro hn
      obtain ⟨ws, e1, e2⟩ := ih (by omega)
      have c1 : 4 * n % kb1 = 4 * n := Nat.mod_eq_of_lt (by omega)
      have c2 : 4 * n % kb2 = 4 * n := Nat.mod_eq_of_lt (by omega)
      have m1 : ∀ k < 4, (4 * n + k) % kb1 = 4 * n + k := fun k hk =>
        Nat.mod_eq_of_lt (by omega)
      have m2 : ∀ k < 4, (4 * n + k) % kb2 = 4 * n + k := fun k hk =>
        Nat.mod_eq_of_lt (by omega)
      refine ⟨ws ++ [(k1.getD (4 * n) 0 <<< 24) ||| (k1.getD (4 * n + 1) 0 <<< 16) |||
        (k1.getD (4 * n + 2) 0 <<< 8) ||| k1.getD (4 * n + 3) 0], ?_, ?_⟩
      · rw [Function.iterate_succ_apply', e1]
        simp only [Viora_Blowfish_stream2word, c1, m1 0 (by omega), m1 1 (by omega),
          m1 2 (by omega), m1 3 (by omega), Nat.add_zero]
        rw [show 4 * (n + 1) = 4 * n + 4 by omega]
      · rw [Function.iterate_succ_apply', e2]
        simp only [Viora_Blowfish_stream2word, c2, m2 0 (by omega), m2 1 (by omega),
          m2 2 (by omega), m2 3 (by omega), Nat.add_zero,
          h72 (4 * n) (by omega), h72 (4 * n + 1) (by omega), h72 (4 * n + 2) (by omega),
          h72 (4 * n + 3) (by omega)]
        rw [show 4 * (n + 1) = 4 * n + 4 by omega]
  obtain ⟨ws, e1, e2⟩ := step 18 (le_refl _)
  simp only [blf_key_words, e1, e2]

/-- The context that the `Schedule` step leaves with the engine as specified is the
same for two keys that agree on their first 72 bytes, when both key lengths are
at least 72. -/
theorem hashpass_Schedule_spec_congr (init : blf_ctx)
    (rederive : blf_ctx → List Nat → Nat → blf_ctx) (rederive0 : blf_ctx → blf_ctx)
    (enc : blf_ctx → List Nat → Nat → blf_ctx × List Nat)
    (csalt : List Nat) (salt_len : Nat) (k1 k2 : List Nat) (kl1 kl2 rounds : Nat)
    (h72 : k1.take 72 = k2.take 72)
    (hb1 : 72 ≤ kl1) (hc1 : kl1 < 65536) (hb2 : 72 ≤ kl2) (hc2 : kl2 < 65536) :
    (hashpass_Schedule (specBlowfish init rederive rederive0 enc) csalt salt_len
        k1 kl1 rounds).1 =
      (hashpass_Schedule (specBlowfish init rederive rederive0 enc) csalt salt_len
        k2 kl2 rounds).1 := by
  have hget : ∀ j < 72, k1.getD j 0 = k2.getD j 0 := fun j hj => by
    rw [← getD_take_zero k1 72 j hj, ← getD_take_zero k2 72 j hj, h72]
  have hw := blf_key_words_congr k1 k2 kl1 kl2 hget hb1 hb2
  have hx : ∀ c, blf_xor_key c k1 kl1 = blf_xor_key c k2 kl2 := fun c => by
    simp only [blf_xor_key, hw]
  rw [hashpass_Schedule_state, hashpass_Schedule_state]
  simp only [specBlowfish, Nat.mod_eq_of_lt hc1, Nat.mod_eq_of_lt hc2, hx]

/-- `ParseInput` depends on the password through the local `key_len` only. -/
theorem hashpass_ParseInput_other_key (k1 k2 salt : List Nat) (p : Parsed)
    (h : hashpass_ParseInput k1 salt = .ok p) :
    ∃ kl, hashpass_ParseInput k2 salt = .ok { p with key_len := kl } := by
  obtain ⟨d0, d1, s, rfl, hk, rest⟩ := (hashpass_ParseInput_ok_iff k1 salt p).mp h
  obtain ⟨kl, hkl⟩ := exists_key_len k2 p.minor
    (by rcases hk with ⟨hm, _⟩ | ⟨hm, _⟩ <;> simp [hm])
  exact ⟨kl, (hashpass_ParseInput_ok_iff k2 _ _).mpr ⟨d0, d1, s, rfl, hkl, rest⟩⟩

/-- A call that returns -1 has stored nothing into `encrypted`. -/
theorem hashpass_fail_encrypted (B : Blowfish) (key salt : List Nat) (encryptedlen : Nat)
    (h : (vapor_bcrypt_hashpass B key salt encryptedlen).ret ≠ 0) :
    (vapor_bcrypt_hashpass B key salt encryptedlen).ret = -1 ∧
      (vapor_bcrypt_hashpass B key salt encryptedlen).encrypted = [] := by
  by_cases hlen : encryptedlen < BCRYPT_HASHSPACE
  · simp [vapor_bcrypt_hashpass, hlen]
  · cases hp : hashpass_ParseInput key salt with
    | error e => simp [vapor_bcrypt_hashpass, hlen, hp]
    | ok p => simp [vapor_bcrypt_hashpass, hlen, hp] at h

/-- With the engine as specified, two passwords that agree on their first 72 bytes
and whose key lengths are both at least 72 leave the same return value and the
same encoded hash. -/
theorem hashpass_spec_shared_72 (init : blf_ctx)
    (rederive : blf_ctx → List Nat → Nat → blf_ctx) (rederive0 : blf_ctx → blf_ctx)
    (enc : blf_ctx → List Nat → Nat → blf_ctx × List Nat)
    (k1 k2 salt : List Nat) (encryptedlen : Nat) (h72 : k1.take 72 = k2.take 72)
    (hkl : ∀ p1 p2, hashpass_ParseInput k1 salt = .ok p1 →
      hashpass_ParseInput k2 salt = .ok p2 →
      72 ≤ p1.key_len ∧ 72 ≤ p2.key_len) :
    (vapor_bcrypt_hashpass (specBlowfish init rederive rederive0 enc) k1 salt
        encryptedlen).ret =
      (vapor_bcrypt_hashpass (specBlowfish init rederive rederive0 enc) k2 salt
        encryptedlen).ret ∧
    (vapor_bcrypt_hashpass (specBlowfish init rederive rederive0 enc) k1 salt
        encryptedlen).encrypted =
      (vapor_bcrypt_hashpass (specBlowfish init rederive rederive0 enc) k2 salt
        encryptedlen).encrypted := by
  by_cases h1 : (vapor_bcrypt_hashpass (specBlowfish init rederive rederive0 enc) k1 salt
      encryptedlen).ret = 0
  · obtain ⟨hlen, p1, hp1⟩ := (hashpass_ret _ k1 salt encryptedlen).1.mp h1
    obtain ⟨kl, hp2⟩ := hashpass_ParseInput_other_key k1 k2 salt p1 hp1
    obtain ⟨b1, b2⟩ := hkl _ _ hp1 hp2
    have c1 : p1.key_len < 65536 := by
      obtain ⟨_, hk⟩ := hashpass_ParseInput_key_len k1 salt p1 hp1
      rcases hk with ⟨_, hk⟩ | ⟨_, hk⟩ <;> omega
    have c2 : kl < 65536 := by
      obtain ⟨_, hk⟩ := hashpass_ParseInput_key_len k2 salt _ hp2
      simp only at hk
      rcases hk with ⟨_, hk⟩ | ⟨_, hk⟩ <;> omega
    rw [hashpass_of_ok _ k1 salt encryptedlen p1 hlen hp1,
      hashpass_of_ok _ k2 salt encryptedlen _ hlen hp2]
    simp only [true_and]
    rw [hashpass_Schedule_spec_congr init rederive rederive0 enc p1.csalt p1.salt_len k1 k2
      p1.key_len kl p1.rounds h72 b1 c1 b2 c2]
  · have h2 : (vapor_bcrypt_hashpass (specBlowfish init rederive rederive0 enc) k2 salt
        encryptedlen).ret ≠ 0 := by
      intro h2
      obtain ⟨hlen, p2, hp2⟩ := (hashpass_ret _ k2 salt encryptedlen).1.mp h2
      obtain ⟨kl, hp1⟩ := hashpass_ParseInput_other_key k2 k1 salt p2 hp2
      exact h1 ((hashpass_ret _ k1 salt encryptedlen).1.mpr ⟨hlen, _, hp1⟩)
    obtain ⟨r1, e1⟩ := hashpass_fail_encrypted _ k1 salt encryptedlen h1
    obtain ⟨r2, e2⟩ := hashpass_fail_encrypted _ k2 salt encryptedlen h2
    rw [r1, r2, e1, e2]
    exact ⟨rfl, rfl⟩

theorem sampleKey_facts :
    strlen sampleKey73 = 73 ∧ strlen sampleKey500 = 500 ∧
      sampleKey73.take 72 = sampleKey500.take 72 ∧
      sampleKey73.getD 72 0 ≠ sampleKey500.getD 72 0 := by
  decide!

theorem countP_flatten_replicate (f : BlfCall → Bool) (l : List BlfCall) (n : Nat) :
    (List.replicate n l).flatten.countP f = n * l.countP f := by
  induction n with
  | zero => simp
  | succ n ih =>
    rw [List.replicate_succ, List.flatten_cons, List.countP_append, ih]
    ring

/-- The `Encrypt` step makes no call of `Viora_Blowfish_expand0state`. -/
theorem hashpass_Encrypt_no_expand0 (B : Blowfish) (state : blf_ctx) (c : List Nat) :
    (hashpass_Encrypt B state c).calls.countP BlfCall.isExpand0state = 0 := by
  rw [List.countP_eq_zero]
  intro x hx
  rcases hashpass_Encrypt_calls B state c x hx with ⟨j, rfl⟩ | rfl <;> simp [BlfCall.isExpand0state]

/-- The Blowfish calls of an accepted input, in order, and the number of calls of
`Viora_Blowfish_expand0state` among them. -/
theorem hashpass_calls_of_ok (B : Blowfish) (key salt : List Nat) (encryptedlen : Nat)
    (p : Parsed) (hlen : BCRYPT_HASHSPACE ≤ encryptedlen)
    (hp : hashpass_ParseInput key salt = .ok p) :
    (vapor_bcrypt_hashpass B key salt encryptedlen).calls =
        [BlfCall.initstate, BlfCall.expandstate 16 p.key_len] ++
          (List.replicate (2 ^ p.logr)
            [BlfCall.expand0state_key p.key_len, BlfCall.expand0state_salt 16]).flatten ++
          (hashpass_Encrypt B
            (hashpass_Schedule B p.csalt p.salt_len key p.key_len p.rounds).1
            OrpheanBeholderScryDoubt).calls ∧
      (vapor_bcrypt_hashpass B key salt encryptedlen).calls.countP BlfCall.isExpand0state =
        2 * 2 ^ p.logr := by
  obtain ⟨d0, d1, s, rfl, hk, _, _, _, _, _, hl4, hl31, hr, _, _, _, hsl⟩ :=
    (hashpass_ParseInput_ok_iff key _ p).mp hp
  have hkl : p.key_len % 65536 = p.key_len := by
    rcases hk with ⟨_, hk⟩ | ⟨_, hk⟩ <;> omega
  have hcalls : (vapor_bcrypt_hashpass B key
      (36 :: 50 :: p.minor :: 36 :: d0 :: d1 :: 36 :: s) encryptedlen).calls =
        [BlfCall.initstate, BlfCall.expandstate 16 p.key_len] ++
          (List.replicate (2 ^ p.logr)
            [BlfCall.expand0state_key p.key_len, BlfCall.expand0state_salt 16]).flatten ++
          (hashpass_Encrypt B
            (hashpass_Schedule B p.csalt p.salt_len key p.key_len p.rounds).1
            OrpheanBeholderScryDoubt).calls := by
    rw [hashpass_of_ok B key _ encryptedlen p hlen hp]
    simp only [hashpass_Schedule_calls, hkl, hsl, hr, Nat.reduceMod]
  refine ⟨hcalls, ?_⟩
  rw [hcalls, List.countP_append, List.countP_append, countP_flatten_replicate,
    hashpass_Encrypt_no_expand0]
  simp [BlfCall.isExpand0state, List.countP_cons]
  ring

theorem Base64Code_shape :
    Base64Code.Nodup ∧ Base64Code.length = 64 ∧ index_64.length = 128 ∧
      Base64Code = [46, 47] ++ List.range' 65 26 ++ List.range' 97 26 ++ List.range' 48 10 ∧
      Base64Code =
        ("./ABCDEFGHIJKLMNOPQRSTUVWXYZabcdefghijklmnopqrstuvwxyz0123456789".toList.map
          Char.toNat) := by
  decide!

theorem byte_slices : ∀ a < 256,
    a >>> 2 = a / 4 ∧ a &&& 0x03 = a % 4 ∧ (a >>> 4) &&& 0x0f = a / 16 ∧
      a &&& 0x0f = a % 16 ∧ (a >>> 6) &&& 0x03 = a / 64 ∧ a &&& 0x3f = a % 64 := by
  decide!

theorem join_2_4_add : ∀ r < 4, ∀ q < 16, (r <<< 4) % 256 ||| q = r * 16 + q := by
  decide!

theorem join_4_2_add : ∀ q < 16, ∀ r < 4, (q <<< 2) % 256 ||| r = q * 4 + r := by
  decide!

/-- The characters of the group `i` of a text are those of the loop started at the
byte `3 * i`. -/
theorem vapor_encode_base64_loop_group : ∀ (i n : Nat) (p : List Nat), 3 * i + 3 ≤ n →
    ∀ k < 4, (vapor_encode_base64_loop n p).getD (4 * i + k) 0 =
      (vapor_encode_base64_loop 3 (p.drop (3 * i))).getD k 0
  | 0, n + 3, p, _ => by
    intro k hk
    simp only [vapor_encode_base64_loop, Nat.mul_zero, Nat.zero_add, List.drop_zero]
    interval_cases k <;> rfl
  | i + 1, n + 3, p, h => by
    intro k hk
    have ih := vapor_encode_base64_loop_group i n (p.drop 3) (by omega) k hk
    rw [List.drop_drop] at ih
    rw [show 4 * (i + 1) + k = (4 * i + k) + 4 by omega, show 3 * (i + 1) = 3 + 3 * i by omega]
    simp only [vapor_encode_base64_loop, List.getD_cons_succ]
    exact ih
  | 0, 0, _, h => by omega
  | 0, 1, _, h => by omega
  | 0, 2, _, h => by omega
  | i + 1, 0, _, h => by omega
  | i + 1, 1, _, h => by omega
  | i + 1, 2, _, h => by omega

/-- The characters after the `q` full groups of a text are those of the loop started
at the byte `3 * q`. -/
theorem vapor_encode_base64_loop_tail : ∀ (q r : Nat) (p : List Nat) (k : Nat),
    (vapor_encode_base64_loop (3 * q + r) p).getD (4 * q + k) 0 =
      (vapor_encode_base64_loop r (p.drop (3 * q))).getD k 0
  | 0, r, p, k => by simp
  | q + 1, r, p, k => by
    have ih := vapor_encode_base64_loop_tail q r (p.drop 3) k
    rw [List.drop_drop] at ih
    rw [show 3 * (q + 1) + r = (3 * q + r) + 3 by omega,
      show 4 * (q + 1) + k = (4 * q + k) + 4 by omega, show 3 * (q + 1) = 3 + 3 * q by omega]
    simp only [vapor_encode_base64_loop, List.getD_cons_succ]
    exact ih

/-- The four characters of a full group of three bytes: the four 6-bit slices of
the 24-bit value, the most significant first. -/
theorem vapor_encode_base64_loop_three (p : List Nat) (hp : ∀ x ∈ p, x < 256) :
    ∀ k < 4, (vapor_encode_base64_loop 3 p).getD k 0 =
      Base64Char ((p.getD 0 0 * 65536 + p.getD 1 0 * 256 + p.getD 2 0) / 64 ^ (3 - k) % 64) := by
  have ha := getD_lt_256 p hp 0
  have hb := getD_lt_256 p hp 1
  have hc := getD_lt_256 p hp 2
  obtain ⟨a1, a2, _, _, _, _⟩ := byte_slices _ ha
  obtain ⟨_, _, b3, b4, _, _⟩ := byte_slices _ hb
  obtain ⟨_, _, _, _, c5, c6⟩ := byte_slices _ hc
  have j1 := join_2_4_add (p.getD 0 0 % 4) (Nat.mod_lt _ (by decide)) (p.getD 1 0 / 16) (by omega)
  have j2 := join_4_2_add (p.getD 1 0 % 16) (Nat.mod_lt _ (by decide)) (p.getD 2 0 / 64) (by omega)
  intro k hk
  simp only [vapor_encode_base64_loop, a1, a2, b3, b4, c5, c6, j1, j2]
  interval_cases k
  · simp only [List.getD_cons_zero]
    congr 1
    omega
  · simp only [List.getD_cons_succ, List.getD_cons_zero]
    congr 1
    omega
  · simp only [List.getD_cons_succ, List.getD_cons_zero]
    congr 1
    omega
  · simp only [List.getD_cons_succ, List.getD_cons_zero]
    congr 1
    omega

/-- The two characters of a final group of one byte, and the three characters of a
final group of two bytes. -/
theorem vapor_encode_base64_loop_short (p : List Nat) (hp : ∀ x ∈ p, x < 256) :
    vapor_encode_base64_loop 1 p =
        [Base64Char (p.getD 0 0 / 4), Base64Char (p.getD 0 0 % 4 * 16)] ∧
      vapor_encode_base64_loop 2 p =
        [Base64Char (p.getD 0 0 / 4), Base64Char (p.getD 0 0 % 4 * 16 + p.getD 1 0 / 16),
          Base64Char (p.getD 1 0 % 16 * 4)] := by
  have ha := getD_lt_256 p hp 0
  have hb := getD_lt_256 p hp 1
  obtain ⟨a1, a2, _, _, _, _⟩ := byte_slices _ ha
  obtain ⟨_, _, b3, b4, _, _⟩ := byte_slices _ hb
  have j1 := join_2_4_add (p.getD 0 0 % 4) (Nat.mod_lt _ (by decide)) (p.getD 1 0 / 16) (by omega)
  have j0 := join_2_4_add (p.getD 0 0 % 4) (Nat.mod_lt _ (by decide)) 0 (by omega)
  have k0 := join_4_2_add (p.getD 1 0 % 16) (Nat.mod_lt _ (by decide)) 0 (by omega)
  simp only [Nat.or_zero, Nat.add_zero] at j0 k0
  rw [j0] at j1
  simp only [vapor_encode_base64_loop, a1, a2, b3, b4, j0, j1, k0, and_self]

/-- The bytes that an accepted call stores into `encrypted`: the header, the text of
the salt, the text of the first 23 ciphertext bytes, and a NUL; the 60
characters before the NUL are not NUL. -/
theorem hashpass_encrypted_of_ok (B : Blowfish) (key salt : List Nat) (encryptedlen : Nat)
    (p : Parsed) (hlen : BCRYPT_HASHSPACE ≤ encryptedlen)
    (hp : hashpass_ParseInput key salt = .ok p) :
    ∃ text, (vapor_bcrypt_hashpass B key salt encryptedlen).encrypted = 36 :: text ++ [0] ∧
      text.length = 59 ∧ ∀ c ∈ text, c ≠ 0 := by
  obtain ⟨d0, d1, s, rfl, hk, h4a, h4b, h5a, h5b, hl, hl4, hl31, hr, _, hd, hc, hsl⟩ :=
    (hashpass_ParseInput_ok_iff key _ p).mp hp
  obtain ⟨hclen, hcb⟩ := decode_base64_ok_bytes s hd
  rw [← hc] at hclen hcb
  obtain ⟨_, hctb⟩ := hashpass_Encrypt_ciphertext B
    (hashpass_Schedule B p.csalt p.salt_len key p.key_len p.rounds).1 OrpheanBeholderScryDoubt
  have e23 : b64len 23 = 31 := by decide
  have l16 := vapor_encode_base64_loop_length 16 p.csalt
  have l23 := vapor_encode_base64_loop_length 23 (hashpass_ciphertext B key p)
  rw [b64len_16] at l16
  rw [e23] at l23
  have hm16 := vapor_encode_base64_loop_mem 16 p.csalt hcb
  have hm23 := vapor_encode_base64_loop_mem 23 (hashpass_ciphertext B key p) hctb
  refine ⟨[50, p.minor, 36, 48 + p.logr / 10, 48 + p.logr % 10, 36] ++
    (vapor_encode_base64_loop 16 p.csalt ++
      vapor_encode_base64_loop 23 (hashpass_ciphertext B key p)), ?_, ?_, ?_⟩
  · rw [hashpass_of_ok B key _ encryptedlen p hlen hp]
    simp only
    rw [hashpass_Format_eq _ _ _ _ (by omega)]
    simp [hashpass_ciphertext]
  · simp [l16, l23]
  · intro c hc0
    simp only [List.mem_append, List.mem_cons, List.not_mem_nil, or_false] at hc0
    rcases hc0 with (rfl | rfl | rfl | rfl | rfl | rfl) | hc0 | hc0
    · decide
    · rcases hk with ⟨hm, _⟩ | ⟨hm, _⟩ <;> omega
    · decide
    · omega
    · omega
    · decide
    · exact Base64Code_ne_zero c (hm16 c hc0)
    · exact Base64Code_ne_zero c (hm23 c hc0)

/-- The length of the string that an accepted call stores. -/
theorem hashpass_strlen_of_ok (B : Blowfish) (key salt : List Nat) (encryptedlen : Nat)
    (h : (vapor_bcrypt_hashpass B key salt encryptedlen).ret = 0) :
    (vapor_bcrypt_hashpass B key salt encryptedlen).encrypted.length = 61 ∧
      strlen (vapor_bcrypt_hashpass B key salt encryptedlen).encrypted = 60 ∧
      (vapor_bcrypt_hashpass B key salt encryptedlen).encrypted.getD 0 0 = 36 ∧
      strlen ((vapor_bcrypt_hashpass B key salt encryptedlen).encrypted.drop 1) = 59 := by
  obtain ⟨hlen, p, hp⟩ := (hashpass_ret B key salt encryptedlen).1.mp h
  obtain ⟨text, he, hl, hnz⟩ := hashpass_encrypted_of_ok B key salt encryptedlen p hlen hp
  have h1 : strlen (text ++ [0]) = 59 := by
    rw [strlen_append text [0] hnz, hl]
    simp [strlen]
  rw [he]
  refine ⟨by simp [hl], ?_, rfl, ?_⟩
  · rw [List.cons_append]
    simp only [strlen, h1]
    simp
  · simpa using h1

/-- What a call that does not return 0 leaves behind. -/
theorem hashpass_fail_frame (B : Blowfish) (key salt : List Nat) (encryptedlen : Nat)
    (h : (vapor_bcrypt_hashpass B key salt encryptedlen).ret ≠ 0) :
    (vapor_bcrypt_hashpass B key salt encryptedlen).ret = -1 ∧
      (vapor_bcrypt_hashpass B key salt encryptedlen).encrypted = [] ∧
      (vapor_bcrypt_hashpass B key salt encryptedlen).calls = [] ∧
      (vapor_bcrypt_hashpass B key salt encryptedlen).state = none ∧
      (vapor_bcrypt_hashpass B key salt encryptedlen).cdata = [] ∧
      (vapor_bcrypt_hashpass B key salt encryptedlen).ciphertext =
        OrpheanBeholderScryDoubt := by
  by_cases hlen : encryptedlen < BCRYPT_HASHSPACE
  · simp [vapor_bcrypt_hashpass, hlen]
  · cases hp : hashpass_ParseInput key salt with
    | error e => simp [vapor_bcrypt_hashpass, hlen, hp]
    | ok p => simp [vapor_bcrypt_hashpass, hlen, hp] at h

/-- A call with a buffer smaller than `BCRYPT_HASHSPACE` returns -1. -/
theorem hashpass_small_buffer (B : Blowfish) (key salt : List Nat) (encryptedlen : Nat)
    (hlen : encryptedlen < BCRYPT_HASHSPACE) :
    (vapor_bcrypt_hashpass B key salt encryptedlen).ret = -1 := by
  simp [vapor_bcrypt_hashpass, hlen]

/-- The seed loop of the `Encrypt` step makes the six calls of `stream2word`. -/
theorem hashpass_Encrypt_seed (B : Blowfish) (c : List Nat) :
    Nat.iterate
      (fun (a : List Nat × Nat × List BlfCall) =>
        let r := B.Viora_Blowfish_stream2word c (4 * BCRYPT_WORDS) a.2.1
        (a.1 ++ [r.1 % 2 ^ 32], r.2 % 65536,
          a.2.2 ++ [BlfCall.stream2word (4 * BCRYPT_WORDS) a.2.1]))
      BCRYPT_WORDS ([], 0, []) =
    ((encrypt_seed_spec B c).1,
      (B.Viora_Blowfish_stream2word c 24 ((encrypt_seed_spec B c).2.getD 5 0)).2 % 65536,
      (encrypt_seed_spec B c).2.map (fun j => BlfCall.stream2word 24 j)) := by
  simp [BCRYPT_WORDS, Function.iterate_succ, encrypt_seed_spec]

/-- The encryption loop of the `Encrypt` step: 64 calls of `vapor_blf_enc` on 3
blocks, each on what the previous one left. -/
theorem hashpass_Encrypt_loop (B : Blowfish) (n : Nat) (x : blf_ctx × List Nat)
    (l : List BlfCall) :
    Nat.iterate
      (fun (a : (blf_ctx × List Nat) × List BlfCall) =>
        (B.vapor_blf_enc a.1.1 a.1.2 (BCRYPT_WORDS / 2),
          a.2 ++ [BlfCall.blf_enc (BCRYPT_WORDS / 2)]))
      n (x, l) =
    (Nat.iterate (fun (a : blf_ctx × List Nat) => B.vapor_blf_enc a.1 a.2 3) n x,
      l ++ List.replicate n (BlfCall.blf_enc 3)) := by
  induction n with
  | zero => simp
  | succ n ih =>
    rw [Function.iterate_succ_apply', Function.iterate_succ_apply', ih]
    simp [BCRYPT_WORDS, List.replicate_succ']

/-- The `Encrypt` step computes the bytes as described and makes six calls of
`stream2word` followed by 64 calls of `vapor_blf_enc` on 3 blocks. -/
theorem hashpass_Encrypt_spec (B : Blowfish) (state : blf_ctx) (c : List Nat) :
    (hashpass_Encrypt B state c).ciphertext = encrypt_bytes_spec B state c ∧
      (hashpass_Encrypt B state c).calls =
        (encrypt_seed_spec B c).2.map (fun j => BlfCall.stream2word 24 j) ++
          List.replicate 64 (BlfCall.blf_enc 3) := by
  constructor
  · simp only [hashpass_Encrypt, encrypt_bytes_spec, hashpass_Encrypt_seed,
      hashpass_Encrypt_loop]
    generalize (Nat.iterate (fun (a : blf_ctx × List Nat) => B.vapor_blf_enc a.1 a.2 3) 64
      (state, (encrypt_seed_spec B c).1)) = W
    simp [BCRYPT_WORDS, List.range_succ, hashpass_word_bytes, ← Nat.shiftRight_add]
  · simp only [hashpass_Encrypt, hashpass_Encrypt_seed, hashpass_Encrypt_loop]

/-- The `Format` step looks at the first 23 bytes of `ciphertext` only. -/
theorem hashpass_Format_congr (minor logr : Nat) (csalt c1 c2 : List Nat)
    (h : c1.take 23 = c2.take 23) :
    hashpass_Format minor logr csalt c1 = hashpass_Format minor logr csalt c2 := by
  have e : vapor_encode_base64_loop 23 c1 = vapor_encode_base64_loop 23 c2 :=
    vapor_encode_base64_loop_congr 23 c1 c2 (fun i hi => by
      rw [← getD_take_zero c1 23 i hi, ← getD_take_zero c2 23 i hi, h])
  simp only [hashpass_Format, vapor_encode_base64, BCRYPT_WORDS, e]

/-- The byte `4 * i + k` of the bytes as described. -/
theorem encrypt_bytes_spec_getD (B : Blowfish) (state : blf_ctx) (c : List Nat)
    (i k : Nat) (hi : i < 6) (hk : k < 4) :
    (encrypt_bytes_spec B state c).getD (4 * i + k) 0 =
      ((((Nat.iterate (fun (a : blf_ctx × List Nat) => B.vapor_blf_enc a.1 a.2 3) 64
        (state, (encrypt_seed_spec B c).1)).2.getD i 0) % 2 ^ 32) >>> (8 * (3 - k))) &&&
        0xff := by
  have hn : 4 * i + k < 24 := by omega
  have e1 : (4 * i + k) / 4 = i := by omega
  have e2 : (4 * i + k) % 4 = k := by omega
  simp only [encrypt_bytes_spec]
  rw [List.getD_eq_getElem?_getD, List.getElem?_map, List.getElem?_range hn]
  simp only [Option.map_some', Option.getD_some, e1, e2]

theorem unslice_hi : ∀ c1 < 64, ∀ c2 < 64,
    (((c1 <<< 2) ||| ((c2 &&& 0x30) >>> 4)) % 256) >>> 2 = c1 ∧
      (((c1 <<< 2) ||| ((c2 &&& 0x30) >>> 4)) % 256) &&& 0x03 = (c2 &&& 0x30) >>> 4 := by
  decide!

theorem unslice_mid : ∀ c2 < 64, ∀ c3 < 64,
    (((((c2 &&& 0x0f) <<< 4) ||| ((c3 &&& 0x3c) >>> 2)) % 256) >>> 4) &&& 0x0f =
        c2 &&& 0x0f ∧
      ((((c2 &&& 0x0f) <<< 4) ||| ((c3 &&& 0x3c) >>> 2)) % 256) &&& 0x0f =
        (c3 &&& 0x3c) >>> 2 := by
  decide!

theorem unslice_lo : ∀ c3 < 64, ∀ c4 < 64,
    (((((c3 &&& 0x03) <<< 6) ||| c4) % 256) >>> 6) &&& 0x03 = c3 &&& 0x03 ∧
      ((((c3 &&& 0x03) <<< 6) ||| c4) % 256) &&& 0x3f = c4 := by
  decide!

theorem rejoin : ∀ c < 64,
    ((((c &&& 0x30) >>> 4) <<< 4) % 256 ||| (c &&& 0x0f)) = c ∧
      ((((c &&& 0x3c) >>> 2) <<< 2) % 256 ||| (c &&& 0x03)) = c ∧
      (((c &&& 0x30) >>> 4) <<< 4) % 256 = c &&& 0x30 ∧
      c &&& 0x30 < 64 ∧ c &&& 0x30 = c / 16 * 16 ∧
      (c &&& 0x30 = c ↔ c % 16 = 0) := by
  decide!

theorem Base64Char_CHAR64_mem : ∀ c ∈ Base64Code,
    CHAR64 c < 64 ∧ Base64Char (CHAR64 c) = c ∧
      (CHAR64 c % 16 = 0 ↔ c = 46 ∨ c = 79 ∨ c = 101 ∨ c = 117) := by
  decide!

/-- A character that the lookup accepts is the character of its value. -/
theorem Base64Char_CHAR64 (c : Nat) (h : CHAR64 c ≠ 255) :
    CHAR64 c < 64 ∧ Base64Char (CHAR64 c) = c :=
  ⟨(Base64Char_CHAR64_mem c ((CHAR64_ne_255_iff c).mp h)).1,
    (Base64Char_CHAR64_mem c ((CHAR64_ne_255_iff c).mp h)).2.1⟩

/-- Encoding what the `decode_base64` loop stored gives back every character of the
text but the last. -/
theorem encode_decode_loop_init : ∀ (n : Nat) (s : List Nat),
    (decode_base64_loop n s).1 = 0 → ∀ i, i + 1 < b64len n →
    (vapor_encode_base64_loop n (decode_base64_loop n s).2).getD i 0 = s.getD i 0
  | 0, _, _ => by
    intro i hi
    simp [b64len] at hi
  | 1, s, h => by
    intro i hi
    have e : b64len 1 = 2 := by decide
    rw [e] at hi
    have hv := (decode_base64_loop_ret 1 s).mp h
    rw [e] at hv
    obtain ⟨v0, w0⟩ := Base64Char_CHAR64 _ (hv 0 (by omega))
    obtain ⟨v1, w1⟩ := Base64Char_CHAR64 _ (hv 1 (by omega))
    obtain ⟨a1, a2⟩ := unslice_hi _ v0 _ v1
    have hi0 : i = 0 := by omega
    subst hi0
    simp only [decode_base64_loop, if_neg (hv 0 (by omega)), if_neg (hv 1 (by omega)),
      vapor_encode_base64_loop, List.getD_cons_zero, a1, w0]
  | 2, s, h => by
    intro i hi
    have e : b64len 2 = 3 := by decide
    rw [e] at hi
    have hv := (decode_base64_loop_ret 2 s).mp h
    rw [e] at hv
    obtain ⟨v0, w0⟩ := Base64Char_CHAR64 _ (hv 0 (by omega))
    obtain ⟨v1, w1⟩ := Base64Char_CHAR64 _ (hv 1 (by omega))
    obtain ⟨v2, w2⟩ := Base64Char_CHAR64 _ (hv 2 (by omega))
    obtain ⟨a1, a2⟩ := unslice_hi _ v0 _ v1
    obtain ⟨b1, b2⟩ := unslice_mid _ v1 _ v2
    obtain ⟨r1, _⟩ := rejoin _ v1
    simp only [decode_base64_loop, if_neg (hv 0 (by omega)), if_neg (hv 1 (by omega)),
      if_neg (hv 2 (by omega)), vapor_encode_base64_loop, List.getD_cons_zero,
      List.getD_cons_succ, a1, a2, b1, r1]
    have hi2 : i < 2 := by omega
    interval_cases i
    · simp only [List.getD_cons_zero, w0]
    · simp only [List.getD_cons_succ, List.getD_cons_zero, w1]
  | n + 3, s, h => by
    intro i hi
    rw [b64len_add_three] at hi
    have hv := (decode_base64_loop_ret (n + 3) s).mp h
    rw [b64len_add_three] at hv
    have hrec : (decode_base64_loop n (s.drop 4)).1 = 0 := by
      rw [decode_base64_loop_ret]
      intro j hj
      rw [getD_drop_zero]
      exact hv (4 + j) (by omega)
    have ih := encode_decode_loop_init n (s.drop 4) hrec
    obtain ⟨v0, w0⟩ := Base64Char_CHAR64 _ (hv 0 (by omega))
    obtain ⟨v1, w1⟩ := Base64Char_CHAR64 _ (hv 1 (by omega))
    obtain ⟨v2, w2⟩ := Base64Char_CHAR64 _ (hv 2 (by omega))
    obtain ⟨v3, w3⟩ := Base64Char_CHAR64 _ (hv 3 (by omega))
    obtain ⟨a1, a2⟩ := unslice_hi _ v0 _ v1
    obtain ⟨b1, b2⟩ := unslice_mid _ v1 _ v2
    obtain ⟨c1, c2⟩ := unslice_lo _ v2 _ v3
    obtain ⟨r1, _⟩ := rejoin _ v1
    obtain ⟨_, r2, _⟩ := rejoin _ v2
    simp only [decode_base64_loop, if_neg (hv 0 (by omega)), if_neg (hv 1 (by omega)),
      if_neg (hv 2 (by omega)), if_neg (hv 3 (by omega)), vapor_encode_base64_loop,
      List.getD_cons_zero, List.getD_cons_succ, List.drop_succ_cons, List.drop_zero,
      a1, a2, b1, b2, c1, c2, r1, r2, w0, w1, w2, w3]
    by_cases h4 : i < 4
    · interval_cases i <;> simp only [List.getD_cons_zero, List.getD_cons_succ]
    · obtain ⟨j, rfl⟩ : ∃ j, i = j + 4 := ⟨i - 4, by omega⟩
      simp only [List.getD_cons_succ]
      rw [ih j (by omega), getD_drop_zero]
      congr 1
      omega

theorem b64len_pos_of_mod (n : Nat) (h : n % 3 = 1) : 2 ≤ b64len n := by
  unfold b64len
  omega

/-- After a final group of one byte, encoding what the `decode_base64` loop stored
gives, as last character, the character of the value of the last character of
the text with its low four bits cleared. -/
theorem encode_decode_loop_last : ∀ (n : Nat) (s : List Nat), n % 3 = 1 →
    (decode_base64_loop n s).1 = 0 →
    (vapor_encode_base64_loop n (decode_base64_loop n s).2).getD (b64len n - 1) 0 =
      Base64Char (CHAR64 (s.getD (b64len n - 1) 0) &&& 0x30)
  | 0, _, h0, _ => by omega
  | 2, _, h0, _ => by omega
  | 1, s, _, h => by
    have e : b64len 1 = 2 := by decide
    have hv := (decode_base64_loop_ret 1 s).mp h
    rw [e] at hv
    obtain ⟨v0, w0⟩ := Base64Char_CHAR64 _ (hv 0 (by omega))
    obtain ⟨v1, w1⟩ := Base64Char_CHAR64 _ (hv 1 (by omega))
    obtain ⟨a1, a2⟩ := unslice_hi _ v0 _ v1
    obtain ⟨_, _, r3, _⟩ := rejoin _ v1
    simp only [e, decode_base64_loop, if_neg (hv 0 (by omega)), if_neg (hv 1 (by omega)),
      vapor_encode_base64_loop, List.getD_cons_zero, List.getD_cons_succ, a2, r3,
      Nat.reduceSub]
  | n + 3, s, h0, h => by
    have hm : n % 3 = 1 := by omega
    have hb := b64len_pos_of_mod n hm
    have hv := (decode_base64_loop_ret (n + 3) s).mp h
    rw [b64len_add_three] at hv
    have hrec : (decode_base64_loop n (s.drop 4)).1 = 0 := by
      rw [decode_base64_loop_ret]
      intro j hj
      rw [getD_drop_zero]
      exact hv (4 + j) (by omega)
    have ih := encode_decode_loop_last n (s.drop 4) hm hrec
    rw [getD_drop_zero, Nat.add_comm 4] at ih
    rw [b64len_add_three, show b64len n + 4 - 1 = (b64len n - 1) + 4 by omega]
    simp only [decode_base64_loop, if_neg (hv 0 (by omega)), if_neg (hv 1 (by omega)),
      if_neg (hv 2 (by omega)), if_neg (hv 3 (by omega)), vapor_encode_base64_loop,
      List.getD_cons_succ, List.drop_succ_cons, List.drop_zero]
    exact ih

/-- After a final group of one byte, what the `decode_base64` loop does depends on
the last character it reads only through the two high bits of its value. -/
theorem decode_base64_loop_congr_last : ∀ (n : Nat) (s t : List Nat), n % 3 = 1 →
    (∀ i, i + 1 < b64len n → s.getD i 0 = t.getD i 0) →
    CHAR64 (s.getD (b64len n - 1) 0) ≠ 255 → CHAR64 (t.getD (b64len n - 1) 0) ≠ 255 →
    CHAR64 (s.getD (b64len n - 1) 0) &&& 0x30 = CHAR64 (t.getD (b64len n - 1) 0) &&& 0x30 →
    decode_base64_loop n s = decode_base64_loop n t
  | 0, _, _, h0, _, _, _, _ => by omega
  | 2, _, _, h0, _, _, _, _ => by omega
  | 1, s, t, _, hs, h1, h2, he => by
    have e : b64len 1 = 2 := by decide
    rw [e] at hs h1 h2 he
    simp only [Nat.reduceSub] at h1 h2 he
    have h0 := hs 0 (by omega)
    simp only [decode_base64_loop, if_neg h1, if_neg h2, h0, he]
  | n + 3, s, t, h0, hs, h1, h2, he => by
    have hm : n % 3 = 1 := by omega
    have hb := b64len_pos_of_mod n hm
    rw [b64len_add_three] at hs h1 h2 he
    rw [show b64len n + 4 - 1 = 4 + (b64len n - 1) by omega] at h1 h2 he
    have ih := decode_base64_loop_congr_last n (s.drop 4) (t.drop 4) hm
      (fun i hi => by
        rw [getD_drop_zero, getD_drop_zero]
        exact hs (4 + i) (by omega))
      (by rw [getD_drop_zero]; exact h1) (by rw [getD_drop_zero]; exact h2)
      (by rw [getD_drop_zero, getD_drop_zero]; exact he)
    simp only [decode_base64_loop, hs 0 (by omega), hs 1 (by omega), hs 2 (by omega),
      hs 3 (by omega), ih]

/-- The characters 7..28 of the string that an accepted call stores are the text of
the decoded salt bytes. -/
theorem hashpass_encrypted_salt_text (B : Blowfish) (key salt : List Nat)
    (encryptedlen : Nat) (p : Parsed) (hlen : BCRYPT_HASHSPACE ≤ encryptedlen)
    (hp : hashpass_ParseInput key salt = .ok p) (i : Nat) (hi : i < 22) :
    (vapor_bcrypt_hashpass B key salt encryptedlen).encrypted.getD (7 + i) 0 =
      (vapor_encode_base64_loop 16 p.csalt).getD i 0 := by
  obtain ⟨d0, d1, s, rfl, _, _, _, _, _, _, hl4, hl31, _⟩ :=
    (hashpass_ParseInput_ok_iff key _ p).mp hp
  have l16 := vapor_encode_base64_loop_length 16 p.csalt
  rw [b64len_16] at l16
  rw [hashpass_of_ok B key _ encryptedlen p hlen hp]
  simp only
  rw [hashpass_Format_eq _ _ _ _ (by omega), show 7 + i = i + 7 by omega]
  simp only [List.cons_append, List.nil_append, List.getD_cons_succ]
  rw [List.getD_eq_getElem?_getD, List.getD_eq_getElem?_getD,
    List.getElem?_append_left (by omega)]

/-- What `ParseInput` read from an accepted salt string: the 22 characters after
the header decode to the local `csalt`. -/
theorem hashpass_ParseInput_csalt (key salt : List Nat) (p : Parsed)
    (hp : hashpass_ParseInput key salt = .ok p) :
    (decode_base64_loop 16 (salt.drop 7)).1 = 0 ∧
      p.csalt = (decode_base64_loop 16 (salt.drop 7)).2 := by
  obtain ⟨d0, d1, s, rfl, _, _, _, _, _, _, _, _, _, _, hd, hc, _⟩ :=
    (hashpass_ParseInput_ok_iff key _ p).mp hp
  exact ⟨hd, hc⟩

/-- The traced loop of `decode_base64` computes what the loop computes. -/
theorem decode_base64_loop_traced_fst : ∀ (n : Nat) (p : List Nat),
    (decode_base64_loop_traced n p).1 = decode_base64_loop n p
  | 0, _ => rfl
  | 1, p => by
    simp only [decode_base64_loop_traced, decode_base64_loop]
    split_ifs <;> rfl
  | 2, p => by
    simp only [decode_base64_loop_traced, decode_base64_loop]
    split_ifs <;> rfl
  | n + 3, p => by
    have ih := decode_base64_loop_traced_fst n (p.drop 4)
    simp only [decode_base64_loop_traced, decode_base64_loop]
    split_ifs
    · rfl
    · rfl
    · rfl
    · rfl
    · simp only [ih]

/-- The indices of the loop of `vapor_encode_base64` are those of the characters it
stores. -/
theorem vapor_encode_base64_loop_indices_map : ∀ (n : Nat) (p : List Nat),
    vapor_encode_base64_loop n p = (vapor_encode_base64_loop_indices n p).map Base64Char
  | 0, _ => rfl
  | 1, _ => rfl
  | 2, _ => rfl
  | n + 3, p => by
    have ih := vapor_encode_base64_loop_indices_map n (p.drop 3)
    simp only [vapor_encode_base64_loop, vapor_encode_base64_loop_indices, List.map_cons, ih]

/-- The traced `ParseInput` computes what `ParseInput` computes. -/
theorem hashpass_ParseInput_traced_fst (key salt : List Nat) :
    (hashpass_ParseInput_traced key salt).1 = hashpass_ParseInput key salt := by
  simp only [hashpass_ParseInput_traced, hashpass_ParseInput, getD_drop_zero, List.drop_drop,
    Nat.add_zero, Nat.reduceAdd, ← decode_base64_loop_traced_fst, decode_base64]
  by_cases h0 : salt.getD 0 0 ≠ 36
  · simp only [if_pos h0]
  by_cases h1 : salt.getD 1 0 ≠ BCRYPT_VERSION
  · simp only [if_neg h0, if_pos h1]
  simp only [if_neg h0, if_neg h1]
  have body : ∀ kl : Nat,
      (if salt.getD 3 0 ≠ 36 then
          ((Except.error [] : Except (List Nat) Parsed), [0, 1, 2, 3])
        else
          if (!isdigit (salt.getD 4 0)) = true then (Except.error [], [0, 1, 2, 3, 4])
          else
            if (!isdigit (salt.getD 5 0)) = true then (Except.error [], [0, 1, 2, 3, 4, 5])
            else
              if salt.getD 6 0 ≠ 36 then (Except.error [], [0, 1, 2, 3, 4, 5, 6])
              else
                if (salt.getD 5 0 - 48 + (salt.getD 4 0 - 48) * 10) % 256 <
                      BCRYPT_MINLOGROUNDS ∨
                    (salt.getD 5 0 - 48 + (salt.getD 4 0 - 48) * 10) % 256 > 31 then
                  (Except.error [], [0, 1, 2, 3, 4, 5, 6, 5, 4])
                else
                  if strlen (List.drop 7 salt) * 3 % 2 ^ 64 / 4 < BCRYPT_MAXSALT then
                    (Except.error [], [0, 1, 2, 3, 4, 5, 6, 5, 4] ++
                      List.range' 7 (strlen (List.drop 7 salt) + 1))
                  else
                    if (decode_base64_loop_traced BCRYPT_MAXSALT (List.drop 7 salt)).1.1 ≠ 0
                    then
                      (Except.error
                          (decode_base64_loop_traced BCRYPT_MAXSALT (List.drop 7 salt)).1.2,
                        [0, 1, 2, 3, 4, 5, 6, 5, 4] ++
                          List.range' 7 (strlen (List.drop 7 salt) + 1) ++
                          List.map (fun i => i + 7)
                            (decode_base64_loop_traced BCRYPT_MAXSALT (List.drop 7 salt)).2)
                    else
                      (Except.ok
                          { minor := salt.getD 2 0, key_len := kl,
                            logr := (salt.getD 5 0 - 48 + (salt.getD 4 0 - 48) * 10) % 256,
                            rounds := 1 <<< ((salt.getD 5 0 - 48 +
                              (salt.getD 4 0 - 48) * 10) % 256) % 2 ^ 32,
                            csalt :=
                              (decode_base64_loop_traced BCRYPT_MAXSALT (List.drop 7 salt)).1.2,
                            salt_len := BCRYPT_MAXSALT },
                        [0, 1, 2, 3, 4, 5, 6, 5, 4] ++
                          List.range' 7 (strlen (List.drop 7 salt) + 1) ++
                          List.map (fun i => i + 7)
                            (decode_base64_loop_traced BCRYPT_MAXSALT (List.drop 7 salt)).2)).1 =
      (if salt.getD 3 0 ≠ 36 then Except.error []
        else
          if (!isdigit (salt.getD 4 0) || !isdigit (salt.getD 5 0) ||
              decide (salt.getD 6 0 ≠ 36)) = true then Except.error []
          else
            if (salt.getD 5 0 - 48 + (salt.getD 4 0 - 48) * 10) % 256 < BCRYPT_MINLOGROUNDS ∨
                (salt.getD 5 0 - 48 + (salt.getD 4 0 - 48) * 10) % 256 > 31 then
              Except.error []
            else
              if strlen (List.drop 7 salt) * 3 % 2 ^ 64 / 4 < BCRYPT_MAXSALT then
                Except.error []
              else
                if (decode_base64_loop_traced BCRYPT_MAXSALT (List.drop 7 salt)).1.1 ≠ 0 then
                  Except.error
                    (decode_base64_loop_traced BCRYPT_MAXSALT (List.drop 7 salt)).1.2
                else
                  Except.ok
                    { minor := salt.getD 2 0, key_len := kl,
                      logr := (salt.getD 5 0 - 48 + (salt.getD 4 0 - 48) * 10) % 256,
                      rounds := 1 <<< ((salt.getD 5 0 - 48 +
                        (salt.getD 4 0 - 48) * 10) % 256) % 2 ^ 32,
                      csalt :=
                        (decode_base64_loop_traced BCRYPT_MAXSALT (List.drop 7 salt)).1.2,
                      salt_len := BCRYPT_MAXSALT }) := by
    intro kl
    by_cases h3 : salt.getD 3 0 ≠ 36
    · simp only [if_pos h3]
    by_cases h4 : (!isdigit (salt.getD 4 0)) = true
    · have hor : (!isdigit (salt.getD 4 0) || !isdigit (salt.getD 5 0) ||
          decide (salt.getD 6 0 ≠ 36)) = true := by
        rw [h4, Bool.true_or, Bool.true_or]
      simp only [if_neg h3, if_pos h4, if_pos hor]
    by_cases h5 : (!isdigit (salt.getD 5 0)) = true
    · have hor : (!isdigit (salt.getD 4 0) || !isdigit (salt.getD 5 0) ||
          decide (salt.getD 6 0 ≠ 36)) = true := by
        rw [h5, Bool.or_true, Bool.true_or]
      simp only [if_neg h3, if_neg h4, if_pos h5, if_pos hor]
    by_cases h6 : salt.getD 6 0 ≠ 36
    · have hor : (!isdigit (salt.getD 4 0) || !isdigit (salt.getD 5 0) ||
          decide (salt.getD 6 0 ≠ 36)) = true := by
        rw [decide_eq_true h6, Bool.or_true]
      simp only [if_neg h3, if_neg h4, if_neg h5, if_pos h6, if_pos hor]
    have hor : ¬ ((!isdigit (salt.getD 4 0) || !isdigit (salt.getD 5 0) ||
        decide (salt.getD 6 0 ≠ 36)) = true) := by
      simp only [Bool.or_eq_true, decide_eq_true_eq, not_or]
      exact ⟨⟨h4, h5⟩, h6⟩
    simp only [if_neg h3, if_neg h4, if_neg h5, if_neg h6, if_neg hor]
    split_ifs <;> rfl
  by_cases ha : salt.getD 2 0 = 97
  · simp only [if_pos ha]
    exact body _
  by_cases hb : salt.getD 2 0 = 98
  · simp only [if_neg ha, if_pos hb]
    exact body _
  simp only [if_neg ha, if_neg hb]

theorem ne_zero_of_CHAR64 (c : Nat) (h : ¬ CHAR64 c = 255) : c ≠ 0 := by
  intro hc
  subst hc
  exact h (by decide)

/-- A string whose first `k` characters are not NUL continues, after them, for the
rest of its length. -/
theorem strlen_drop_add (k : Nat) (s : List Nat) (h : ∀ i < k, s.getD i 0 ≠ 0) :
    strlen s = k + strlen (s.drop k) := by
  have hk := le_strlen k s h
  have := (strlen_drop k s hk).1
  omega

/-- The loop of `decode_base64` reads no character after the terminator. -/
theorem decode_base64_loop_traced_le : ∀ (n : Nat) (p : List Nat),
    ∀ i ∈ (decode_base64_loop_traced n p).2, i ≤ strlen p
  | 0, _ => by simp [decode_base64_loop_traced]
  | 1, p => by
    simp only [decode_base64_loop_traced]
    split_ifs with h1 h2
    · simp
    · have := le_strlen 1 p (fun i hi => by
        interval_cases i
        exact ne_zero_of_CHAR64 _ h1)
      intro i hi
      simp only [List.mem_cons, List.mem_singleton, List.not_mem_nil, or_false] at hi
      omega
    · have := le_strlen 1 p (fun i hi => by
        interval_cases i
        exact ne_zero_of_CHAR64 _ h1)
      intro i hi
      simp only [List.mem_cons, List.mem_singleton, List.not_mem_nil, or_false] at hi
      omega
  | 2, p => by
    simp only [decode_base64_loop_traced]
    split_ifs with h1 h2 h3
    · simp
    · have := le_strlen 1 p (fun i hi => by
        interval_cases i
        exact ne_zero_of_CHAR64 _ h1)
      intro i hi
      simp only [List.mem_cons, List.mem_singleton, List.not_mem_nil, or_false] at hi
      omega
    · have := le_strlen 2 p (fun i hi => by
        interval_cases i
        · exact ne_zero_of_CHAR64 _ h1
        · exact ne_zero_of_CHAR64 _ h2)
      intro i hi
      simp only [List.mem_cons, List.mem_singleton, List.not_mem_nil, or_false] at hi
      omega
    · have := le_strlen 2 p (fun i hi => by
        interval_cases i
        · exact ne_zero_of_CHAR64 _ h1
        · exact ne_zero_of_CHAR64 _ h2)
      intro i hi
      simp only [List.mem_cons, List.mem_singleton, List.not_mem_nil, or_false] at hi
      omega
  | n + 3, p => by
    have ih := decode_base64_loop_traced_le n (p.drop 4)
    simp only [decode_base64_loop_traced]
    split_ifs with h1 h2 h3 h4
    · simp
    · have := le_strlen 1 p (fun i hi => by
        interval_cases i
        exact ne_zero_of_CHAR64 _ h1)
      intro i hi
      simp only [List.mem_cons, List.mem_singleton, List.not_mem_nil, or_false] at hi
      omega
    · have := le_strlen 2 p (fun i hi => by
        interval_cases i
        · exact ne_zero_of_CHAR64 _ h1
        · exact ne_zero_of_CHAR64 _ h2)
      intro i hi
      simp only [List.mem_cons, List.mem_singleton, List.not_mem_nil, or_false] at hi
      omega
    · have := le_strlen 3 p (fun i hi => by
        interval_cases i
        · exact ne_zero_of_CHAR64 _ h1
        · exact ne_zero_of_CHAR64 _ h2
        · exact ne_zero_of_CHAR64 _ h3)
      intro i hi
      simp only [List.mem_cons, List.mem_singleton, List.not_mem_nil, or_false] at hi
      omega
    · have h4' := strlen_drop_add 4 p (fun i hi => by
        interval_cases i
        · exact ne_zero_of_CHAR64 _ h1
        · exact ne_zero_of_CHAR64 _ h2
        · exact ne_zero_of_CHAR64 _ h3
        · exact ne_zero_of_CHAR64 _ h4)
      intro i hi
      simp only [List.mem_append, List.mem_cons, List.mem_singleton, List.not_mem_nil,
        or_false, List.mem_map] at hi
      rcases hi with hi | ⟨j, hj, rfl⟩
      · omega
      · have := ih j hj
        omega

/-- A successful loop of `decode_base64` has read the first `b64len n` characters,
each once, in order. -/
theorem decode_base64_loop_traced_ok : ∀ (n : Nat) (p : List Nat),
    (decode_base64_loop_traced n p).1.1 = 0 →
    (decode_base64_loop_traced n p).2 = List.range (b64len n)
  | 0, _ => by simp [decode_base64_loop_traced, b64len]
  | 1, p => by
    simp only [decode_base64_loop_traced]
    split_ifs <;> simp
    decide
  | 2, p => by
    simp only [decode_base64_loop_traced]
    split_ifs <;> simp
    decide
  | n + 3, p => by
    have ih := decode_base64_loop_traced_ok n (p.drop 4)
    simp only [decode_base64_loop_traced]
    split_ifs
    · simp
    · simp
    · simp
    · simp
    · intro h
      simp only [ih h, b64len_add_three]
      rw [Nat.add_comm, List.range_add]
      congr 1
      exact List.map_congr_left (fun a _ => Nat.add_comm a 4)

/-- Every index into `Base64Code` that the loop of `vapor_encode_base64` uses over
bytes is at most 63. -/
theorem vapor_encode_base64_loop_indices_le : ∀ (n : Nat) (p : List Nat),
    (∀ x ∈ p, x < 256) → ∀ i ∈ vapor_encode_base64_loop_indices n p, i ≤ 63
  | 0, _, _ => by simp [vapor_encode_base64_loop_indices]
  | 1, p, hp => by
    obtain ⟨h1, h2, _⟩ := slice_hi _ (getD_lt_256 p hp 0)
    obtain ⟨j1, _, _⟩ := join_2_4 _ h2 0 (by decide)
    simp only [Nat.or_zero] at j1
    intro c hc
    simp only [vapor_encode_base64_loop_indices, List.mem_cons, List.mem_singleton,
      List.not_mem_nil, or_false] at hc
    rcases hc with rfl | rfl <;> omega
  | 2, p, hp => by
    obtain ⟨h1, h2, _⟩ := slice_hi _ (getD_lt_256 p hp 0)
    obtain ⟨m1, m2, _⟩ := slice_mid _ (getD_lt_256 p hp 1)
    obtain ⟨j1, _, _⟩ := join_2_4 _ h2 _ m1
    obtain ⟨k1, _, _⟩ := join_4_2 _ m2 0 (by decide)
    simp only [Nat.or_zero] at k1
    intro c hc
    simp only [vapor_encode_base64_loop_indices, List.mem_cons, List.mem_singleton,
      List.not_mem_nil, or_false] at hc
    rcases hc with rfl | rfl | rfl <;> omega
  | n + 3, p, hp => by
    obtain ⟨h1, h2, _⟩ := slice_hi _ (getD_lt_256 p hp 0)
    obtain ⟨m1, m2, _⟩ := slice_mid _ (getD_lt_256 p hp 1)
    obtain ⟨l1, l2, _⟩ := slice_lo _ (getD_lt_256 p hp 2)
    obtain ⟨j1, _, _⟩ := join_2_4 _ h2 _ m1
    obtain ⟨k1, _, _⟩ := join_4_2 _ m2 _ l1
    have ih := vapor_encode_base64_loop_indices_le n (p.drop 3)
      (fun x hx => hp x (List.mem_of_mem_drop hx))
    intro c hc
    simp only [vapor_encode_base64_loop_indices, List.mem_cons] at hc
    rcases hc with rfl | rfl | rfl | rfl | hc
    · omega
    · omega
    · omega
    · omega
    · exact ih c hc

/-- The `ParseInput` step reads no character of the salt string after its
terminator. -/
theorem hashpass_ParseInput_traced_le (key salt : List Nat) :
    ∀ i ∈ (hashpass_ParseInput_traced key salt).2, i ≤ strlen salt := by
  simp only [hashpass_ParseInput_traced]
  by_cases h0 : salt.getD 0 0 ≠ 36
  · simp only [if_pos h0]
    intro i hi
    simp only [List.mem_singleton] at hi
    omega
  have n0 : salt.getD 0 0 ≠ 0 := by omega
  by_cases h1 : salt.getD 1 0 ≠ BCRYPT_VERSION
  · simp only [if_neg h0, if_pos h1]
    have := le_strlen 1 salt (fun i hi => by interval_cases i; exact n0)
    intro i hi
    simp only [List.mem_cons, List.mem_singleton, List.not_mem_nil, or_false] at hi
    omega
  have n1 : salt.getD 1 0 ≠ 0 := by
    simp only [BCRYPT_VERSION] at h1
    omega
  simp only [if_neg h0, if_neg h1]
  generalize hk : (if salt.getD 2 0 = 97 then some ((strlen key + 1) % 256)
    else if salt.getD 2 0 = 98 then some ((if strlen key > 72 then 72 else strlen key) + 1)
    else none) = ko
  cases ko with
  | none =>
    have := le_strlen 2 salt (fun i hi => by
      interval_cases i
      · exact n0
      · exact n1)
    intro i hi
    simp only [List.mem_cons, List.mem_singleton, List.not_mem_nil, or_false] at hi
    omega
  | some kl =>
    have n2 : salt.getD 2 0 ≠ 0 := by
      intro hz
      rw [hz] at hk
      simp at hk
    simp only
    by_cases h3 : salt.getD 3 0 ≠ 36
    · simp only [if_pos h3]
      have := le_strlen 3 salt (fun i hi => by
        interval_cases i
        · exact n0
        · exact n1
        · exact n2)
      intro i hi
      simp only [List.mem_cons, List.mem_singleton, List.not_mem_nil, or_false] at hi
      omega
    have n3 : salt.getD 3 0 ≠ 0 := by omega
    by_cases h4 : (!isdigit (salt.getD 4 0)) = true
    · simp only [if_neg h3, if_pos h4]
      have := le_strlen 4 salt (fun i hi => by
        interval_cases i
        · exact n0
        · exact n1
        · exact n2
        · exact n3)
      intro i hi
      simp only [List.mem_cons, List.mem_singleton, List.not_mem_nil, or_false] at hi
      omega
    have n4 : salt.getD 4 0 ≠ 0 := by
      intro hz
      rw [hz] at h4
      exact h4 (by decide)
    by_cases h5 : (!isdigit (salt.getD 5 0)) = true
    · simp only [if_neg h3, if_neg h4, if_pos h5]
      have := le_strlen 5 salt (fun i hi => by
        interval_cases i
        · exact n0
        · exact n1
        · exact n2
        · exact n3
        · exact n4)
      intro i hi
      simp only [List.mem_cons, List.mem_singleton, List.not_mem_nil, or_false] at hi
      omega
    have n5 : salt.getD 5 0 ≠ 0 := by
      intro hz
      rw [hz] at h5
      exact h5 (by decide)
    by_cases h6 : salt.getD 6 0 ≠ 36
    · simp only [if_neg h3, if_neg h4, if_neg h5, if_pos h6]
      have := le_strlen 6 salt (fun i hi => by
        interval_cases i
        · exact n0
        · exact n1
        · exact n2
        · exact n3
        · exact n4
        · exact n5)
      intro i hi
      simp only [List.mem_cons, List.mem_singleton, List.not_mem_nil, or_false] at hi
      omega
    have n6 : salt.getD 6 0 ≠ 0 := by omega
    have h7 := strlen_drop_add 7 salt (fun i hi => by
      interval_cases i
      · exact n0
      · exact n1
      · exact n2
      · exact n3
      · exact n4
      · exact n5
      · exact n6)
    have hd := decode_base64_loop_traced_le BCRYPT_MAXSALT (salt.drop 7)
    have hhead : ∀ i ∈ [0, 1, 2, 3, 4, 5, 6, 5, 4], i ≤ strlen salt := by
      intro i hi
      simp only [List.mem_cons, List.mem_singleton, List.not_mem_nil, or_false] at hi
      omega
    have hlen : ∀ i ∈ List.range' 7 (strlen (salt.drop 7) + 1), i ≤ strlen salt := by
      intro i hi
      rw [List.mem_range'_1] at hi
      omega
    have hdec : ∀ i ∈ List.map (fun i => i + 7)
        (decode_base64_loop_traced BCRYPT_MAXSALT (salt.drop 7)).2, i ≤ strlen salt := by
      intro i hi
      rw [List.mem_map] at hi
      obtain ⟨j, hj, rfl⟩ := hi
      have := hd j hj
      omega
    simp only [if_neg h3, if_neg h4, if_neg h5, if_neg h6]
    split_ifs
    · exact hhead
    · intro i hi
      rcases List.mem_append.mp hi with hi | hi
      · exact hhead i hi
      · exact hlen i hi
    · intro i hi
      rcases List.mem_append.mp hi with hi | hi
      · rcases List.mem_append.mp hi with hi | hi
        · exact hhead i hi
        · exact hlen i hi
      · exact hdec i hi
    · intro i hi
      rcases List.mem_append.mp hi with hi | hi
      · rcases List.mem_append.mp hi with hi | hi
        · exact hhead i hi
        · exact hlen i hi
      · exact hdec i hi

/-- What an accepted call hands the engine. The context that the `Schedule` step
leaves is `expandstate` on the 16 salt bytes and the password, then `2 ^ logr`
times `expand0state` on the password and `expand0state` on the 16 salt bytes, every
call on the password with the local `key_len`; and the stored hash is formatted
from the encryption under that context. -/
theorem hashpass_state_of_ok (B : Blowfish) (key salt : List Nat) (encryptedlen : Nat)
    (p : Parsed) (hlen : BCRYPT_HASHSPACE ≤ encryptedlen)
    (hp : hashpass_ParseInput key salt = .ok p) :
    (hashpass_Schedule B p.csalt p.salt_len key p.key_len p.rounds).1 =
        Nat.iterate
          (fun s => B.Viora_Blowfish_expand0state
            (B.Viora_Blowfish_expand0state s key p.key_len) p.csalt 16)
          (2 ^ p.logr)
          (B.Viora_Blowfish_expandstate B.Viora_Blowfish_initstate p.csalt 16
            key p.key_len) ∧
      (vapor_bcrypt_hashpass B key salt encryptedlen).encrypted =
        hashpass_Format p.minor p.logr p.csalt
          (hashpass_Encrypt B
            (Nat.iterate
              (fun s => B.Viora_Blowfish_expand0state
                (B.Viora_Blowfish_expand0state s key p.key_len) p.csalt 16)
              (2 ^ p.logr)
              (B.Viora_Blowfish_expandstate B.Viora_Blowfish_initstate p.csalt 16
                key p.key_len))
            OrpheanBeholderScryDoubt).ciphertext := by
  obtain ⟨d0, d1, s, _, hk, _, _, _, _, _, hl4, hl31, hr, _, _, _, hsl⟩ :=
    (hashpass_ParseInput_ok_iff key _ p).mp hp
  have hkl : p.key_len % 65536 = p.key_len := by
    rcases hk with ⟨_, hk⟩ | ⟨_, hk⟩ <;> omega
  have hst : (hashpass_Schedule B p.csalt p.salt_len key p.key_len p.rounds).1 =
      Nat.iterate
        (fun s => B.Viora_Blowfish_expand0state
          (B.Viora_Blowfish_expand0state s key p.key_len) p.csalt 16)
        (2 ^ p.logr)
        (B.Viora_Blowfish_expandstate B.Viora_Blowfish_initstate p.csalt 16
          key p.key_len) := by
    rw [hashpass_Schedule_state, hkl, hsl, hr]
  refine ⟨hst, ?_⟩
  rw [hashpass_of_ok B key salt encryptedlen p hlen hp]
  show hashpass_Format p.minor p.logr p.csalt
      (hashpass_Encrypt B
        (hashpass_Schedule B p.csalt p.salt_len key p.key_len p.rounds).1
        OrpheanBeholderScryDoubt).ciphertext = _
  rw [hst]

/-- The locals that `ParseInput` leaves for `sampleSaltA`. -/
theorem hashpass_ParseInput_sampleSaltA (key : List Nat) (p : Parsed)
    (hp : hashpass_ParseInput key sampleSaltA = .ok p) :
    p.minor = 97 ∧ p.logr = 4 ∧ p.csalt = List.replicate 16 0 := by
  obtain ⟨d0, d1, s, hs, _, _, _, _, _, hl, _, _, _, _, _, hc, _⟩ :=
    (hashpass_ParseInput_ok_iff key sampleSaltA p).mp hp
  have e : sampleSaltA = 36 :: 50 :: 97 :: 36 :: 48 :: 52 :: 36 :: List.replicate 22 46 := rfl
  rw [e] at hs
  injection hs with _ hs
  injection hs with _ hs
  injection hs with h2 hs
  injection hs with _ hs
  injection hs with h4 hs
  injection hs with h5 hs
  injection hs with _ hs
  refine ⟨h2.symm, by omega, ?_⟩
  rw [hc, ← hs]
  decide

/-- The locals that `ParseInput` leaves for `sampleSaltB`. -/
theorem hashpass_ParseInput_sampleSaltB (key : List Nat) (p : Parsed)
    (hp : hashpass_ParseInput key sampleSaltB = .ok p) :
    p.minor = 98 ∧ p.logr = 4 ∧ p.csalt = List.replicate 16 0 := by
  obtain ⟨d0, d1, s, hs, _, _, _, _, _, hl, _, _, _, _, _, hc, _⟩ :=
    (hashpass_ParseInput_ok_iff key sampleSaltB p).mp hp
  have e : sampleSaltB = 36 :: 50 :: 98 :: 36 :: 48 :: 52 :: 36 :: List.replicate 22 46 := rfl
  rw [e] at hs
  injection hs with _ hs
  injection hs with _ hs
  injection hs with h2 hs
  injection hs with _ hs
  injection hs with h4 hs
  injection hs with h5 hs
  injection hs with _ hs
  refine ⟨h2.symm, by omega, ?_⟩
  rw [hc, ← hs]
  decide

/-! ## The claims -/

/-- Claim C1. Base64 round trip: for every byte sequence `b`, `decode_base64` with the
requested length `len(b)`, run on the text that `vapor_encode_base64` produced
from `b`, returns 0 and stores exactly `b`. -/
theorem base64_round_trip (b : List Nat) (hb : ∀ x ∈ b, x < 256) :
    decode_base64 b.length (vapor_encode_base64 b b.length).2 = (0, b) :=
  decode_encode_loop b.length b [0] rfl hb

theorem base64_round_trip_witness :
    (∀ x ∈ [0, 255, 16, 128, 77], x < 256) ∧
      decode_base64 [0, 255, 16, 128, 77].length
        (vapor_encode_base64 [0, 255, 16, 128, 77] [0, 255, 16, 128, 77].length).2 =
        (0, [0, 255, 16, 128, 77]) :=
  ⟨by decide, base64_round_trip [0, 255, 16, 128, 77] (by decide)⟩

/-- Claim C2. Verification by recomputation: when `vapor_bcrypt_hashpass` accepts a salt
string and stores the encoded hash `h`, a call with the same password and `h` as
the salt string (and any buffer of at least `BCRYPT_HASHSPACE` bytes) returns 0
and stores exactly `h` again, whatever the Blowfish operations are. -/
theorem hashpass_recompute (B : Blowfish) (key salt : List Nat) (encryptedlen len2 : Nat)
    (h : (vapor_bcrypt_hashpass B key salt encryptedlen).ret = 0)
    (hlen2 : BCRYPT_HASHSPACE ≤ len2) :
    (vapor_bcrypt_hashpass B key
        (vapor_bcrypt_hashpass B key salt encryptedlen).encrypted len2).ret = 0 ∧
      (vapor_bcrypt_hashpass B key
        (vapor_bcrypt_hashpass B key salt encryptedlen).encrypted len2).encrypted =
        (vapor_bcrypt_hashpass B key salt encryptedlen).encrypted := by
  obtain ⟨hlen, p, hp⟩ := (hashpass_ret B key salt encryptedlen).1.mp h
  obtain ⟨d0, d1, s, rfl, hk, h4a, h4b, h5a, h5b, hl, hl4, hl31, hr, _, hd, hc, hsl⟩ :=
    (hashpass_ParseInput_ok_iff key _ p).mp hp
  obtain ⟨hclen, hcb⟩ := decode_base64_ok_bytes s hd
  rw [← hc] at hclen hcb
  obtain ⟨kl, hkl, hpf⟩ := hashpass_ParseInput_Format key p.minor p.logr p.csalt
    (hashpass_Encrypt B
      (hashpass_Schedule B p.csalt p.salt_len key p.key_len p.rounds).1
      OrpheanBeholderScryDoubt).ciphertext
    (by rcases hk with ⟨hm, _⟩ | ⟨hm, _⟩ <;> simp [hm]) hl4 hl31 hclen hcb
  have hkl' : kl = p.key_len := by
    rcases hk with ⟨hm, hk⟩ | ⟨hm, hk⟩ <;> rcases hkl with ⟨hm', hk'⟩ | ⟨hm', hk'⟩ <;> omega
  have hp2 : hashpass_ParseInput key (vapor_bcrypt_hashpass B key
      (36 :: 50 :: p.minor :: 36 :: d0 :: d1 :: 36 :: s) encryptedlen).encrypted = .ok p := by
    rw [hashpass_of_ok B key _ encryptedlen p hlen hp]
    simp only
    rw [hpf, hkl', ← hr, ← hsl]
  rw [hashpass_of_ok B key _ len2 p hlen2 hp2, hashpass_of_ok B key _ encryptedlen p hlen hp]
  exact ⟨rfl, rfl⟩

theorem hashpass_recompute_witness :
    (vapor_bcrypt_hashpass sampleBlowfish [97, 98, 99] sampleSaltB 61).ret = 0 ∧
      BCRYPT_HASHSPACE ≤ 61 ∧
      (vapor_bcrypt_hashpass sampleBlowfish [97, 98, 99]
        (vapor_bcrypt_hashpass sampleBlowfish [97, 98, 99] sampleSaltB 61).encrypted 61).ret
        = 0 ∧
      (vapor_bcrypt_hashpass sampleBlowfish [97, 98, 99]
        (vapor_bcrypt_hashpass sampleBlowfish [97, 98, 99] sampleSaltB 61).encrypted
        61).encrypted =
        (vapor_bcrypt_hashpass sampleBlowfish [97, 98, 99] sampleSaltB 61).encrypted :=
  ⟨(hashpass_sample_ret sampleBlowfish [97, 98, 99]).2, by decide,
    hashpass_recompute sampleBlowfish [97, 98, 99] sampleSaltB 61 61
      (hashpass_sample_ret sampleBlowfish [97, 98, 99]).2 (by decide)⟩

/-- Claim C3. Format round trip: for every minor version in `{a, b}`, every cost in
4..31 and every 16-byte salt (and whatever digest bytes), the `ParseInput` step
accepts the string that the `Format` step builds and recovers the same minor
version, cost and 16 salt bytes. -/
theorem format_round_trip (key : List Nat) (minor cost : Nat) (salt digest : List Nat)
    (hm : minor = 97 ∨ minor = 98) (hc4 : 4 ≤ cost) (hc31 : cost ≤ 31)
    (hs : salt.length = 16) (hb : ∀ x ∈ salt, x < 256) :
    ∃ p, hashpass_ParseInput key (hashpass_Format minor cost salt digest) = .ok p ∧
      p.minor = minor ∧ p.logr = cost ∧ p.csalt = salt := by
  obtain ⟨kl, _, hp⟩ := hashpass_ParseInput_Format key minor cost salt digest hm hc4 hc31 hs hb
  exact ⟨_, hp, rfl, rfl, rfl⟩

theorem format_round_trip_witness :
    ((98 : Nat) = 97 ∨ (98 : Nat) = 98) ∧ 4 ≤ 12 ∧ 12 ≤ 31 ∧
      (List.range 16).length = 16 ∧ (∀ x ∈ List.range 16, x < 256) ∧
      ∃ p, hashpass_ParseInput [97, 98, 99]
          (hashpass_Format 98 12 (List.range 16) (List.replicate 23 7)) = .ok p ∧
        p.minor = 98 ∧ p.logr = 12 ∧ p.csalt = List.range 16 :=
  ⟨by decide, by decide, by decide, by decide, by decide,
    format_round_trip [97, 98, 99] 98 12 (List.range 16) (List.replicate 23 7)
      (by decide) (by decide) (by decide) (by decide) (by decide)⟩

/-- Claim C4. Acceptance is exactly well-formedness: with an output buffer of at least
`BCRYPT_HASHSPACE` bytes and a salt string that fits in memory (shorter than
`2 ^ 62` bytes, so that `strlen(salt) * 3` does not wrap in a 64-bit `size_t`),
`vapor_bcrypt_hashpass` returns 0 if and only if the salt string is well formed,
and returns -1 in every other case. -/
theorem hashpass_accepts_iff (B : Blowfish) (key salt : List Nat) (encryptedlen : Nat)
    (hlen : BCRYPT_HASHSPACE ≤ encryptedlen) (hfit : strlen salt < 2 ^ 62) :
    ((vapor_bcrypt_hashpass B key salt encryptedlen).ret = 0 ↔ WellFormedSalt salt) ∧
      (¬ WellFormedSalt salt → (vapor_bcrypt_hashpass B key salt encryptedlen).ret = -1) := by
  have hr := hashpass_ret B key salt encryptedlen
  have hiff : (vapor_bcrypt_hashpass B key salt encryptedlen).ret = 0 ↔
      WellFormedSalt salt := by
    rw [hr.1]
    constructor
    · rintro ⟨_, p, hp⟩
      exact WellFormedSalt_of_ok key salt p hp
    · intro hw
      exact ⟨hlen, ok_of_WellFormedSalt key salt hfit hw⟩
  refine ⟨hiff, fun hw => ?_⟩
  rcases hr.2 with h0 | h1
  · exact absurd (hiff.mp h0) hw
  · exact h1

theorem hashpass_accepts_iff_witness :
    BCRYPT_HASHSPACE ≤ 61 ∧ strlen sampleSaltB < 2 ^ 62 ∧
      ((vapor_bcrypt_hashpass sampleBlowfish [97, 98, 99] sampleSaltB 61).ret = 0 ↔
        WellFormedSalt sampleSaltB) ∧
      (¬ WellFormedSalt sampleSaltB →
        (vapor_bcrypt_hashpass sampleBlowfish [97, 98, 99] sampleSaltB 61).ret = -1) :=
  ⟨by decide, by decide,
    hashpass_accepts_iff sampleBlowfish [97, 98, 99] sampleSaltB 61 (by decide) (by decide)⟩

/-- Claim C5. The digest portion of the salt string is ignored and may be absent: for
two salt strings of at least 29 characters (that fit in memory) which agree on
their first 29 characters, `vapor_bcrypt_hashpass` leaves the same result, return
value and encoded hash; and a well-formed salt string of exactly 29 characters
is accepted. -/
theorem hashpass_ignores_digest (B : Blowfish) (key salt1 salt2 : List Nat)
    (encryptedlen : Nat)
    (h1 : 29 ≤ strlen salt1) (h2 : 29 ≤ strlen salt2)
    (f1 : strlen salt1 < 2 ^ 62) (f2 : strlen salt2 < 2 ^ 62)
    (heq : salt1.take 29 = salt2.take 29) :
    vapor_bcrypt_hashpass B key salt1 encryptedlen =
        vapor_bcrypt_hashpass B key salt2 encryptedlen ∧
      (strlen salt1 = 29 → WellFormedSalt salt1 → BCRYPT_HASHSPACE ≤ encryptedlen →
        (vapor_bcrypt_hashpass B key salt1 encryptedlen).ret = 0) := by
  constructor
  · simp only [vapor_bcrypt_hashpass, hashpass_ParseInput_take key salt1 salt2 h1 h2 f1 f2 heq]
  · intro _ hw hlen
    exact (hashpass_ret B key salt1 encryptedlen).1.mpr
      ⟨hlen, ok_of_WellFormedSalt key salt1 f1 hw⟩

theorem hashpass_ignores_digest_witness :
    29 ≤ strlen sampleSaltB ∧ 29 ≤ strlen (sampleSaltB ++ List.replicate 31 65) ∧
      strlen sampleSaltB < 2 ^ 62 ∧ strlen (sampleSaltB ++ List.replicate 31 65) < 2 ^ 62 ∧
      sampleSaltB.take 29 = (sampleSaltB ++ List.replicate 31 65).take 29 ∧
      vapor_bcrypt_hashpass sampleBlowfish [97, 98, 99] sampleSaltB 61 =
        vapor_bcrypt_hashpass sampleBlowfish [97, 98, 99]
          (sampleSaltB ++ List.replicate 31 65) 61 ∧
      (strlen sampleSaltB = 29 → WellFormedSalt sampleSaltB → BCRYPT_HASHSPACE ≤ 61 →
        (vapor_bcrypt_hashpass sampleBlowfish [97, 98, 99] sampleSaltB 61).ret = 0) :=
  ⟨by decide, by decide, by decide, by decide, by decide,
    hashpass_ignores_digest sampleBlowfish [97, 98, 99] sampleSaltB
      (sampleSaltB ++ List.replicate 31 65) 61 (by decide) (by decide) (by decide)
      (by decide) (by decide)⟩

/-- Claim C6. Output structure: when `vapor_bcrypt_hashpass` returns 0, the bytes it
stored are the 7 characters `$2`, minor, `$`, the cost as two zero-padded decimal
digits, `$` (the first 7 characters of the salt string), the 22 characters that
encode the 16 decoded salt bytes, the 31 characters that encode the first 23 of
the 24 ciphertext bytes, and a NUL: 61 bytes, the 53 after the first 7 and before
the NUL all in the alphabet. -/
theorem hashpass_output_structure (B : Blowfish) (key salt : List Nat) (encryptedlen : Nat)
    (h : (vapor_bcrypt_hashpass B key salt encryptedlen).ret = 0) :
    ∃ p, hashpass_ParseInput key salt = .ok p ∧
      (p.minor = 97 ∨ p.minor = 98) ∧ 4 ≤ p.logr ∧ p.logr ≤ 31 ∧
      p.csalt.length = 16 ∧ (hashpass_ciphertext B key p).length = 24 ∧
      (vapor_bcrypt_hashpass B key salt encryptedlen).encrypted =
        [36, 50, p.minor, 36, 48 + p.logr / 10, 48 + p.logr % 10, 36] ++
          vapor_encode_base64_loop 16 p.csalt ++
          vapor_encode_base64_loop 23 ((hashpass_ciphertext B key p).take 23) ++ [0] ∧
      (vapor_encode_base64_loop 16 p.csalt).length = 22 ∧
      (vapor_encode_base64_loop 23 ((hashpass_ciphertext B key p).take 23)).length = 31 ∧
      (vapor_bcrypt_hashpass B key salt encryptedlen).encrypted.take 7 = salt.take 7 ∧
      (vapor_bcrypt_hashpass B key salt encryptedlen).encrypted.length = 61 ∧
      (vapor_bcrypt_hashpass B key salt encryptedlen).encrypted.getD 60 0 = 0 ∧
      ∀ i, 7 ≤ i → i < 60 →
        (vapor_bcrypt_hashpass B key salt encryptedlen).encrypted.getD i 0 ∈ Base64Code := by
  obtain ⟨hlen, p, hp⟩ := (hashpass_ret B key salt encryptedlen).1.mp h
  obtain ⟨d0, d1, s, rfl, hk, h4a, h4b, h5a, h5b, hl, hl4, hl31, hr, _, hd, hc, hsl⟩ :=
    (hashpass_ParseInput_ok_iff key _ p).mp hp
  obtain ⟨hclen, hcb⟩ := decode_base64_ok_bytes s hd
  rw [← hc] at hclen hcb
  obtain ⟨hctlen, hctb⟩ := hashpass_Encrypt_ciphertext B
    (hashpass_Schedule B p.csalt p.salt_len key p.key_len p.rounds).1 OrpheanBeholderScryDoubt
  have e23 : b64len 23 = 31 := by decide
  have l16 := vapor_encode_base64_loop_length 16 p.csalt
  have l23 := vapor_encode_base64_loop_length 23 ((hashpass_ciphertext B key p).take 23)
  rw [b64len_16] at l16
  rw [e23] at l23
  have htake : vapor_encode_base64_loop 23 (hashpass_ciphertext B key p) =
      vapor_encode_base64_loop 23 ((hashpass_ciphertext B key p).take 23) :=
    vapor_encode_base64_loop_congr 23 _ _ (fun i hi => (getD_take_zero _ 23 i hi).symm)
  have henc : (vapor_bcrypt_hashpass B key
      (36 :: 50 :: p.minor :: 36 :: d0 :: d1 :: 36 :: s) encryptedlen).encrypted =
      [36, 50, p.minor, 36, 48 + p.logr / 10, 48 + p.logr % 10, 36] ++
        vapor_encode_base64_loop 16 p.csalt ++
        vapor_encode_base64_loop 23 ((hashpass_ciphertext B key p).take 23) ++ [0] := by
    rw [hashpass_of_ok B key _ encryptedlen p hlen hp]
    simp only
    rw [hashpass_Format_eq _ _ _ _ (by omega), ← htake]
    simp [hashpass_ciphertext]
  have hm16 := vapor_encode_base64_loop_mem 16 p.csalt hcb
  have hm23 := vapor_encode_base64_loop_mem 23 ((hashpass_ciphertext B key p).take 23)
    (fun x hx => hctb x (List.mem_of_mem_take hx))
  refine ⟨p, hp, ?_, hl4, hl31, hclen, hctlen, henc, l16, l23, ?_, ?_, ?_, ?_⟩
  · rcases hk with ⟨hm, _⟩ | ⟨hm, _⟩
    · exact Or.inl hm
    · exact Or.inr hm
  · rw [henc]
    have e0 : 48 + p.logr / 10 = d0 := by omega
    have e1 : 48 + p.logr % 10 = d1 := by omega
    simp [e0, e1]
  · rw [henc]
    simp [l16, l23]
  · rw [henc]
    rw [List.getD_eq_getElem?_getD, List.getElem?_append_right (by simp [l16, l23])]
    simp [l16, l23]
  · intro i hi7 hi60
    rw [henc, List.getD_eq_getElem?_getD]
    have hlt : i < ([36, 50, p.minor, 36, 48 + p.logr / 10, 48 + p.logr % 10, 36] ++
        vapor_encode_base64_loop 16 p.csalt ++
        vapor_encode_base64_loop 23 ((hashpass_ciphertext B key p).take 23)).length := by
      simp [l16, l23]
      omega
    rw [List.getElem?_append_left hlt, List.append_assoc,
      List.getElem?_append_right (by simpa using hi7)]
    have hlt2 : i - 7 < (vapor_encode_base64_loop 16 p.csalt ++
        vapor_encode_base64_loop 23 ((hashpass_ciphertext B key p).take 23)).length := by
      simp [l16, l23]
      omega
    simp only [List.length_cons, List.length_nil, Nat.zero_add, Nat.reduceAdd]
    rw [List.getElem?_eq_getElem hlt2, Option.getD_some]
    have hmem := List.getElem_mem hlt2
    rcases List.mem_append.mp hmem with hm | hm
    · exact hm16 _ hm
    · exact hm23 _ hm

theorem hashpass_output_structure_witness :
    (vapor_bcrypt_hashpass sampleBlowfish [97, 98, 99] sampleSaltB 61).ret = 0 ∧
      ∃ p, hashpass_ParseInput [97, 98, 99] sampleSaltB = .ok p ∧
        (vapor_bcrypt_hashpass sampleBlowfish [97, 98, 99] sampleSaltB 61).encrypted =
          [36, 50, p.minor, 36, 48 + p.logr / 10, 48 + p.logr % 10, 36] ++
            vapor_encode_base64_loop 16 p.csalt ++
            vapor_encode_base64_loop 23
              ((hashpass_ciphertext sampleBlowfish [97, 98, 99] p).take 23) ++ [0] ∧
        (vapor_bcrypt_hashpass sampleBlowfish [97, 98, 99] sampleSaltB 61).encrypted.length
          = 61 :=
  have h := hashpass_output_structure sampleBlowfish [97, 98, 99] sampleSaltB 61
    (hashpass_sample_ret sampleBlowfish [97, 98, 99]).2
  ⟨(hashpass_sample_ret sampleBlowfish [97, 98, 99]).2,
    h.elim (fun p hp => ⟨p, hp.1, hp.2.2.2.2.2.2.1, hp.2.2.2.2.2.2.2.2.2.2.1⟩)⟩

/-- Claim C7. Version `a` key length, as the code computes it: for a password of byte
length `n` and minor version `a`, an accepted call hands the key schedule the key
length `(n + 1) mod 256` (the cast to `u_int8_t`), which is `n + 1` when `n < 255`.
The context that the `Schedule` step leaves is `Viora_Blowfish_expandstate` applied
to the salt and to the password with that key length, followed `2 ^ logr` times
by `Viora_Blowfish_expand0state` on the password with that key length and on the
salt, and the stored hash is formatted from the encryption under that context;
every logged call of `Viora_Blowfish_expandstate` and of
`Viora_Blowfish_expand0state` on the password carries that key length, and both
calls are made. -/
theorem hashpass_key_len_a (B : Blowfish) (key salt : List Nat) (encryptedlen : Nat)
    (h : (vapor_bcrypt_hashpass B key salt encryptedlen).ret = 0)
    (hm : salt.getD 2 0 = 97) :
    (∃ p, hashpass_ParseInput key salt = .ok p ∧
        p.key_len = (strlen key + 1) % 256 ∧
        (hashpass_Schedule B p.csalt p.salt_len key p.key_len p.rounds).1 =
          Nat.iterate
            (fun s => B.Viora_Blowfish_expand0state
              (B.Viora_Blowfish_expand0state s key ((strlen key + 1) % 256)) p.csalt 16)
            (2 ^ p.logr)
            (B.Viora_Blowfish_expandstate B.Viora_Blowfish_initstate p.csalt 16
              key ((strlen key + 1) % 256)) ∧
        (vapor_bcrypt_hashpass B key salt encryptedlen).encrypted =
          hashpass_Format p.minor p.logr p.csalt
            (hashpass_Encrypt B
              (Nat.iterate
                (fun s => B.Viora_Blowfish_expand0state
                  (B.Viora_Blowfish_expand0state s key ((strlen key + 1) % 256))
                  p.csalt 16)
                (2 ^ p.logr)
                (B.Viora_Blowfish_expandstate B.Viora_Blowfish_initstate p.csalt 16
                  key ((strlen key + 1) % 256)))
              OrpheanBeholderScryDoubt).ciphertext) ∧
      BlfCall.expandstate 16 ((strlen key + 1) % 256) ∈
        (vapor_bcrypt_hashpass B key salt encryptedlen).calls ∧
      BlfCall.expand0state_key ((strlen key + 1) % 256) ∈
        (vapor_bcrypt_hashpass B key salt encryptedlen).calls ∧
      (∀ db kb, BlfCall.expandstate db kb ∈
        (vapor_bcrypt_hashpass B key salt encryptedlen).calls →
          kb = (strlen key + 1) % 256) ∧
      (∀ kb, BlfCall.expand0state_key kb ∈
        (vapor_bcrypt_hashpass B key salt encryptedlen).calls →
          kb = (strlen key + 1) % 256) ∧
      (strlen key < 255 → (strlen key + 1) % 256 = strlen key + 1) := by
  obtain ⟨hlen, _⟩ := (hashpass_ret B key salt encryptedlen).1.mp h
  obtain ⟨p, hp, h1, h2, h3, h4⟩ := hashpass_key_calls B key salt encryptedlen h
  obtain ⟨hmin, hk⟩ := hashpass_ParseInput_key_len key salt p hp
  have hkl : p.key_len = (strlen key + 1) % 256 := by
    rcases hk with ⟨_, hk⟩ | ⟨hm', _⟩
    · exact hk
    · omega
  obtain ⟨hst, henc⟩ := hashpass_state_of_ok B key salt encryptedlen p hlen hp
  rw [hkl] at h1 h2 h3 h4
  refine ⟨⟨p, hp, hkl, ?_, ?_⟩, h1, h2, h3, h4, fun hn => Nat.mod_eq_of_lt (by omega)⟩
  · rw [← hkl]
    exact hst
  · rw [← hkl]
    exact henc

theorem hashpass_key_len_a_witness :
    (vapor_bcrypt_hashpass sampleBlowfish [97, 98, 99] sampleSaltA 61).ret = 0 ∧
      sampleSaltA.getD 2 0 = 97 ∧
      (vapor_bcrypt_hashpass sampleBlowfish [97, 98, 99] sampleSaltA 61).encrypted =
        hashpass_Format 97 4 (List.replicate 16 0)
          (hashpass_Encrypt sampleBlowfish
            (Nat.iterate
              (fun s => sampleBlowfish.Viora_Blowfish_expand0state
                (sampleBlowfish.Viora_Blowfish_expand0state s [97, 98, 99] 4)
                (List.replicate 16 0) 16)
              (2 ^ 4)
              (sampleBlowfish.Viora_Blowfish_expandstate
                sampleBlowfish.Viora_Blowfish_initstate (List.replicate 16 0) 16
                [97, 98, 99] 4))
            OrpheanBeholderScryDoubt).ciphertext ∧
      BlfCall.expandstate 16 4 ∈
        (vapor_bcrypt_hashpass sampleBlowfish [97, 98, 99] sampleSaltA 61).calls ∧
      ∀ kb, BlfCall.expand0state_key kb ∈
        (vapor_bcrypt_hashpass sampleBlowfish [97, 98, 99] sampleSaltA 61).calls → kb = 4 := by
  have h := hashpass_key_len_a sampleBlowfish [97, 98, 99] sampleSaltA 61
    (hashpass_sample_ret sampleBlowfish [97, 98, 99]).1 (by decide)
  have e : (strlen [97, 98, 99] + 1) % 256 = 4 := by decide
  rw [e] at h
  obtain ⟨⟨p, hp, _, _, henc⟩, h1, _, _, h4, _⟩ := h
  obtain ⟨hmin, hl, hc⟩ := hashpass_ParseInput_sampleSaltA [97, 98, 99] p hp
  rw [hmin, hl, hc] at henc
  exact ⟨(hashpass_sample_ret sampleBlowfish [97, 98, 99]).1, by decide, henc, h1, h4⟩

/-- Counterexample to C7 as stated: with minor version `a` and a password of 255
bytes the accepted call hands `Viora_Blowfish_expandstate` and
`Viora_Blowfish_expand0state` the key length 0, not 256. Whatever the engine, the
stored hash is the one of the schedule run with key length 0; the logged call
carries 0 and no logged call carries 256; and for an engine that keeps the key
lengths it is handed in its subkeys, the stored hash is not the one of the
schedule run with key length 256. -/
theorem hashpass_key_len_a_wraps :
    strlen (List.replicate 255 120) = 255 ∧
      (vapor_bcrypt_hashpass sampleBlowfish (List.replicate 255 120) sampleSaltA 61).ret = 0 ∧
      BlfCall.expandstate 16 0 ∈
        (vapor_bcrypt_hashpass sampleBlowfish (List.replicate 255 120) sampleSaltA 61).calls ∧
      BlfCall.expandstate 16 (255 + 1) ∉
        (vapor_bcrypt_hashpass sampleBlowfish (List.replicate 255 120) sampleSaltA 61).calls ∧
      (∀ B : Blowfish,
        (vapor_bcrypt_hashpass B (List.replicate 255 120) sampleSaltA 61).encrypted =
          hashpass_Format 97 4 (List.replicate 16 0)
            (hashpass_Encrypt B
              (Nat.iterate
                (fun s => B.Viora_Blowfish_expand0state
                  (B.Viora_Blowfish_expand0state s (List.replicate 255 120) 0)
                  (List.replicate 16 0) 16)
                (2 ^ 4)
                (B.Viora_Blowfish_expandstate B.Viora_Blowfish_initstate
                  (List.replicate 16 0) 16 (List.replicate 255 120) 0))
              OrpheanBeholderScryDoubt).ciphertext) ∧
      (∃ B : Blowfish,
        (vapor_bcrypt_hashpass B (List.replicate 255 120) sampleSaltA 61).encrypted ≠
          hashpass_Format 97 4 (List.replicate 16 0)
            (hashpass_Encrypt B
              (Nat.iterate
                (fun s => B.Viora_Blowfish_expand0state
                  (B.Viora_Blowfish_expand0state s (List.replicate 255 120) (255 + 1))
                  (List.replicate 16 0) 16)
                (2 ^ 4)
                (B.Viora_Blowfish_expandstate B.Viora_Blowfish_initstate
                  (List.replicate 16 0) 16 (List.replicate 255 120) (255 + 1)))
              OrpheanBeholderScryDoubt).ciphertext) := by
  have hs : strlen (List.replicate 255 120) = 255 := by decide!
  have hr := (hashpass_sample_ret sampleBlowfish (List.replicate 255 120)).1
  have hm : sampleSaltA.getD 2 0 = 97 := by decide
  have hall : ∀ B : Blowfish,
      (vapor_bcrypt_hashpass B (List.replicate 255 120) sampleSaltA 61).encrypted =
        hashpass_Format 97 4 (List.replicate 16 0)
          (hashpass_Encrypt B
            (Nat.iterate
              (fun s => B.Viora_Blowfish_expand0state
                (B.Viora_Blowfish_expand0state s (List.replicate 255 120) 0)
                (List.replicate 16 0) 16)
              (2 ^ 4)
              (B.Viora_Blowfish_expandstate B.Viora_Blowfish_initstate
                (List.replicate 16 0) 16 (List.replicate 255 120) 0))
            OrpheanBeholderScryDoubt).ciphertext := by
    intro B
    obtain ⟨hlen, p, hp⟩ := (hashpass_ret B (List.replicate 255 120) sampleSaltA 61).1.mp
      (hashpass_sample_ret B (List.replicate 255 120)).1
    obtain ⟨hmin, hk⟩ := hashpass_ParseInput_key_len _ _ p hp
    have hkl : p.key_len = 0 := by
      rcases hk with ⟨_, hk⟩ | ⟨hm', _⟩
      · rw [hk, hs]
      · omega
    obtain ⟨hmin', hl, hc⟩ := hashpass_ParseInput_sampleSaltA _ p hp
    have henc := (hashpass_state_of_ok B _ _ 61 p hlen hp).2
    rw [hmin', hl, hc, hkl] at henc
    exact henc
  obtain ⟨p, hp, h1, _, h3, _⟩ :=
    hashpass_key_calls sampleBlowfish (List.replicate 255 120) sampleSaltA 61 hr
  obtain ⟨hmin, hk⟩ := hashpass_ParseInput_key_len _ _ p hp
  have hkl : p.key_len = 0 := by
    rcases hk with ⟨_, hk⟩ | ⟨hm', _⟩
    · rw [hk, hs]
    · omega
  rw [hkl] at h1 h3
  refine ⟨hs, hr, h1, fun hmem => ?_, hall,
    ⟨{ Viora_Blowfish_initstate := { S := [], P := [] },
       Viora_Blowfish_expandstate := fun c _ _ _ keybytes => { c with P := keybytes :: c.P },
       Viora_Blowfish_expand0state := fun c _ keybytes => { c with P := keybytes :: c.P },
       Viora_Blowfish_stream2word := fun _ _ current => (0, current),
       vapor_blf_enc := fun c _ _ => (c, c.P) }, ?_⟩⟩
  · have := h3 16 (255 + 1) hmem
    omega
  · rw [hall]
    decide!

/-- Claim C8. Version `b` cap at exactly 72: for a password of byte length `n` and minor
version `b`, an accepted call hands the key schedule the key length
`min(n, 72) + 1`; that length is `n + 1` for `n <= 72`, 73 for `n >= 72`, and never
exceeds 73. The context that the `Schedule` step leaves is
`Viora_Blowfish_expandstate` applied to the salt and to the password with that key
length, followed `2 ^ logr` times by `Viora_Blowfish_expand0state` on the password
with that key length and on the salt, and the stored hash is formatted from the
encryption under that context; every logged call of `Viora_Blowfish_expandstate`
and of `Viora_Blowfish_expand0state` on the password carries that key length, and
both calls are made. -/
theorem hashpass_key_len_b (B : Blowfish) (key salt : List Nat) (encryptedlen : Nat)
    (h : (vapor_bcrypt_hashpass B key salt encryptedlen).ret = 0)
    (hm : salt.getD 2 0 = 98) :
    (∃ p, hashpass_ParseInput key salt = .ok p ∧
        p.key_len = min (strlen key) 72 + 1 ∧
        (hashpass_Schedule B p.csalt p.salt_len key p.key_len p.rounds).1 =
          Nat.iterate
            (fun s => B.Viora_Blowfish_expand0state
              (B.Viora_Blowfish_expand0state s key (min (strlen key) 72 + 1)) p.csalt 16)
            (2 ^ p.logr)
            (B.Viora_Blowfish_expandstate B.Viora_Blowfish_initstate p.csalt 16
              key (min (strlen key) 72 + 1)) ∧
        (vapor_bcrypt_hashpass B key salt encryptedlen).encrypted =
          hashpass_Format p.minor p.logr p.csalt
            (hashpass_Encrypt B
              (Nat.iterate
                (fun s => B.Viora_Blowfish_expand0state
                  (B.Viora_Blowfish_expand0state s key (min (strlen key) 72 + 1))
                  p.csalt 16)
                (2 ^ p.logr)
                (B.Viora_Blowfish_expandstate B.Viora_Blowfish_initstate p.csalt 16
                  key (min (strlen key) 72 + 1)))
              OrpheanBeholderScryDoubt).ciphertext) ∧
      BlfCall.expandstate 16 (min (strlen key) 72 + 1) ∈
        (vapor_bcrypt_hashpass B key salt encryptedlen).calls ∧
      BlfCall.expand0state_key (min (strlen key) 72 + 1) ∈
        (vapor_bcrypt_hashpass B key salt encryptedlen).calls ∧
      (∀ db kb, BlfCall.expandstate db kb ∈
        (vapor_bcrypt_hashpass B key salt encryptedlen).calls →
          kb = min (strlen key) 72 + 1) ∧
      (∀ kb, BlfCall.expand0state_key kb ∈
        (vapor_bcrypt_hashpass B key salt encryptedlen).calls →
          kb = min (strlen key) 72 + 1) ∧
      (strlen key ≤ 72 → min (strlen key) 72 + 1 = strlen key + 1) ∧
      (72 ≤ strlen key → min (strlen key) 72 + 1 = 73) ∧
      min (strlen key) 72 + 1 ≤ 73 := by
  obtain ⟨hlen, _⟩ := (hashpass_ret B key salt encryptedlen).1.mp h
  obtain ⟨p, hp, h1, h2, h3, h4⟩ := hashpass_key_calls B key salt encryptedlen h
  obtain ⟨hmin, hk⟩ := hashpass_ParseInput_key_len key salt p hp
  have hkl : p.key_len = min (strlen key) 72 + 1 := by
    rcases hk with ⟨hm', _⟩ | ⟨_, hk⟩
    · omega
    · exact hk
  obtain ⟨hst, henc⟩ := hashpass_state_of_ok B key salt encryptedlen p hlen hp
  rw [hkl] at h1 h2 h3 h4
  refine ⟨⟨p, hp, hkl, ?_, ?_⟩, h1, h2, h3, h4, fun hn => by omega, fun hn => by omega,
    by omega⟩
  · rw [← hkl]
    exact hst
  · rw [← hkl]
    exact henc

theorem hashpass_key_len_b_witness :
    (vapor_bcrypt_hashpass sampleBlowfish (List.replicate 100 120) sampleSaltB 61).ret = 0 ∧
      sampleSaltB.getD 2 0 = 98 ∧
      strlen (List.replicate 100 120) = 100 ∧
      (vapor_bcrypt_hashpass sampleBlowfish (List.replicate 100 120) sampleSaltB 61).encrypted =
        hashpass_Format 98 4 (List.replicate 16 0)
          (hashpass_Encrypt sampleBlowfish
            (Nat.iterate
              (fun s => sampleBlowfish.Viora_Blowfish_expand0state
                (sampleBlowfish.Viora_Blowfish_expand0state s (List.replicate 100 120) 73)
                (List.replicate 16 0) 16)
              (2 ^ 4)
              (sampleBlowfish.Viora_Blowfish_expandstate
                sampleBlowfish.Viora_Blowfish_initstate (List.replicate 16 0) 16
                (List.replicate 100 120) 73))
            OrpheanBeholderScryDoubt).ciphertext ∧
      BlfCall.expandstate 16 73 ∈
        (vapor_bcrypt_hashpass sampleBlowfish (List.replicate 100 120) sampleSaltB 61).calls ∧
      ∀ kb, BlfCall.expand0state_key kb ∈
        (vapor_bcrypt_hashpass sampleBlowfish (List.replicate 100 120) sampleSaltB 61).calls →
          kb = 73 := by
  have h := hashpass_key_len_b sampleBlowfish (List.replicate 100 120) sampleSaltB 61
    (hashpass_sample_ret sampleBlowfish (List.replicate 100 120)).2 (by decide)
  have hs : strlen (List.replicate 100 120) = 100 := by decide!
  have e : min (strlen (List.replicate 100 120)) 72 + 1 = 73 := by rw [hs]; decide
  rw [e] at h
  obtain ⟨⟨p, hp, _, _, henc⟩, h1, _, _, h4, _⟩ := h
  obtain ⟨hmin, hl, hc⟩ := hashpass_ParseInput_sampleSaltB (List.replicate 100 120) p hp
  rw [hmin, hl, hc] at henc
  exact ⟨(hashpass_sample_ret sampleBlowfish (List.replicate 100 120)).2, by decide, hs,
    henc, h1, h4⟩

/-- Claim C9. Truncation boundary, version `b`: with the key stream of `expand_state` and
`expand0state` as specified (18 words of four bytes, cycling through the key
bytes) and whatever the rest of the engine, for minor version `b` and any salt
string a password of length 73 and a password of length 500 that share their
first 72 bytes leave the same return value and the same encoded hash. -/
theorem hashpass_truncation_b (init : blf_ctx)
    (rederive : blf_ctx → List Nat → Nat → blf_ctx) (rederive0 : blf_ctx → blf_ctx)
    (enc : blf_ctx → List Nat → Nat → blf_ctx × List Nat)
    (k1 k2 salt : List Nat) (encryptedlen : Nat) (hm : salt.getD 2 0 = 98)
    (h1 : strlen k1 = 73) (h2 : strlen k2 = 500) (h72 : k1.take 72 = k2.take 72) :
    (vapor_bcrypt_hashpass (specBlowfish init rederive rederive0 enc) k1 salt
        encryptedlen).ret =
      (vapor_bcrypt_hashpass (specBlowfish init rederive rederive0 enc) k2 salt
        encryptedlen).ret ∧
    (vapor_bcrypt_hashpass (specBlowfish init rederive rederive0 enc) k1 salt
        encryptedlen).encrypted =
      (vapor_bcrypt_hashpass (specBlowfish init rederive rederive0 enc) k2 salt
        encryptedlen).encrypted := by
  refine hashpass_spec_shared_72 init rederive rederive0 enc k1 k2 salt encryptedlen h72
    (fun p1 p2 hp1 hp2 => ?_)
  obtain ⟨m1, hk1⟩ := hashpass_ParseInput_key_len k1 salt p1 hp1
  obtain ⟨m2, hk2⟩ := hashpass_ParseInput_key_len k2 salt p2 hp2
  constructor
  · rcases hk1 with ⟨hm', _⟩ | ⟨_, hk⟩ <;> omega
  · rcases hk2 with ⟨hm', _⟩ | ⟨_, hk⟩ <;> omega

theorem hashpass_truncation_b_witness :
    sampleSaltB.getD 2 0 = 98 ∧ strlen sampleKey73 = 73 ∧ strlen sampleKey500 = 500 ∧
      sampleKey73.take 72 = sampleKey500.take 72 ∧
      (vapor_bcrypt_hashpass sampleBlowfish sampleKey73 sampleSaltB 61).ret = 0 ∧
      (vapor_bcrypt_hashpass sampleBlowfish sampleKey73 sampleSaltB 61).encrypted =
        (vapor_bcrypt_hashpass sampleBlowfish sampleKey500 sampleSaltB 61).encrypted :=
  ⟨by decide, sampleKey_facts.1, sampleKey_facts.2.1, sampleKey_facts.2.2.1,
    (hashpass_sample_ret sampleBlowfish sampleKey73).2,
    (hashpass_truncation_b _ _ _ _ sampleKey73 sampleKey500 sampleSaltB 61 (by decide)
      sampleKey_facts.1 sampleKey_facts.2.1 sampleKey_facts.2.2.1).2⟩

/-- Claim C10. Truncation boundary, version `a`, as the code behaves: with the key stream
of `expand_state` and `expand0state` as specified and whatever the rest of the
engine, for minor version `a` and any salt string a password of length 73 and a
password of length 500 that share their first 72 bytes leave the same return
value and the same encoded hash (the key lengths 74 and 501 mod 256 = 245 are
both at least 72, and only the key bytes 0..71 are read). -/
theorem hashpass_truncation_a (init : blf_ctx)
    (rederive : blf_ctx → List Nat → Nat → blf_ctx) (rederive0 : blf_ctx → blf_ctx)
    (enc : blf_ctx → List Nat → Nat → blf_ctx × List Nat)
    (k1 k2 salt : List Nat) (encryptedlen : Nat) (hm : salt.getD 2 0 = 97)
    (h1 : strlen k1 = 73) (h2 : strlen k2 = 500) (h72 : k1.take 72 = k2.take 72) :
    (vapor_bcrypt_hashpass (specBlowfish init rederive rederive0 enc) k1 salt
        encryptedlen).ret =
      (vapor_bcrypt_hashpass (specBlowfish init rederive rederive0 enc) k2 salt
        encryptedlen).ret ∧
    (vapor_bcrypt_hashpass (specBlowfish init rederive rederive0 enc) k1 salt
        encryptedlen).encrypted =
      (vapor_bcrypt_hashpass (specBlowfish init rederive rederive0 enc) k2 salt
        encryptedlen).encrypted := by
  refine hashpass_spec_shared_72 init rederive rederive0 enc k1 k2 salt encryptedlen h72
    (fun p1 p2 hp1 hp2 => ?_)
  obtain ⟨m1, hk1⟩ := hashpass_ParseInput_key_len k1 salt p1 hp1
  obtain ⟨m2, hk2⟩ := hashpass_ParseInput_key_len k2 salt p2 hp2
  constructor
  · rcases hk1 with ⟨_, hk⟩ | ⟨hm', _⟩ <;> omega
  · rcases hk2 with ⟨_, hk⟩ | ⟨hm', _⟩ <;> omega

theorem hashpass_truncation_a_witness :
    sampleSaltA.getD 2 0 = 97 ∧ strlen sampleKey73 = 73 ∧ strlen sampleKey500 = 500 ∧
      sampleKey73.take 72 = sampleKey500.take 72 ∧
      (vapor_bcrypt_hashpass sampleBlowfish sampleKey73 sampleSaltA 61).encrypted =
        (vapor_bcrypt_hashpass sampleBlowfish sampleKey500 sampleSaltA 61).encrypted :=
  ⟨by decide, sampleKey_facts.1, sampleKey_facts.2.1, sampleKey_facts.2.2.1,
    (hashpass_truncation_a _ _ _ _ sampleKey73 sampleKey500 sampleSaltA 61 (by decide)
      sampleKey_facts.1 sampleKey_facts.2.1 sampleKey_facts.2.2.1).2⟩

/-- Counterexample to C10 as stated: for minor version `a`, cost 4 and the zero
salt, the password of 73 bytes `x` and the password of 72 bytes `x` followed by
428 bytes `y` share their first 72 bytes and differ at byte 72, both are
accepted, and they leave the same encoded hash, with the key stream as specified
and whatever the rest of the engine. -/
theorem hashpass_truncation_a_same_hash :
    strlen sampleKey73 = 73 ∧ strlen sampleKey500 = 500 ∧
      sampleKey73.take 72 = sampleKey500.take 72 ∧
      sampleKey73.getD 72 0 ≠ sampleKey500.getD 72 0 ∧
      ∀ (init : blf_ctx) (rederive : blf_ctx → List Nat → Nat → blf_ctx)
        (rederive0 : blf_ctx → blf_ctx)
        (enc : blf_ctx → List Nat → Nat → blf_ctx × List Nat),
        (vapor_bcrypt_hashpass (specBlowfish init rederive rederive0 enc) sampleKey73
          sampleSaltA 61).ret = 0 ∧
        (vapor_bcrypt_hashpass (specBlowfish init rederive rederive0 enc) sampleKey500
          sampleSaltA 61).ret = 0 ∧
        (vapor_bcrypt_hashpass (specBlowfish init rederive rederive0 enc) sampleKey73
          sampleSaltA 61).encrypted =
        (vapor_bcrypt_hashpass (specBlowfish init rederive rederive0 enc) sampleKey500
          sampleSaltA 61).encrypted := by
  refine ⟨sampleKey_facts.1, sampleKey_facts.2.1, sampleKey_facts.2.2.1,
    sampleKey_facts.2.2.2, fun init rederive rederive0 enc => ?_⟩
  refine ⟨(hashpass_sample_ret _ sampleKey73).1, (hashpass_sample_ret _ sampleKey500).1, ?_⟩
  refine (hashpass_spec_shared_72 init rederive rederive0 enc sampleKey73 sampleKey500
    sampleSaltA 61 sampleKey_facts.2.2.1 (fun p1 p2 hp1 hp2 => ?_)).2
  obtain ⟨m1, hk1⟩ := hashpass_ParseInput_key_len _ _ p1 hp1
  obtain ⟨m2, hk2⟩ := hashpass_ParseInput_key_len _ _ p2 hp2
  have hm : sampleSaltA.getD 2 0 = 97 := by decide
  have s1 := sampleKey_facts.1
  have s2 := sampleKey_facts.2.1
  constructor
  · rcases hk1 with ⟨_, hk⟩ | ⟨hm', _⟩ <;> omega
  · rcases hk2 with ⟨_, hk⟩ | ⟨hm', _⟩ <;> omega

/-- Claim C11. Schedule repetition count: an accepted input with parsed cost `c`
(4 <= c <= 31) makes one call of `initstate`, one of `expandstate(salt, key)`,
then `2 ^ c` times `expand0state(key)` followed by `expand0state(salt)`, and no
other call of `expand0state`: exactly `2 * 2 ^ c` calls of `expand0state`. The
context that the `Schedule` step leaves is the engine's `expandstate` applied to
its `initstate`, followed `2 ^ c` times by its `expand0state` on the password and
its `expand0state` on the salt, and the stored hash is formatted from the
encryption under that context. The 32-bit value `1 << c` is `2 ^ c`, and an
accepted input whose cost is `c + 1` makes twice as many calls of
`expand0state`. -/
theorem hashpass_schedule_count (B : Blowfish) (key salt : List Nat) (encryptedlen : Nat)
    (h : (vapor_bcrypt_hashpass B key salt encryptedlen).ret = 0) :
    ∃ p, hashpass_ParseInput key salt = .ok p ∧ 4 ≤ p.logr ∧ p.logr ≤ 31 ∧
      (1 <<< p.logr) % 2 ^ 32 = 2 ^ p.logr ∧ p.rounds = 2 ^ p.logr ∧
      (hashpass_Schedule B p.csalt p.salt_len key p.key_len p.rounds).1 =
        Nat.iterate
          (fun s => B.Viora_Blowfish_expand0state
            (B.Viora_Blowfish_expand0state s key p.key_len) p.csalt 16)
          (2 ^ p.logr)
          (B.Viora_Blowfish_expandstate B.Viora_Blowfish_initstate p.csalt 16
            key p.key_len) ∧
      (vapor_bcrypt_hashpass B key salt encryptedlen).encrypted =
        hashpass_Format p.minor p.logr p.csalt
          (hashpass_Encrypt B
            (Nat.iterate
              (fun s => B.Viora_Blowfish_expand0state
                (B.Viora_Blowfish_expand0state s key p.key_len) p.csalt 16)
              (2 ^ p.logr)
              (B.Viora_Blowfish_expandstate B.Viora_Blowfish_initstate p.csalt 16
                key p.key_len))
            OrpheanBeholderScryDoubt).ciphertext ∧
      (vapor_bcrypt_hashpass B key salt encryptedlen).calls =
        [BlfCall.initstate, BlfCall.expandstate 16 p.key_len] ++
          (List.replicate (2 ^ p.logr)
            [BlfCall.expand0state_key p.key_len, BlfCall.expand0state_salt 16]).flatten ++
          (hashpass_Encrypt B
            (hashpass_Schedule B p.csalt p.salt_len key p.key_len p.rounds).1
            OrpheanBeholderScryDoubt).calls ∧
      (vapor_bcrypt_hashpass B key salt encryptedlen).calls.countP BlfCall.isExpand0state =
        2 * 2 ^ p.logr ∧
      ∀ (key2 salt2 : List Nat) (len2 : Nat) (p2 : Parsed),
        (vapor_bcrypt_hashpass B key2 salt2 len2).ret = 0 →
        hashpass_ParseInput key2 salt2 = .ok p2 → p2.logr = p.logr + 1 →
        (vapor_bcrypt_hashpass B key2 salt2 len2).calls.countP BlfCall.isExpand0state =
          2 * (vapor_bcrypt_hashpass B key salt encryptedlen).calls.countP
            BlfCall.isExpand0state := by
  obtain ⟨hlen, p, hp⟩ := (hashpass_ret B key salt encryptedlen).1.mp h
  obtain ⟨d0, d1, s, _, _, _, _, _, _, _, hl4, hl31, hr, _⟩ :=
    (hashpass_ParseInput_ok_iff key _ p).mp hp
  obtain ⟨hc, hn⟩ := hashpass_calls_of_ok B key salt encryptedlen p hlen hp
  obtain ⟨hst, henc⟩ := hashpass_state_of_ok B key salt encryptedlen p hlen hp
  refine ⟨p, hp, hl4, hl31, shiftLeft_one_mod _ hl31, hr, hst, henc, hc, hn, ?_⟩
  intro key2 salt2 len2 p2 h2 hp2 hl
  obtain ⟨hlen2, _⟩ := (hashpass_ret B key2 salt2 len2).1.mp h2
  rw [(hashpass_calls_of_ok B key2 salt2 len2 p2 hlen2 hp2).2, hn, hl, pow_succ]
  ring

theorem hashpass_schedule_count_witness :
    (vapor_bcrypt_hashpass sampleBlowfish [97, 98, 99] sampleSaltB 61).ret = 0 ∧
      (vapor_bcrypt_hashpass sampleBlowfish [97, 98, 99] sampleSaltB 61).encrypted =
        hashpass_Format 98 4 (List.replicate 16 0)
          (hashpass_Encrypt sampleBlowfish
            (Nat.iterate
              (fun s => sampleBlowfish.Viora_Blowfish_expand0state
                (sampleBlowfish.Viora_Blowfish_expand0state s [97, 98, 99] 4)
                (List.replicate 16 0) 16)
              (2 ^ 4)
              (sampleBlowfish.Viora_Blowfish_expandstate
                sampleBlowfish.Viora_Blowfish_initstate (List.replicate 16 0) 16
                [97, 98, 99] 4))
            OrpheanBeholderScryDoubt).ciphertext ∧
      (vapor_bcrypt_hashpass sampleBlowfish [97, 98, 99] sampleSaltB 61).calls.countP
        BlfCall.isExpand0state = 2 * 2 ^ 4 := by
  have h0 := (hashpass_sample_ret sampleBlowfish [97, 98, 99]).2
  obtain ⟨p, hp, _, _, _, _, _, henc, _, hn, _⟩ :=
    hashpass_schedule_count sampleBlowfish [97, 98, 99] sampleSaltB 61 h0
  obtain ⟨hmin, hl4, hc⟩ := hashpass_ParseInput_sampleSaltB [97, 98, 99] p hp
  obtain ⟨_, hk⟩ := hashpass_ParseInput_key_len [97, 98, 99] sampleSaltB p hp
  have hkl : p.key_len = 4 := by
    rcases hk with ⟨hm', _⟩ | ⟨_, hk⟩
    · omega
    · rw [hk]
      decide
  rw [hl4] at hn
  rw [hmin, hl4, hc, hkl] at henc
  exact ⟨h0, henc, hn⟩

/-- Claim C13. The decode lookup is the exact inverse of the alphabet: `CHAR64` maps
the character of every value 0..63 back to that value, and maps every byte that
is not one of the 64 alphabet characters (NUL and every byte above 127 among
them) to the sentinel 255; the 64 alphabet characters are pairwise distinct, and
the alphabet is `./`, `A-Z`, `a-z`, `0-9` in that order. -/
theorem CHAR64_inverse :
    (∀ v < 64, CHAR64 (Base64Char v) = v) ∧
      (∀ c < 256, c ∉ Base64Code → CHAR64 c = 255) ∧
      CHAR64 0 = 255 ∧ (∀ c, 127 < c → CHAR64 c = 255) ∧
      (∀ c, c ∈ Base64Code → CHAR64 c < 64 ∧ Base64Char (CHAR64 c) = c) ∧
      Base64Code.Nodup ∧ Base64Code.length = 64 ∧
      Base64Code = [46, 47] ++ List.range' 65 26 ++ List.range' 97 26 ++ List.range' 48 10 ∧
      Base64Code =
        ("./ABCDEFGHIJKLMNOPQRSTUVWXYZabcdefghijklmnopqrstuvwxyz0123456789".toList.map
          Char.toNat) := by
  refine ⟨CHAR64_Base64Char, fun c _ hc => ?_, by decide, fun c hc => ?_, ?_,
    Base64Code_shape.1, Base64Code_shape.2.1, Base64Code_shape.2.2.2.1,
    Base64Code_shape.2.2.2.2⟩
  · by_contra h
    exact hc ((CHAR64_ne_255_iff c).mp h)
  · simp [CHAR64, hc]
  · have key : ∀ c ∈ Base64Code, CHAR64 c < 64 ∧ Base64Char (CHAR64 c) = c := by
      decide!
    exact key

/-- Claim C14. Encode shape: for every sequence of `n` bytes, `vapor_encode_base64`
stores `4 * (n / 3) + r` characters followed by a NUL, where `r` is 0, 2 or 3 when
`n mod 3` is 0, 1 or 2; every stored character is in the alphabet; the full group
`i` yields the characters of the four 6-bit slices of its 24-bit value, the most
significant first; and the last character of a truncated group is the character
of a value whose unused low bits (four after one byte, two after two bytes) are
zero. -/
theorem vapor_encode_base64_shape (data : List Nat) (hb : ∀ x ∈ data, x < 256) :
    vapor_encode_base64 data data.length =
        (0, vapor_encode_base64_loop data.length data ++ [0]) ∧
      (vapor_encode_base64_loop data.length data).length =
        4 * (data.length / 3) + (if data.length % 3 = 0 then 0 else data.length % 3 + 1) ∧
      (∀ c ∈ vapor_encode_base64_loop data.length data, c ∈ Base64Code) ∧
      (∀ i, 3 * i + 2 < data.length → ∀ k < 4,
        (vapor_encode_base64_loop data.length data).getD (4 * i + k) 0 =
          Base64Char ((data.getD (3 * i) 0 * 65536 + data.getD (3 * i + 1) 0 * 256 +
            data.getD (3 * i + 2) 0) / 64 ^ (3 - k) % 64)) ∧
      (data.length % 3 = 1 →
        (vapor_encode_base64_loop data.length data).getD (4 * (data.length / 3)) 0 =
          Base64Char (data.getD (data.length - 1) 0 / 4) ∧
        (vapor_encode_base64_loop data.length data).getD (4 * (data.length / 3) + 1) 0 =
          Base64Char (data.getD (data.length - 1) 0 % 4 * 16)) ∧
      (data.length % 3 = 2 →
        (vapor_encode_base64_loop data.length data).getD (4 * (data.length / 3)) 0 =
          Base64Char (data.getD (data.length - 2) 0 / 4) ∧
        (vapor_encode_base64_loop data.length data).getD (4 * (data.length / 3) + 1) 0 =
          Base64Char (data.getD (data.length - 2) 0 % 4 * 16 +
            data.getD (data.length - 1) 0 / 16) ∧
        (vapor_encode_base64_loop data.length data).getD (4 * (data.length / 3) + 2) 0 =
          Base64Char (data.getD (data.length - 1) 0 % 16 * 4)) := by
  have hdrop : ∀ m, ∀ x ∈ data.drop m, x < 256 := fun m x hx =>
    hb x (List.mem_of_mem_drop hx)
  refine ⟨rfl, ?_, vapor_encode_base64_loop_mem _ data hb, ?_, ?_, ?_⟩
  · rw [vapor_encode_base64_loop_length]
    unfold b64len
    split_ifs <;> omega
  · intro i hi k hk
    rw [vapor_encode_base64_loop_group i _ data (by omega) k hk,
      vapor_encode_base64_loop_three _ (hdrop _) k hk]
    simp only [getD_drop_zero, Nat.add_zero]
  · intro h1
    have e : data.length = 3 * (data.length / 3) + 1 := by omega
    have e' : data.length - 1 = 3 * (data.length / 3) := by omega
    have s := (vapor_encode_base64_loop_short _ (hdrop (3 * (data.length / 3)))).1
    have t0 := vapor_encode_base64_loop_tail (data.length / 3) 1 data 0
    have t1 := vapor_encode_base64_loop_tail (data.length / 3) 1 data 1
    rw [← e, s] at t0 t1
    rw [e']
    simp only [getD_drop_zero, Nat.add_zero, List.getD_cons_zero, List.getD_cons_succ] at t0 t1
    exact ⟨t0, t1⟩
  · intro h2
    have e : data.length = 3 * (data.length / 3) + 2 := by omega
    have e1 : data.length - 1 = 3 * (data.length / 3) + 1 := by omega
    have e2 : data.length - 2 = 3 * (data.length / 3) := by omega
    have s := (vapor_encode_base64_loop_short _ (hdrop (3 * (data.length / 3)))).2
    have t0 := vapor_encode_base64_loop_tail (data.length / 3) 2 data 0
    have t1 := vapor_encode_base64_loop_tail (data.length / 3) 2 data 1
    have t2 := vapor_encode_base64_loop_tail (data.length / 3) 2 data 2
    rw [← e, s] at t0 t1 t2
    rw [e1, e2]
    simp only [getD_drop_zero, Nat.add_zero, List.getD_cons_zero, List.getD_cons_succ]
      at t0 t1 t2
    exact ⟨t0, t1, t2⟩

theorem vapor_encode_base64_shape_witness :
    (∀ x ∈ [255, 1, 77, 3], x < 256) ∧
      vapor_encode_base64 [255, 1, 77, 3] 4 = (0, [57, 117, 68, 76, 46, 117, 0]) ∧
      (vapor_encode_base64_loop 4 [255, 1, 77, 3]).length = 4 * (4 / 3) + 2 :=
  have h := vapor_encode_base64_shape [255, 1, 77, 3] (by decide)
  ⟨by decide, h.1, h.2.1⟩

/-- Claim C15. Total length, as the code produces it: when `vapor_bcrypt_hashpass`
returns 0 the encoded hash has exactly 60 characters in all, its leading `$`
included, so 59 characters after the leading `$`; with the NUL it fills 61 bytes. -/
theorem hashpass_total_length (B : Blowfish) (key salt : List Nat) (encryptedlen : Nat)
    (h : (vapor_bcrypt_hashpass B key salt encryptedlen).ret = 0) :
    strlen (vapor_bcrypt_hashpass B key salt encryptedlen).encrypted = 60 ∧
      (vapor_bcrypt_hashpass B key salt encryptedlen).encrypted.getD 0 0 = 36 ∧
      strlen ((vapor_bcrypt_hashpass B key salt encryptedlen).encrypted.drop 1) = 59 ∧
      (vapor_bcrypt_hashpass B key salt encryptedlen).encrypted.length = 61 := by
  obtain ⟨h1, h2, h3, h4⟩ := hashpass_strlen_of_ok B key salt encryptedlen h
  exact ⟨h2, h3, h4, h1⟩

theorem hashpass_total_length_witness :
    (vapor_bcrypt_hashpass sampleBlowfish [97, 98, 99] sampleSaltA 61).ret = 0 ∧
      strlen (vapor_bcrypt_hashpass sampleBlowfish [97, 98, 99] sampleSaltA 61).encrypted = 60 :=
  ⟨(hashpass_sample_ret sampleBlowfish [97, 98, 99]).1,
    (hashpass_total_length sampleBlowfish [97, 98, 99] sampleSaltA 61
      (hashpass_sample_ret sampleBlowfish [97, 98, 99]).1).1⟩

/-- Counterexample to C15 as stated: the accepted call on the password `abc` and the
salt string `$2b$04$......................` stores a string that starts with `$`
and has 59 characters, not 60, after that `$`. -/
theorem hashpass_59_after_dollar :
    (vapor_bcrypt_hashpass sampleBlowfish [97, 98, 99] sampleSaltB 61).ret = 0 ∧
      (vapor_bcrypt_hashpass sampleBlowfish [97, 98, 99] sampleSaltB 61).encrypted.getD 0 0
        = 36 ∧
      strlen ((vapor_bcrypt_hashpass sampleBlowfish [97, 98, 99] sampleSaltB 61).encrypted.drop
        1) = 59 ∧
      strlen ((vapor_bcrypt_hashpass sampleBlowfish [97, 98, 99] sampleSaltB 61).encrypted.drop
        1) ≠ 60 := by
  have h0 := (hashpass_sample_ret sampleBlowfish [97, 98, 99]).2
  obtain ⟨_, _, h3, h4⟩ := hashpass_strlen_of_ok sampleBlowfish [97, 98, 99] sampleSaltB 61 h0
  exact ⟨h0, h3, h4, by rw [h4]; decide⟩

/-- Claim C16. No partial computation on failure: when `vapor_bcrypt_hashpass`
returns -1 (a buffer smaller than `BCRYPT_HASHSPACE` included) it has made no
Blowfish call, has stored nothing into `state` or `cdata`, and has stored
nothing into the output buffer. -/
theorem hashpass_fail_no_work (B : Blowfish) (key salt : List Nat) (encryptedlen : Nat)
    (h : (vapor_bcrypt_hashpass B key salt encryptedlen).ret = -1) :
    (vapor_bcrypt_hashpass B key salt encryptedlen).calls = [] ∧
      (vapor_bcrypt_hashpass B key salt encryptedlen).encrypted = [] ∧
      (vapor_bcrypt_hashpass B key salt encryptedlen).state = none ∧
      (vapor_bcrypt_hashpass B key salt encryptedlen).cdata = [] := by
  obtain ⟨_, h1, h2, h3, h4, _⟩ :=
    hashpass_fail_frame B key salt encryptedlen (by rw [h]; decide)
  exact ⟨h2, h1, h3, h4⟩

theorem hashpass_fail_no_work_witness :
    (vapor_bcrypt_hashpass sampleBlowfish [97, 98, 99] sampleSaltB 60).ret = -1 ∧
      (vapor_bcrypt_hashpass sampleBlowfish [97, 98, 99] sampleSaltBad 61).ret = -1 ∧
      (vapor_bcrypt_hashpass sampleBlowfish [97, 98, 99] sampleSaltB 60).calls = [] ∧
      (vapor_bcrypt_hashpass sampleBlowfish [97, 98, 99] sampleSaltBad 61).calls = [] ∧
      (vapor_bcrypt_hashpass sampleBlowfish [97, 98, 99] sampleSaltBad 61).encrypted = [] :=
  have h1 : (vapor_bcrypt_hashpass sampleBlowfish [97, 98, 99] sampleSaltB 60).ret = -1 :=
    hashpass_small_buffer _ _ _ _ (by decide)
  have h2 : (vapor_bcrypt_hashpass sampleBlowfish [97, 98, 99] sampleSaltBad 61).ret = -1 := by
    decide
  ⟨h1, h2, (hashpass_fail_no_work _ _ _ _ h1).1, (hashpass_fail_no_work _ _ _ _ h2).1,
    (hashpass_fail_no_work _ _ _ _ h2).2.1⟩

/-- Claim C17. Zeroisation, as the code behaves: when `vapor_bcrypt_hashpass` returns 0
the cipher state, the 24-byte `ciphertext` buffer, `csalt` and `cdata` are all
zero; when it returns -1 no Blowfish operation has run, nothing has been stored
into the cipher state or `cdata`, and `ciphertext` still holds its initialiser,
the public constant `OrpheanBeholderScryDoubt`. -/
theorem hashpass_zeroisation (B : Blowfish) (key salt : List Nat) (encryptedlen : Nat) :
    ((vapor_bcrypt_hashpass B key salt encryptedlen).ret = 0 →
      (vapor_bcrypt_hashpass B key salt encryptedlen).state = some blf_ctx.zero ∧
      (vapor_bcrypt_hashpass B key salt encryptedlen).ciphertext = List.replicate 24 0 ∧
      (vapor_bcrypt_hashpass B key salt encryptedlen).csalt = List.replicate 16 0 ∧
      (vapor_bcrypt_hashpass B key salt encryptedlen).cdata = List.replicate 6 0) ∧
    ((vapor_bcrypt_hashpass B key salt encryptedlen).ret = -1 →
      (vapor_bcrypt_hashpass B key salt encryptedlen).calls = [] ∧
      (vapor_bcrypt_hashpass B key salt encryptedlen).state = none ∧
      (vapor_bcrypt_hashpass B key salt encryptedlen).cdata = [] ∧
      (vapor_bcrypt_hashpass B key salt encryptedlen).ciphertext =
        OrpheanBeholderScryDoubt) := by
  constructor
  · intro h
    obtain ⟨hlen, p, hp⟩ := (hashpass_ret B key salt encryptedlen).1.mp h
    rw [hashpass_of_ok B key salt encryptedlen p hlen hp]
    exact ⟨rfl, rfl, rfl, rfl⟩
  · intro h
    obtain ⟨_, _, h2, h3, h4, h5⟩ :=
      hashpass_fail_frame B key salt encryptedlen (by rw [h]; decide)
    exact ⟨h2, h3, h4, h5⟩

/-- Counterexample to C17 as stated: the call on the salt string
`$2b$04$......................` with a buffer of 60 bytes returns -1 and leaves
the 24 bytes of `ciphertext` equal to `OrpheanBeholderScryDoubt`, not zero. -/
theorem hashpass_fail_not_zeroed :
    (vapor_bcrypt_hashpass sampleBlowfish [97, 98, 99] sampleSaltB 60).ret = -1 ∧
      (vapor_bcrypt_hashpass sampleBlowfish [97, 98, 99] sampleSaltB 60).ciphertext =
        OrpheanBeholderScryDoubt ∧
      (vapor_bcrypt_hashpass sampleBlowfish [97, 98, 99] sampleSaltB 60).ciphertext ≠
        List.replicate 24 0 := by
  decide

/-- Claim C18. Encrypt step: for an accepted input the 24 ciphertext bytes are obtained
from the six words that six calls of `stream2word` over `OrpheanBeholderScryDoubt`
return, by 64 successive calls of `vapor_blf_enc` on the three blocks of the whole
buffer under the scheduled state, each resulting word serialised big-endian
(byte `4 * i + k` is `(word_i >> 8 * (3 - k)) & 0xff`); the stored hash is the
`Format` of these bytes and is the same whatever the 24th byte is. -/
theorem hashpass_encrypt_step (B : Blowfish) (key salt : List Nat) (encryptedlen : Nat)
    (h : (vapor_bcrypt_hashpass B key salt encryptedlen).ret = 0) :
    ∃ p, hashpass_ParseInput key salt = .ok p ∧
      hashpass_ciphertext B key p =
        encrypt_bytes_spec B
          (hashpass_Schedule B p.csalt p.salt_len key p.key_len p.rounds).1
          OrpheanBeholderScryDoubt ∧
      (hashpass_ciphertext B key p).length = 24 ∧
      (∀ i < 6, ∀ k < 4, (hashpass_ciphertext B key p).getD (4 * i + k) 0 =
        ((((Nat.iterate (fun (a : blf_ctx × List Nat) => B.vapor_blf_enc a.1 a.2 3) 64
          ((hashpass_Schedule B p.csalt p.salt_len key p.key_len p.rounds).1,
            (encrypt_seed_spec B OrpheanBeholderScryDoubt).1)).2.getD i 0) % 2 ^ 32) >>>
          (8 * (3 - k))) &&& 0xff) ∧
      (hashpass_Encrypt B
          (hashpass_Schedule B p.csalt p.salt_len key p.key_len p.rounds).1
          OrpheanBeholderScryDoubt).calls =
        (encrypt_seed_spec B OrpheanBeholderScryDoubt).2.map
            (fun j => BlfCall.stream2word 24 j) ++
          List.replicate 64 (BlfCall.blf_enc 3) ∧
      (vapor_bcrypt_hashpass B key salt encryptedlen).encrypted =
        hashpass_Format p.minor p.logr p.csalt (hashpass_ciphertext B key p) ∧
      ∀ c2 : List Nat, c2.take 23 = (hashpass_ciphertext B key p).take 23 →
        hashpass_Format p.minor p.logr p.csalt c2 =
          (vapor_bcrypt_hashpass B key salt encryptedlen).encrypted := by
  obtain ⟨hlen, p, hp⟩ := (hashpass_ret B key salt encryptedlen).1.mp h
  obtain ⟨hs1, hs2⟩ := hashpass_Encrypt_spec B
    (hashpass_Schedule B p.csalt p.salt_len key p.key_len p.rounds).1 OrpheanBeholderScryDoubt
  have hct : hashpass_ciphertext B key p = encrypt_bytes_spec B
      (hashpass_Schedule B p.csalt p.salt_len key p.key_len p.rounds).1
      OrpheanBeholderScryDoubt := hs1
  have henc : (vapor_bcrypt_hashpass B key salt encryptedlen).encrypted =
      hashpass_Format p.minor p.logr p.csalt (hashpass_ciphertext B key p) := by
    rw [hashpass_of_ok B key salt encryptedlen p hlen hp]
    rfl
  refine ⟨p, hp, hct, ?_, ?_, hs2, henc, ?_⟩
  · exact (hashpass_Encrypt_ciphertext B _ OrpheanBeholderScryDoubt).1
  · intro i hi k hk
    rw [hct]
    exact encrypt_bytes_spec_getD B _ _ i k hi hk
  · intro c2 hc2
    rw [henc]
    exact hashpass_Format_congr _ _ _ _ _ hc2

theorem hashpass_encrypt_step_witness :
    (vapor_bcrypt_hashpass sampleBlowfish [97, 98, 99] sampleSaltB 61).ret = 0 ∧
      ∃ p, hashpass_ParseInput [97, 98, 99] sampleSaltB = .ok p ∧
        (hashpass_ciphertext sampleBlowfish [97, 98, 99] p).length = 24 ∧
        (vapor_bcrypt_hashpass sampleBlowfish [97, 98, 99] sampleSaltB 61).encrypted =
          hashpass_Format p.minor p.logr p.csalt
            (hashpass_ciphertext sampleBlowfish [97, 98, 99] p) :=
  have h0 := (hashpass_sample_ret sampleBlowfish [97, 98, 99]).2
  ⟨h0, (hashpass_encrypt_step sampleBlowfish [97, 98, 99] sampleSaltB 61 h0).elim
    (fun p hp => ⟨p, hp.1, hp.2.2.1, hp.2.2.2.2.2.1⟩)⟩

/-- Claim C19. Salt text is canonicalised, not echoed: for an accepted salt string the
first 21 salt characters of the output (output characters 7..27) are those of the
input; the 22nd is the character of the value of the 22nd input salt character
with its low four bits cleared, so the 22 salt characters of the output equal
those of the input if and only if that value has its low four bits zero, that
is, the 22nd input salt character is one of `.`, `O`, `e`, `u`; and two accepted
salt strings that agree on their first 28 characters and on the two high bits of
the value of the 22nd salt character decode to the same 16 salt bytes. -/
theorem hashpass_salt_canonical (B : Blowfish) (key salt : List Nat) (encryptedlen : Nat)
    (h : (vapor_bcrypt_hashpass B key salt encryptedlen).ret = 0) :
    (∀ i < 21, (vapor_bcrypt_hashpass B key salt encryptedlen).encrypted.getD (7 + i) 0 =
        salt.getD (7 + i) 0) ∧
      (vapor_bcrypt_hashpass B key salt encryptedlen).encrypted.getD 28 0 =
        Base64Char (CHAR64 (salt.getD 28 0) / 16 * 16) ∧
      ((∀ i < 22, (vapor_bcrypt_hashpass B key salt encryptedlen).encrypted.getD (7 + i) 0 =
          salt.getD (7 + i) 0) ↔ CHAR64 (salt.getD 28 0) % 16 = 0) ∧
      (CHAR64 (salt.getD 28 0) % 16 = 0 ↔
        (salt.getD 28 0 = 46 ∨ salt.getD 28 0 = 79 ∨ salt.getD 28 0 = 101 ∨
          salt.getD 28 0 = 117)) ∧
      ∀ (key2 salt2 : List Nat) (p p2 : Parsed),
        hashpass_ParseInput key salt = .ok p → hashpass_ParseInput key2 salt2 = .ok p2 →
        (∀ i < 28, salt2.getD i 0 = salt.getD i 0) →
        CHAR64 (salt2.getD 28 0) / 16 = CHAR64 (salt.getD 28 0) / 16 →
        p2.csalt = p.csalt := by
  obtain ⟨hlen, p, hp⟩ := (hashpass_ret B key salt encryptedlen).1.mp h
  obtain ⟨hd, hc⟩ := hashpass_ParseInput_csalt key salt p hp
  have hv := (decode_base64_loop_ret 16 (salt.drop 7)).mp hd
  rw [b64len_16] at hv
  have hv21 := hv 21 (by omega)
  rw [getD_drop_zero] at hv21
  obtain ⟨v, w⟩ := Base64Char_CHAR64 _ hv21
  obtain ⟨_, _, _, r4, r5, r6⟩ := rejoin _ v
  have hout : ∀ i < 22,
      (vapor_bcrypt_hashpass B key salt encryptedlen).encrypted.getD (7 + i) 0 =
        (vapor_encode_base64_loop 16 (decode_base64_loop 16 (salt.drop 7)).2).getD i 0 :=
    fun i hi => by
      rw [hashpass_encrypted_salt_text B key salt encryptedlen p hlen hp i hi, hc]
  have hinit : ∀ i < 21,
      (vapor_bcrypt_hashpass B key salt encryptedlen).encrypted.getD (7 + i) 0 =
        salt.getD (7 + i) 0 := fun i hi => by
    rw [hout i (by omega), encode_decode_loop_init 16 _ hd i (by rw [b64len_16]; omega),
      getD_drop_zero]
  have hlast : (vapor_bcrypt_hashpass B key salt encryptedlen).encrypted.getD 28 0 =
      Base64Char (CHAR64 (salt.getD 28 0) &&& 0x30) := by
    have := encode_decode_loop_last 16 (salt.drop 7) (by decide) hd
    rw [b64len_16, getD_drop_zero] at this
    rw [show (28 : Nat) = 7 + 21 by rfl, hout 21 (by omega)]
    exact this
  have hiff : (∀ i < 22,
      (vapor_bcrypt_hashpass B key salt encryptedlen).encrypted.getD (7 + i) 0 =
        salt.getD (7 + i) 0) ↔ CHAR64 (salt.getD 28 0) % 16 = 0 := by
    constructor
    · intro hall
      have h21 := hall 21 (by omega)
      rw [show 7 + 21 = 28 by rfl, hlast] at h21
      have := congrArg CHAR64 h21
      rw [CHAR64_Base64Char _ r4] at this
      exact r6.mp this
    · intro hz i hi
      by_cases h21 : i < 21
      · exact hinit i h21
      · have e : i = 21 := by omega
        subst e
        rw [show 7 + 21 = 28 by rfl, hlast, r6.mpr hz, w]
  refine ⟨hinit, by rw [hlast, r5], hiff,
    (Base64Char_CHAR64_mem _ ((CHAR64_ne_255_iff _).mp hv21)).2.2, ?_⟩
  intro key2 salt2 q q2 hq hq2 hsame htop
  obtain ⟨hd1, hc1⟩ := hashpass_ParseInput_csalt key salt q hq
  obtain ⟨hd2, hc2⟩ := hashpass_ParseInput_csalt key2 salt2 q2 hq2
  have hv2 := (decode_base64_loop_ret 16 (salt2.drop 7)).mp hd2
  rw [b64len_16] at hv2
  have hv21' := hv2 21 (by omega)
  rw [getD_drop_zero] at hv21'
  obtain ⟨v2, _⟩ := Base64Char_CHAR64 _ hv21'
  obtain ⟨_, _, _, _, r5', _⟩ := rejoin _ v2
  rw [hc1, hc2]
  congr 1
  refine decode_base64_loop_congr_last 16 _ _ (by decide) (fun i hi => ?_) ?_ ?_ ?_
  · rw [b64len_16] at hi
    rw [getD_drop_zero, getD_drop_zero]
    exact hsame (7 + i) (by omega)
  · rw [b64len_16, getD_drop_zero]
    exact hv21'
  · rw [b64len_16, getD_drop_zero]
    exact hv21
  · rw [b64len_16, getD_drop_zero, getD_drop_zero]
    show CHAR64 (salt2.getD 28 0) &&& 0x30 = CHAR64 (salt.getD 28 0) &&& 0x30
    rw [r5, r5', htop]

theorem hashpass_salt_canonical_witness :
    (vapor_bcrypt_hashpass sampleBlowfish [97, 98, 99] sampleSaltB 61).ret = 0 ∧
      ((∀ i < 22,
        (vapor_bcrypt_hashpass sampleBlowfish [97, 98, 99] sampleSaltB 61).encrypted.getD
          (7 + i) 0 = sampleSaltB.getD (7 + i) 0) ↔
        CHAR64 (sampleSaltB.getD 28 0) % 16 = 0) :=
  have h0 := (hashpass_sample_ret sampleBlowfish [97, 98, 99]).2
  ⟨h0, (hashpass_salt_canonical sampleBlowfish [97, 98, 99] sampleSaltB 61 h0).2.2.1⟩

/-- Claim C20. Reads and table lookups stay in bounds: for every salt string, empty
included, `vapor_bcrypt_hashpass` and `decode_base64` read no character at an
index beyond the terminator of the string they are given; `CHAR64` indexes
`index_64` only with values up to 127; over bytes, `vapor_encode_base64` indexes
`Base64Code` only with values up to 63; and a successful `decode_base64` has
stored exactly `len` bytes and read exactly the first `ceil (4 * len / 3)`
characters. The traced functions compute what the untraced ones compute. -/
theorem reads_stay_in_bounds (key salt : List Nat) (encryptedlen len : Nat)
    (b64data data : List Nat) :
    (hashpass_ParseInput_traced key salt).1 = hashpass_ParseInput key salt ∧
      (∀ i ∈ vapor_bcrypt_hashpass_reads key salt encryptedlen, i ≤ strlen salt) ∧
      (decode_base64_loop_traced len b64data).1 = decode_base64 len b64data ∧
      (∀ i ∈ (decode_base64_loop_traced len b64data).2, i ≤ strlen b64data) ∧
      (∀ c i, CHAR64_index c = some i →
        i ≤ 127 ∧ i < index_64.length ∧ CHAR64 c = index_64.getD i 255) ∧
      (∀ c, CHAR64_index c = none → CHAR64 c = 255) ∧
      vapor_encode_base64_loop len data =
        (vapor_encode_base64_loop_indices len data).map Base64Char ∧
      ((∀ x ∈ data, x < 256) → ∀ i ∈ vapor_encode_base64_loop_indices len data,
        i ≤ 63 ∧ i < Base64Code.length) ∧
      ((decode_base64 len b64data).1 = 0 →
        (decode_base64 len b64data).2.length = len ∧
        (decode_base64_loop_traced len b64data).2 = List.range (b64len len)) ∧
      4 * len ≤ 3 * b64len len ∧ 3 * b64len len < 4 * len + 3 := by
  refine ⟨hashpass_ParseInput_traced_fst key salt, ?_,
    decode_base64_loop_traced_fst len b64data, decode_base64_loop_traced_le len b64data,
    ?_, ?_, vapor_encode_base64_loop_indices_map len data, ?_, ?_, ?_, ?_⟩
  · intro i hi
    unfold vapor_bcrypt_hashpass_reads at hi
    split_ifs at hi
    · simp at hi
    · exact hashpass_ParseInput_traced_le key salt i hi
  · intro c i hci
    unfold CHAR64_index at hci
    split_ifs at hci with hc
    have e := Option.some.inj hci
    subst e
    refine ⟨by omega, by rw [Base64Code_shape.2.2.1]; omega, ?_⟩
    simp only [CHAR64, if_neg hc]
  · intro c hc
    unfold CHAR64_index at hc
    split_ifs at hc with h
    simp only [CHAR64, if_pos h]
  · intro hb i hi
    have := vapor_encode_base64_loop_indices_le len data hb i hi
    exact ⟨this, by rw [Base64Code_shape.2.1]; omega⟩
  · intro h
    refine ⟨decode_base64_loop_length len b64data h, ?_⟩
    apply decode_base64_loop_traced_ok
    rw [decode_base64_loop_traced_fst]
    exact h
  · unfold b64len
    omega
  · unfold b64len
    omega

end Bcrypt
